import Mathlib

/-!
The scan-and-reconcile engine of import-kit: header rules, row grouping and
the error ledger.

A shallow embedding of `core/rule.go`, `core/check.go`, `core/rows.go`,
`core/errors.go`, `core/import.go`, `core/extra_column.go` and
`core/error_message.go`.

Conventions of the embedding:
* a Go `string` is a `String`, a slice is a `List`, an `int` that can be
  negative is an `Int`, a loop counter or a length is a `Nat`;
* a Go function that can stop with a run-time panic (index out of range, nil
  dereference) returns an `Option`, `none` being the panic;
* a Go `map` is an association list with at most one binding per key;
* a Go `error` is its message, a nilable `error` is an `Option String`.
-/

namespace ImportKit

/-! ## Strings and maps -/

/-- Go's `unicode.IsSpace`: the Latin-1 spaces and the code points with the
White_Space property. -/
def isSpace (c : Char) : Bool :=
  let n := c.toNat
  n == 9 || n == 10 || n == 11 || n == 12 || n == 13 || n == 32 || n == 0x85 || n == 0xA0
    || n == 0x1680 || (0x2000 ≤ n && n ≤ 0x200a) || n == 0x2028 || n == 0x2029
    || n == 0x202f || n == 0x205f || n == 0x3000

/-- Go's `strings.TrimSpace`: drops the leading and the trailing white space. -/
def TrimSpace (s : String) : String :=
  String.mk ((s.data.dropWhile isSpace).reverse.dropWhile isSpace).reverse

/-- Go's `strings.Join`. -/
def Join (elems : List String) (sep : String) : String :=
  String.mk (List.intercalate sep.data (elems.map String.data))

/-- Go's `s[i]` for an `int` index: `none` is the out-of-range panic. -/
def index {α : Type} (s : List α) (i : Int) : Option α :=
  if i < 0 then none else s[i.toNat]?

/-- A Go map: an association list holding at most one binding per key. -/
abbrev GoMap (κ α : Type) := List (κ × α)

/-- The lookup `v, ok := m[k]`. -/
def GoMap.get {κ α : Type} [DecidableEq κ] (m : GoMap κ α) (k : κ) : Option α :=
  match m with
  | [] => none
  | (k', v) :: rest => if k' = k then some v else GoMap.get rest k

/-- The lookup `m[k]` that yields the zero value `d` for an absent key. -/
def GoMap.getD {κ α : Type} [DecidableEq κ] (m : GoMap κ α) (k : κ) (d : α) : α :=
  (GoMap.get m k).getD d

/-- The assignment `m[k] = v`: an existing binding is updated where it
stands, a fresh one joins at the end. -/
def GoMap.set {κ α : Type} [DecidableEq κ] (m : GoMap κ α) (k : κ) (v : α) : GoMap κ α :=
  match m with
  | [] => [(k, v)]
  | (k', v') :: rest => if k' = k then (k', v) :: rest else (k', v') :: GoMap.set rest k v

/-! ## `core/check.go`: slice helpers -/

/-- The loop of `equalStringSlice` over two slices of equal length. -/
def equalStringSlice.loop : List String → List String → Bool
  | a :: as, b :: bs => if a ≠ b then false else equalStringSlice.loop as bs
  | _, _ => true

/-- `equalStringSlice`: equal lengths and equal cells at every index. -/
def equalStringSlice (a b : List String) : Bool :=
  if a.length ≠ b.length then false else equalStringSlice.loop a b

/-- `isEmpty`: every cell is blank once trimmed. -/
def isEmpty : List String → Bool
  | [] => true
  | s :: ss => if TrimSpace s ≠ "" then false else isEmpty ss

/-! ## `core/rule.go`: the header rule automaton -/

/-- `HeaderRule`. -/
structure HeaderRule where
  Value : String
  IsRepetition : Bool
  deriving DecidableEq, Repr

/-- `HeaderRuleGroup`. -/
structure HeaderRuleGroup where
  Values : List HeaderRule
  IsRepetition : Bool
  deriving DecidableEq, Repr

/-- `HeaderRuleValidate`. -/
structure HeaderRuleValidate where
  FixedColumnCount : Int
  AllowedStartValue : List String
  AllowedEndValue : List String
  RuleGroups : List HeaderRuleGroup
  deriving DecidableEq, Repr

/-- `headerRuleNode`. -/
structure headerRuleNode where
  value : String
  nextIndex : List Nat
  deriving DecidableEq, Repr

/-- The three locals `nodes()` builds in its first pass. -/
structure nodes.State where
  mapNodeIndex : GoMap String Nat
  mapNextNodes : GoMap String (List String)
  res : List headerRuleNode
  deriving DecidableEq, Repr

/-- The statement `mapNextNodes[value] = append(mapNextNodes[value], w)`. -/
def nodes.link (s : nodes.State) (value w : String) : nodes.State :=
  { s with mapNextNodes := GoMap.set s.mapNextNodes value (GoMap.getD s.mapNextNodes value [] ++ [w]) }

/-- The body of the inner loop of `nodes()` at group `i`, value `j`. -/
def nodes.step (p : HeaderRuleValidate) (i : Nat) (g : HeaderRuleGroup) (j : Nat)
    (r : HeaderRule) (s : nodes.State) : Option nodes.State :=
  let value := r.Value
  let s1 : nodes.State :=
    { s with mapNodeIndex := GoMap.set s.mapNodeIndex value s.res.length,
             res := s.res ++ [{ value := value, nextIndex := [] }] }
  let s2 := if r.IsRepetition then nodes.link s1 value value else s1
  if j + 1 = g.Values.length then
    let s3 : Option nodes.State :=
      if g.IsRepetition then (g.Values[0]?).map (fun f => nodes.link s2 value f.Value) else some s2
    match s3 with
    | none => none
    | some s3 =>
      if p.RuleGroups.length > 1 then
        match p.RuleGroups[(i + 1) % p.RuleGroups.length]? with
        | none => none
        | some nxt => (nxt.Values[0]?).map (fun f => nodes.link s3 value f.Value)
      else some s3
  else (g.Values[j + 1]?).map (fun f => nodes.link s2 value f.Value)

/-- The inner loop of `nodes()`, from value `j` on. -/
def nodes.values (p : HeaderRuleValidate) (i : Nat) (g : HeaderRuleGroup) :
    Nat → List HeaderRule → nodes.State → Option nodes.State
  | _, [], s => some s
  | j, r :: rs, s =>
    match nodes.step p i g j r s with
    | none => none
    | some s1 => nodes.values p i g (j + 1) rs s1

/-- The outer loop of `nodes()`, from group `i` on. -/
def nodes.groups (p : HeaderRuleValidate) :
    Nat → List HeaderRuleGroup → nodes.State → Option nodes.State
  | _, [], s => some s
  | i, g :: gs, s =>
    match nodes.values p i g 0 g.Values s with
    | none => none
    | some s1 => nodes.groups p (i + 1) gs s1

/-- The second pass of `nodes()`: the next-index list of a node is read off
the two maps at the node's value. -/
def nodes.resolve (s : nodes.State) (value : String) : List Nat :=
  (GoMap.getD s.mapNextNodes value []).map (fun w => GoMap.getD s.mapNodeIndex w 0)

/-- `HeaderRuleValidate.nodes`. -/
def nodes (p : HeaderRuleValidate) : Option (List headerRuleNode) :=
  match nodes.groups p 0 p.RuleGroups { mapNodeIndex := [], mapNextNodes := [], res := [] } with
  | none => none
  | some s => some (s.res.map (fun nd => { value := nd.value, nextIndex := nodes.resolve s nd.value }))

/-- The loop of `Validate` that keeps the non-blank cells, trimmed. -/
def Validate.compact : List String → List String
  | [] => []
  | c :: cs =>
    let row := TrimSpace c
    if row ≠ "" then row :: Validate.compact cs else Validate.compact cs

/-- The closure `existAtAllowedStartValue`, also the loop of
`validateAllowedEndValue`. -/
def existAt : List String → String → Bool
  | [], _ => false
  | a :: as, value => if a = value then true else existAt as value

/-- The loop of `validateFixed` over the fixed columns `i, i+1, ...` with `k`
columns left. -/
def validateFixed.loop (firstTplRow firstUploadRow : List String) : Nat → Nat → Option Bool
  | _, 0 => some true
  | i, k + 1 =>
    match firstUploadRow[i]?, firstTplRow[i]? with
    | some u, some t => if u ≠ t then some false else validateFixed.loop firstTplRow firstUploadRow (i + 1) k
    | _, _ => none

/-- `HeaderRuleValidate.validateFixed`. -/
def validateFixed (p : HeaderRuleValidate) (firstTplRow firstUploadRow : List String) : Option Bool :=
  if p.FixedColumnCount = 0 then
    if firstTplRow.length ≠ 0 then some false
    else
      match firstUploadRow[0]? with
      | none => none
      | some c => if !(existAt p.AllowedStartValue c) then some false else some true
  else validateFixed.loop firstTplRow firstUploadRow 0 p.FixedColumnCount.toNat

/-- `HeaderRuleValidate.validateAllowedEndValue`. -/
def validateAllowedEndValue (p : HeaderRuleValidate) (firstUploadRow : List String) : Option Bool :=
  match index firstUploadRow ((firstUploadRow.length : Int) - 1) with
  | none => none
  | some lastUploadHeaderRow => some (existAt p.AllowedEndValue lastUploadHeaderRow)

/-- The first loop of `validateRule`: the index of the first node, from
index `i` on, whose value is the cell. -/
def validateRule.start (c : String) : List headerRuleNode → Nat → Option Nat
  | [], _ => none
  | nd :: rest, i => if c = nd.value then some i else validateRule.start c rest (i + 1)

/-- The inner loop of `validateRule`: the first next index whose node holds
the cell; the outer `none` is an index outside the node list. -/
def validateRule.next (ns : List headerRuleNode) (c : String) : List Nat → Option (Option Nat)
  | [] => some none
  | k :: ks =>
    match ns[k]? with
    | none => none
    | some nd => if nd.value = c then some (some k) else validateRule.next ns c ks

/-- The second loop of `validateRule` over the cells after the start cell. -/
def validateRule.walk (ns : List headerRuleNode) : Nat → List String → Option Bool
  | _, [] => some true
  | cur, c :: cs =>
    match ns[cur]? with
    | none => none
    | some nd =>
      match validateRule.next ns c nd.nextIndex with
      | none => none
      | some none => some false
      | some (some k) => validateRule.walk ns k cs

/-- `HeaderRuleValidate.validateRule`. -/
def validateRule (p : HeaderRuleValidate) (firstUploadRow : List String) : Option Bool :=
  match nodes p with
  | none => none
  | some ns =>
    match ns with
    | [] => some false
    | _ :: _ =>
      match index firstUploadRow p.FixedColumnCount with
      | none => none
      | some c =>
        match validateRule.start c ns 0 with
        | none => some false
        | some cur => validateRule.walk ns cur (firstUploadRow.drop (p.FixedColumnCount.toNat + 1))

/-- Go's short-circuit `a && b` over calls that may panic. -/
def andThen (a : Option Bool) (b : Unit → Option Bool) : Option Bool :=
  match a with
  | none => none
  | some false => some false
  | some true => b ()

/-- `HeaderRuleValidate.validate`. -/
def validate (p : HeaderRuleValidate) (firstTplRow firstUploadRow : List String) : Option Bool :=
  andThen (validateFixed p firstTplRow firstUploadRow) fun _ =>
    andThen (validateAllowedEndValue p firstUploadRow) fun _ =>
      validateRule p firstUploadRow

/-- `HeaderRuleValidate.Validate`. -/
def Validate (p : HeaderRuleValidate) (firstTplRow firstUploadRow : List String) : Option Bool :=
  let firstUploadRow := Validate.compact firstUploadRow
  let firstUploadRowLength : Int := firstUploadRow.length
  let firstTplRowLength : Int := firstTplRow.length
  let fixedColumnCount := p.FixedColumnCount
  if firstUploadRowLength < fixedColumnCount ∨ firstTplRowLength < fixedColumnCount
      ∨ firstUploadRowLength < firstTplRowLength ∨ firstUploadRowLength = 0 then some false
  else if firstUploadRowLength = firstTplRowLength then
    some (equalStringSlice firstTplRow firstUploadRow)
  else validate p firstTplRow firstUploadRow

/-- The configuration of scenario A: two fixed columns, no rule groups. -/
def scenarioA : HeaderRuleValidate :=
  { FixedColumnCount := 2, AllowedStartValue := [], AllowedEndValue := [], RuleGroups := [] }

/-- The configuration of scenario B: two fixed columns and one repeating
group holding the repeating value `extra1`, which is also the end value. -/
def scenarioB : HeaderRuleValidate :=
  { FixedColumnCount := 2, AllowedStartValue := [], AllowedEndValue := ["extra1"],
    RuleGroups := [{ Values := [{ Value := "extra1", IsRepetition := true }], IsRepetition := true }] }

/-! ## `core/errors.go` and `core/rows.go`: rows and their failures -/

/-- `Errors`: the non-nil errors of a row, each by its message. -/
abbrev Errors := List String

/-- `Errors.Append`: nil errors are left out. -/
def Errors.Append (p : Errors) : List (Option String) → Errors
  | [] => p
  | none :: es => Errors.Append p es
  | some e :: es => Errors.Append (p ++ [e]) es

/-- The loop of `Errors.ToErrMessages`: the messages not met before, in order. -/
def Errors.ToErrMessages.loop : List String → List String → List String → List String
  | [], _, errMessages => errMessages
  | e :: es, mapErrMessage, errMessages =>
    if e ∈ mapErrMessage then Errors.ToErrMessages.loop es mapErrMessage errMessages
    else Errors.ToErrMessages.loop es (e :: mapErrMessage) (errMessages ++ [e])

/-- `Errors.ToErrMessages`. -/
def Errors.ToErrMessages (p : Errors) : List String :=
  Errors.ToErrMessages.loop p [] []

/-- `Errors.PrintError`: nil for no error, else the distinct messages joined. -/
def Errors.PrintError (p : Errors) : Option String :=
  if p.length = 0 then none else some (TrimSpace (Join (Errors.ToErrMessages p) "; "))

/-- `row`: the decoded data, the form index, the failures and the flag. -/
structure row (δ : Type) where
  Data : δ
  index : Nat
  errs : Errors
  isErr : Bool
  deriving DecidableEq, Repr

/-- `rows`: the member rows of a logical unit; the field `rowsLen` of the
source grows by one with every `Append`, so it is the length of the list. -/
abbrev rows (δ : Type) := List (row δ)

/-- `newRows`. -/
def newRows (δ : Type) : rows δ := []

/-- `rows.Append`. -/
def rows.Append {δ : Type} (rs : rows δ) (data : δ) (index : Nat) : rows δ :=
  rs ++ [{ Data := data, index := index, errs := [], isErr := false }]

/-- `rows.Count`. -/
def rows.Count {δ : Type} (rs : rows δ) : Nat := rs.length

/-- `row.SetErrs`. -/
def row.SetErrs {δ : Type} (r : row δ) (errs : List (Option String)) : row δ :=
  if errs.length = 0 then r
  else { r with errs := Errors.Append r.errs errs, isErr := true }

/-- `row.GetErrs`. -/
def row.GetErrs {δ : Type} (r : row δ) : Errors := r.errs

/-- `row.GetFormIndex`. -/
def row.GetFormIndex {δ : Type} (r : row δ) : Nat := r.index

/-- `row.IsErr`. -/
def row.IsErr {δ : Type} (r : row δ) : Bool := r.isErr

/-- `rows.SetRowsErrs`. -/
def rows.SetRowsErrs {δ : Type} (rs : rows δ) (errs : List (Option String)) : rows δ :=
  if errs.length = 0 then rs else rs.map (fun r => row.SetErrs r errs)

/-- `rows.IsErr`. -/
def rows.IsErr {δ : Type} : rows δ → Bool
  | [] => false
  | r :: rs => if row.IsErr r then true else rows.IsErr rs

/-- The call `rs.GetRow(j).SetErrs(errs...)`: beyond the last row `GetRow`
hands out a fresh empty row, so the unit is left as it is. -/
def rows.SetErrsAt {δ : Type} : rows δ → Nat → List (Option String) → rows δ
  | [], _, _ => []
  | r :: rs, 0, errs => row.SetErrs r errs :: rs
  | r :: rs, j + 1, errs => r :: rows.SetErrsAt rs j errs

/-- What a consumer does to the unit it is handed: it attaches failures to
one member row or to all of them. -/
inductive Attach where
  | SetErrs (j : Nat) (errs : List (Option String))
  | SetRowsErrs (errs : List (Option String))
  deriving DecidableEq, Repr

/-- The unit after one call of the consumer. -/
def Attach.apply {δ : Type} (rs : rows δ) : Attach → rows δ
  | Attach.SetErrs j errs => rows.SetErrsAt rs j errs
  | Attach.SetRowsErrs errs => rows.SetRowsErrs rs errs

/-- `ImplementorContainer.Submit`, by the calls it makes on the unit. -/
def Submit {δ : Type} (consumer : rows δ → List Attach) (rs : rows δ) : rows δ :=
  (consumer rs).foldl Attach.apply rs

/-! ## `core/options.go` -/

/-- `ErrorWriteBackModeAnyRow`. -/
def ErrorWriteBackModeAnyRow : String := "any"

/-- `ErrorWriteBackModeAssignRow`. -/
def ErrorWriteBackModeAssignRow : String := "assign"

/-- `ErrorWriteBackMode.errorWriteBackModeIsAny`. -/
def errorWriteBackModeIsAny (e : String) : Bool :=
  e = "" || e = ErrorWriteBackModeAnyRow

/-! ## `core/error_message.go`: the error ledger -/

/-- `errorMessage`. -/
structure errorMessage where
  rowIndex : Nat
  err : Option String
  deriving DecidableEq, Repr

/-- The error file: the rows of its sheet as the stream writer flushed them,
each with the number `n` of its cell reference `An`. The style of the last
cell is left out. -/
structure File where
  sheet : List (Nat × List String)
  deriving DecidableEq, Repr

/-- What the libraries outside the repository do in a call of `Build`: the
answers of the spreadsheet library to the three fallible calls
`NewStreamWriter`, `NewStyle` and `Flush`, each an error or nil, and the
arrangement `sort.Slice` gives a slice of more than 12 entries, which the Go
library does not fix among entries of equal row index. -/
structure Library where
  NewStreamWriter : Option String
  NewStyle : Option String
  Flush : Option String
  sortLong : List errorMessage → List errorMessage

/-- `errorMessages`. -/
structure errorMessages where
  errors : List errorMessage
  errFile : Option File
  deriving DecidableEq, Repr

/-- `newErrorMessages`. -/
def newErrorMessages : errorMessages := { errors := [], errFile := none }

/-- `newFile`. -/
def newFile : File := { sheet := [] }

/-- `errorMessages.Append`. -/
def errorMessages.Append (p : errorMessages) (rowIndex : Nat) (err : Option String) : errorMessages :=
  { p with errors := p.errors ++ [{ rowIndex := rowIndex, err := err }] }

/-- `errorMessages.Count`. -/
def errorMessages.Count (p : errorMessages) : Nat := p.errors.length

/-- `errorMessages.GetErrFile`. -/
def errorMessages.GetErrFile (p : errorMessages) : Option File := p.errFile

/-- The call `sort.Slice` of `Build`, ascending by row index. Go (1.19 and
later) sorts a slice of at most 12 entries by insertion sort, which keeps
entries of equal row index in their order; a longer slice is arranged by the
library's pattern-defeating quicksort, taken from `lib`. -/
def sortSlice (lib : Library) (errors : List errorMessage) : List errorMessage :=
  if errors.length ≤ 12 then errors.insertionSort (fun a b => a.rowIndex ≤ b.rowIndex)
  else lib.sortLong errors

/-- The loop of `Build` filling `mapErrorRowIndex`, from entry `i` on. -/
def Build.mapErrorRowIndex : Nat → List errorMessage → GoMap Nat Nat → GoMap Nat Nat
  | _, [], m => m
  | i, e :: es, m => Build.mapErrorRowIndex (i + 1) es (GoMap.set m e.rowIndex i)

/-- Go's `copy(dst, src)`. -/
def copy (dst src : List String) : List String :=
  src.take dst.length ++ dst.drop src.length

/-- The label of the appended column on the first header row. -/
def errorReasonLabel : String := "错误提示"

/-- The cells `Build` hands to `SetRow` for one table row: the row copied
into `maxColumnNum + 1` empty cells, the last cell then overwritten when
there is a text for it. -/
def Build.rowData (maxColumnNum : Nat) (r : List String) (last : Option String) : List String :=
  let rowData := copy (List.replicate (maxColumnNum + 1) "") r
  match last with
  | some text => rowData.set maxColumnNum text
  | none => rowData

/-- The body of the loop of `Build` at table row `i`: the call of `SetRow` it
makes, if any, as the number `n` of the cell reference `An` and the cells.
The outer `none` is an entry index outside the entry list. -/
def Build.row (errors : List errorMessage) (mapErrorRowIndex : GoMap Nat Nat)
    (maxColumnNum skipRowNum : Nat) (i : Nat) (r : List String) :
    Option (Option (Nat × List String)) :=
  if i < skipRowNum then
    some (some (i + 1, Build.rowData maxColumnNum r (if i = 0 then some errorReasonLabel else none)))
  else
    match GoMap.get mapErrorRowIndex i with
    | none => some none
    | some errIndex =>
      match errors[errIndex]? with
      | none => none
      | some e => some (some (errIndex + skipRowNum + 1, Build.rowData maxColumnNum r e.err))

/-- The loop of `Build` over the table, from row `i` on: the calls of
`SetRow`, in order. -/
def Build.loop (errors : List errorMessage) (mapErrorRowIndex : GoMap Nat Nat)
    (maxColumnNum skipRowNum : Nat) : Nat → List (List String) → Option (List (Nat × List String))
  | _, [] => some []
  | i, r :: rs =>
    match Build.row errors mapErrorRowIndex maxColumnNum skipRowNum i r with
    | none => none
    | some w =>
      (Build.loop errors mapErrorRowIndex maxColumnNum skipRowNum (i + 1) rs).map
        (fun ws => w.toList ++ ws)

/-- What a call of `Build` leaves: the returned error, the ledger, the table
(whose rows `Build` sets to nil as it goes) and the calls of `SetRow` made. -/
structure Build.Result where
  err : Option String
  ledger : errorMessages
  rows : List (List String)
  written : List (Nat × List String)
  deriving DecidableEq, Repr

/-- `errorMessages.Build`. -/
def Build (lib : Library) (p : errorMessages) (rows : List (List String))
    (maxColumnNum skipRowNum : Nat) : Option Build.Result :=
  if errorMessages.Count p = 0 then some { err := none, ledger := p, rows := rows, written := [] }
  else
    let errors := sortSlice lib p.errors
    let mapErrorRowIndex := Build.mapErrorRowIndex 0 errors []
    let errFile := p.errFile.getD newFile
    let p1 : errorMessages := { errors := errors, errFile := some errFile }
    match lib.NewStreamWriter with
    | some e =>
      some { err := some ("newErrFile error: " ++ ("new stream write error: " ++ e)),
             ledger := p1, rows := rows, written := [] }
    | none =>
      match lib.NewStyle with
      | some e =>
        some { err := some ("newErrFile error: " ++ ("NewStyle error: " ++ e)),
               ledger := p1, rows := rows, written := [] }
      | none =>
        match Build.loop errors mapErrorRowIndex maxColumnNum skipRowNum 0 rows with
        | none => none
        | some written =>
          match lib.Flush with
          | some e =>
            some { err := some ("stream write flush error: " ++ e), ledger := p1,
                   rows := rows.map (fun _ => []), written := written }
          | none =>
            some { err := none, ledger := { errors := [], errFile := some { sheet := written } },
                   rows := rows.map (fun _ => []), written := written }

/-- Libraries whose calls all succeed and that sort a long slice by
insertion sort too. -/
def Library.ok : Library :=
  { NewStreamWriter := none, NewStyle := none, Flush := none,
    sortLong := fun errors => errors.insertionSort (fun a b => a.rowIndex ≤ b.rowIndex) }

/-- Libraries as `Library.ok`, except that the stream writer cannot be opened. -/
def Library.closed : Library := { Library.ok with NewStreamWriter := some "closed" }

/-! ## `core/import.go`: grouping rows and the scan -/

/-- `uniqueColumn`: the rows held for one key and how many are still to come. -/
structure uniqueColumn (δ : Type) where
  rowsData : rows δ
  mergeNum : Int
  deriving DecidableEq, Repr

/-- `groupRows`; the field `indexesLen` of the source is always the length of
`indexes`. A slot of `rows` is `none` where the source holds a nil pointer. -/
structure groupRows (δ : Type) where
  rows : List (Option (uniqueColumn δ))
  keyMapIndex : GoMap String Nat
  indexes : List Nat
  errorWriteBackMode : String
  deriving DecidableEq, Repr

/-- The field `indexesLen`. -/
def groupRows.indexesLen {δ : Type} (g : groupRows δ) : Nat := g.indexes.length

/-- `taskScheduler`, once the rows are read: `rowsCount` is the length of
`rows`; a row the row source left empty is the nil slice, here `[]`. The row
decoder is taken as a function of the running `maxColumnNum` and the raw row,
giving the decoded record and the new `maxColumnNum`. -/
structure taskScheduler (δ : Type) where
  rows : List (List String)
  skipRowNum : Nat
  maxColumnNum : Nat
  groupRows : groupRows δ
  parseRowData : Nat → List String → δ × Nat

/-- The field `rowsCount`. -/
def taskScheduler.rowsCount {δ : Type} (p : taskScheduler δ) : Nat := p.rows.length

/-- `taskScheduler.isEnableGroupRows`. -/
def isEnableGroupRows {δ : Type} (g : groupRows δ) : Bool := g.indexesLen > 0

/-- The inner loop of `setUniqueColumnMapRowNum`: the cells `keys[j], ...` of
a row, `k` of them left; a nil row leaves them empty, and the cell read is
`rows[i][j]`. -/
def setUniqueColumnMapRowNum.keys (row : List String) : Nat → Nat → Option (List String)
  | _, 0 => some []
  | j, k + 1 =>
    if row = [] then (setUniqueColumnMapRowNum.keys row (j + 1) k).map (fun ks => "" :: ks)
    else
      match row[j]? with
      | none => none
      | some c => (setUniqueColumnMapRowNum.keys row (j + 1) k).map (fun ks => TrimSpace c :: ks)

/-- The key under which `setUniqueColumnMapRowNum` counts a row. -/
def setUniqueColumnMapRowNum.key (indexesLen : Nat) (row : List String) : Option String :=
  (setUniqueColumnMapRowNum.keys row 0 indexesLen).map (fun keys => Join keys ":")

/-- The locals and fields the first loop of `setUniqueColumnMapRowNum` works on. -/
structure setUniqueColumnMapRowNum.State (δ : Type) where
  keyNum : GoMap String Nat
  keyStartIndex : GoMap String Unit
  rows : List (Option (uniqueColumn δ))
  keyMapIndex : GoMap String Nat
  deriving DecidableEq, Repr

/-- The first loop of `setUniqueColumnMapRowNum`, from table row `i` on. -/
def setUniqueColumnMapRowNum.loop {δ : Type} (skipRowNum indexesLen : Nat) :
    Nat → List (List String) → setUniqueColumnMapRowNum.State δ →
      Option (setUniqueColumnMapRowNum.State δ)
  | _, [], s => some s
  | i, r :: rs, s =>
    match setUniqueColumnMapRowNum.key indexesLen r with
    | none => none
    | some key =>
      let keyNum := GoMap.set s.keyNum key (GoMap.getD s.keyNum key 0 + 1)
      let grows := s.rows ++ [none]
      match GoMap.get s.keyStartIndex key with
      | some _ =>
        setUniqueColumnMapRowNum.loop skipRowNum indexesLen (i + 1) rs
          { s with keyNum := keyNum, rows := grows }
      | none =>
        let groupRowIndex := i - skipRowNum
        if groupRowIndex < grows.length then
          setUniqueColumnMapRowNum.loop skipRowNum indexesLen (i + 1) rs
            { keyNum := keyNum,
              keyStartIndex := GoMap.set s.keyStartIndex key (),
              rows := grows.set groupRowIndex (some { rowsData := newRows δ, mergeNum := 0 }),
              keyMapIndex := GoMap.set s.keyMapIndex key groupRowIndex }
        else none

/-- The second loop of `setUniqueColumnMapRowNum`, over the bindings of
`keyMapIndex`: every binding writes the count of its key into its own slot. -/
def setUniqueColumnMapRowNum.fill {δ : Type} (keyNum : GoMap String Nat) :
    List (String × Nat) → List (Option (uniqueColumn δ)) → Option (List (Option (uniqueColumn δ)))
  | [], slots => some slots
  | (key, index) :: rest, slots =>
    match GoMap.get keyNum key with
    | none => setUniqueColumnMapRowNum.fill keyNum rest slots
    | some num =>
      match slots[index]? with
      | some (some u) =>
        setUniqueColumnMapRowNum.fill keyNum rest (slots.set index (some { u with mergeNum := num }))
      | _ => none

/-- `taskScheduler.setUniqueColumnMapRowNum`, on the group table. -/
def setUniqueColumnMapRowNum {δ : Type} (p : taskScheduler δ) : Option (groupRows δ) :=
  if !(isEnableGroupRows p.groupRows) then some p.groupRows
  else
    match setUniqueColumnMapRowNum.loop p.skipRowNum p.groupRows.indexesLen p.skipRowNum
        (p.rows.drop p.skipRowNum)
        { keyNum := [], keyStartIndex := [], rows := p.groupRows.rows,
          keyMapIndex := p.groupRows.keyMapIndex } with
    | none => none
    | some s =>
      match setUniqueColumnMapRowNum.fill s.keyNum s.keyMapIndex s.rows with
      | none => none
      | some slots => some { p.groupRows with rows := slots, keyMapIndex := s.keyMapIndex }

/-- The loop of `getUniqueColumnIndex` for several indexes: the trimmed
cells at the indexes, `none` when an index is at or beyond the row's width. -/
def getUniqueColumnIndex.keys (rowData : List String) : List Nat → Option (List String)
  | [] => some []
  | ix :: ixs =>
    if ix ≥ rowData.length then none
    else
      match rowData[ix]? with
      | none => none
      | some c => (getUniqueColumnIndex.keys rowData ixs).map (fun ks => TrimSpace c :: ks)

/-- The key by which `getUniqueColumnIndex` looks a row up: with one index
the cell as it stands, with several the trimmed cells joined; `none` when an
index is at or beyond the row's width. -/
def getUniqueColumnIndex.key (indexes : List Nat) (rowData : List String) : Option String :=
  match indexes with
  | [ix] => if ix ≥ rowData.length then none else rowData[ix]?
  | _ => (getUniqueColumnIndex.keys rowData indexes).map (fun keys => Join keys ":")

/-- `taskScheduler.getUniqueColumnIndex`: the pair `(index, ok)`. -/
def getUniqueColumnIndex {δ : Type} (g : groupRows δ) (rowData : List String) : Nat × Bool :=
  if !(isEnableGroupRows g) then (0, false)
  else
    match getUniqueColumnIndex.key g.indexes rowData with
    | none => (0, false)
    | some key =>
      match GoMap.get g.keyMapIndex key with
      | some index => (index, true)
      | none => (0, false)

/-- The ledger entries `Run` appends for a unit the consumer has returned. -/
def Run.report {δ : Type} (errorWriteBackMode : String) (rowsData : rows δ) : List errorMessage :=
  if rows.IsErr rowsData then
    rowsData.filterMap (fun rowData =>
      let formIndex := row.GetFormIndex rowData
      let printErr := if (row.GetErrs rowData).length > 0 then Errors.PrintError (row.GetErrs rowData) else none
      if errorWriteBackModeIsAny errorWriteBackMode || printErr ≠ none then
        some { rowIndex := formIndex, err := printErr }
      else none)
  else []

/-- What the scan loop of `Run` works on: the group slots, the widest row
seen, the blank rows met, the ledger entries, and the units handed to
`Submit`, each with the table index of the iteration that submitted it. -/
structure Run.State (δ : Type) where
  slots : List (Option (uniqueColumn δ))
  maxColumnNum : Nat
  emptyRowNum : Nat
  errMessages : errorMessages
  submitted : List (Nat × rows δ)
  deriving DecidableEq, Repr

/-- The part of the loop body of `Run` from `Submit` on. -/
def Run.submit {δ : Type} (consumer : rows δ → List Attach) (errorWriteBackMode : String)
    (i : Nat) (rowsData : rows δ) (s : Run.State δ) : Run.State δ :=
  { s with
    submitted := s.submitted ++ [(i, rowsData)],
    errMessages :=
      (Run.report errorWriteBackMode (Submit consumer rowsData)).foldl
        (fun em e => errorMessages.Append em e.rowIndex e.err) s.errMessages }

/-- The scan loop of `Run`, from table row `i` on. The progress hook, whose
failure is only logged, is left out. -/
def Run.loop {δ : Type} (parseRowData : Nat → List String → δ × Nat)
    (g : groupRows δ) (consumer : rows δ → List Attach) :
    Nat → List (List String) → Run.State δ → Option (Run.State δ)
  | _, [], s => some s
  | i, r :: rs, s =>
    if isEmpty r then
      Run.loop parseRowData g consumer (i + 1) rs { s with emptyRowNum := s.emptyRowNum + 1 }
    else
      let parsed := parseRowData s.maxColumnNum r
      let s := { s with maxColumnNum := parsed.2 }
      match getUniqueColumnIndex g r with
      | (index, true) =>
        match s.slots[index]? with
        | some (some u) =>
          let u : uniqueColumn δ :=
            { rowsData := rows.Append u.rowsData parsed.1 i, mergeNum := u.mergeNum - 1 }
          if u.mergeNum > 0 then
            Run.loop parseRowData g consumer (i + 1) rs { s with slots := s.slots.set index (some u) }
          else
            Run.loop parseRowData g consumer (i + 1) rs
              (Run.submit consumer g.errorWriteBackMode i u.rowsData
                { s with slots := s.slots.set index none })
        | _ => none
      | (_, false) =>
        Run.loop parseRowData g consumer (i + 1) rs
          (Run.submit consumer g.errorWriteBackMode i (rows.Append (newRows δ) parsed.1 i) s)

/-- What `Run` leaves behind: the units submitted, the counts and the ledger
handed to `End` (`ended` tells whether `End` was called), what `Build`
returned, and the entries the scan had appended to the ledger before `Build`
sorted and cleared them. -/
structure Run.Result (δ : Type) where
  submitted : List (Nat × rows δ)
  ended : Bool
  doneCount : Nat
  errorCount : Nat
  errMessages : errorMessages
  buildErr : Option String
  appended : List errorMessage
  deriving DecidableEq, Repr

/-- `taskScheduler.Run`, from the point where the rows have been read: the
calls of `Start`, `OpenFile` and `readRows` have succeeded, and the error
`End` may return is the caller's. -/
def Run {δ : Type} (p : taskScheduler δ) (consumer : rows δ → List Attach) (lib : Library) :
    Option (Run.Result δ) :=
  if p.rowsCount ≤ p.skipRowNum then
    some { submitted := [], ended := false, doneCount := 0, errorCount := 0,
           errMessages := newErrorMessages, buildErr := none, appended := [] }
  else
    match setUniqueColumnMapRowNum p with
    | none => none
    | some g =>
      match Run.loop p.parseRowData g consumer p.skipRowNum (p.rows.drop p.skipRowNum)
          { slots := g.rows, maxColumnNum := p.maxColumnNum, emptyRowNum := 0,
            errMessages := newErrorMessages, submitted := [] } with
      | none => none
      | some s =>
        let doneCount := p.rowsCount - p.skipRowNum - s.emptyRowNum
        let errorCount := errorMessages.Count s.errMessages
        match Build lib s.errMessages p.rows s.maxColumnNum p.skipRowNum with
        | none => none
        | some b =>
          some { submitted := s.submitted, ended := true, doneCount := doneCount,
                 errorCount := errorCount, errMessages := b.ledger, buildErr := b.err,
                 appended := s.errMessages.errors }

/-- A scheduler over raw rows: the decoded record is the row itself. -/
def rawScheduler (rows : List (List String)) (skipRowNum : Nat) (indexes : List Nat)
    (errorWriteBackMode : String) : taskScheduler (List String) :=
  { rows := rows, skipRowNum := skipRowNum, maxColumnNum := 0,
    groupRows := { rows := [], keyMapIndex := [], indexes := indexes,
                   errorWriteBackMode := errorWriteBackMode },
    parseRowData := fun m r => (r, m) }

/-- A consumer that attaches nothing. -/
def quietConsumer {δ : Type} : rows δ → List Attach := fun _ => []

/-- A configuration with one fixed column and no rule groups. -/
def oneFixed : HeaderRuleValidate :=
  { FixedColumnCount := 1, AllowedStartValue := [], AllowedEndValue := [], RuleGroups := [] }

/-- A consumer whose only call is `rows.GetRow(0).SetErrs(nil)`: it passes on
a nil error. -/
def nilErrorConsumer {δ : Type} : rows δ → List Attach := fun _ => [Attach.SetErrs 0 [none]]

/-- A table of one header row and two data rows that share the value `K` in
column 1, scanned with column 1 as the unique column. -/
def sharedColumnOne : taskScheduler (List String) :=
  rawScheduler [["h0", "h1"], ["a", "K"], ["b", "K"]] 1 [1] ErrorWriteBackModeAnyRow

/-- A table of one header row, a data row whose key cell in column 0 is blank
and a blank row, scanned with column 0 as the unique column. -/
def blankSharesKey : taskScheduler (List String) :=
  rawScheduler [["h0", "h1"], ["", "x"], ["", ""]] 1 [0] ErrorWriteBackModeAnyRow

/-- A table of one header row and one data row, scanned without unique
columns in any-row mode. -/
def oneDataRow : taskScheduler (List String) :=
  rawScheduler [["h"], ["a"]] 1 [] ErrorWriteBackModeAnyRow

/-- The form indexes of the units submitted, each with the table index of
the iteration that submitted it. -/
def Run.Result.units {δ : Type} (r : Run.Result δ) : List (Nat × List Nat) :=
  r.submitted.map (fun e => (e.1, e.2.map row.GetFormIndex))

/-- The table of scenario C: one header row, then data rows whose column 0
holds `K1`, `K1`, `K2`, scanned with column 0 as the unique column. -/
def scenarioC : taskScheduler (List String) :=
  rawScheduler [["key", "name"], ["K1", "a"], ["K1", "b"], ["K2", "c"]] 1 [0]
    ErrorWriteBackModeAnyRow

/-- The key cell of a row under the single unique column 0. -/
def keyCell (r : List String) : String := r.headD ""

/-- The form indexes of the rows whose key is `k`, for rows with the keys
`keys` that start at table index `i`. -/
def occurrences (k : String) : Nat → List String → List Nat
  | _, [] => []
  | i, x :: xs => if x = k then i :: occurrences k (i + 1) xs else occurrences k (i + 1) xs

/-- The units a scan by key is to submit, for data rows that start at table
index `skipRowNum`: `seen` are the keys of the rows already scanned, and the
row scanned next submits a unit, made of all the rows with its key, exactly
when its key does not come again. -/
def logicalUnits (skipRowNum : Nat) : List String → List String → List (Nat × List Nat)
  | _, [] => []
  | seen, k :: rest =>
    if k ∈ rest then logicalUnits skipRowNum (seen ++ [k]) rest
    else (skipRowNum + seen.length, occurrences k skipRowNum (seen ++ [k]))
      :: logicalUnits skipRowNum (seen ++ [k]) rest

/-- A unit as the form indexes of its rows, with the table index of the
iteration that submitted it. -/
def Run.view {δ : Type} (e : Nat × rows δ) : Nat × List Nat := (e.1, e.2.map row.GetFormIndex)

/-- What the first loop of `setUniqueColumnMapRowNum` has established once
the rows with the keys `seen` are counted: one slot per row; every key
counted as often as it was seen; every binding of `keyMapIndex` pointing at a
row of its key whose slot is initialised and still empty; every key bound. -/
def setUniqueColumnMapRowNum.Counted {δ : Type} (seen : List String)
    (s : setUniqueColumnMapRowNum.State δ) : Prop :=
  s.rows.length = seen.length
    ∧ (∀ k, GoMap.get s.keyNum k = if k ∈ seen then some (seen.count k) else none)
    ∧ (∀ k, GoMap.get s.keyStartIndex k = if k ∈ seen then some () else none)
    ∧ (∀ k slot, (k, slot) ∈ s.keyMapIndex →
        seen[slot]? = some k ∧ s.rows[slot]? = some (some { rowsData := newRows δ, mergeNum := 0 }))
    ∧ ∀ k ∈ seen, ∃ slot, GoMap.get s.keyMapIndex k = some slot

/-- A walk in the rule graph that leaves node `cur` and spells the cells:
every cell is the value of a node one outgoing edge away from the node
before it. -/
def WalkFrom (ns : List headerRuleNode) : Nat → List String → Prop
  | _, [] => True
  | cur, c :: cs =>
    ∃ nd k nk, ns[cur]? = some nd ∧ k ∈ nd.nextIndex ∧ ns[k]? = some nk ∧ nk.value = c
      ∧ WalkFrom ns k cs

/-- The cells form a walk in the rule graph: the first cell is the value of
some node, and the later cells are a walk leaving that node. -/
def IsWalk (ns : List headerRuleNode) : List String → Prop
  | [] => False
  | c :: cs => ∃ i nd, ns[i]? = some nd ∧ nd.value = c ∧ WalkFrom ns i cs

/-! ## `core/rule.go`: the constructor, and the uploaded row without blanks -/

/-- `NewHeaderRuleValidate`: `none` is the index panic on an empty list of
rule groups or an empty last group. -/
def NewHeaderRuleValidate (fixedColumnCount : Int) (allowedStartValue : List String)
    (ruleGroups : List HeaderRuleGroup) : Option HeaderRuleValidate :=
  let ruleGroupsIndex : Int := (ruleGroups.length : Int) - 1
  match index ruleGroups ruleGroupsIndex with
  | none => none
  | some g =>
    let ruleGroupsValueIndex : Int := (g.Values.length : Int) - 1
    match index g.Values ruleGroupsValueIndex with
    | none => none
    | some r =>
      some { FixedColumnCount := fixedColumnCount, AllowedStartValue := allowedStartValue,
             AllowedEndValue := [r.Value], RuleGroups := ruleGroups }

/-- The configuration of scenario B written as a struct literal that leaves
`AllowedEndValue` unset. -/
def scenarioBUnset : HeaderRuleValidate :=
  { FixedColumnCount := 2, AllowedStartValue := [], AllowedEndValue := [],
    RuleGroups := [{ Values := [{ Value := "extra1", IsRepetition := true }], IsRepetition := true }] }

/-- One rule group `a, b`, neither the group nor a value marked repeating. -/
def singleGroup : HeaderRuleValidate :=
  { FixedColumnCount := 0, AllowedStartValue := [], AllowedEndValue := [],
    RuleGroups := [{ Values := [{ Value := "a", IsRepetition := false },
                                { Value := "b", IsRepetition := false }], IsRepetition := false }] }

/-- Two rule groups, `x` (marked repeating) and `y, x`: the value `x` stands
in both. -/
def sharedValue : HeaderRuleValidate :=
  { FixedColumnCount := 0, AllowedStartValue := [], AllowedEndValue := [],
    RuleGroups := [{ Values := [{ Value := "x", IsRepetition := true }], IsRepetition := false },
                   { Values := [{ Value := "y", IsRepetition := false },
                                { Value := "x", IsRepetition := false }], IsRepetition := false }] }

/-- No fixed column, start value `a`, end value `a`, one group holding `a`. -/
def noFixed : HeaderRuleValidate :=
  { FixedColumnCount := 0, AllowedStartValue := ["a"], AllowedEndValue := ["a"],
    RuleGroups := [{ Values := [{ Value := "a", IsRepetition := true }], IsRepetition := false }] }

/-- The uploaded row without its blank (empty or white-space only) cells,
the other cells as they stand. -/
def dropBlank (row : List String) : List String :=
  row.filter (fun c => TrimSpace c ≠ "")

/-- In the state of `nodes()`, the value `w` stands in `mapNextNodes[v]`. -/
def nodes.Linked (s : nodes.State) (v w : String) : Prop :=
  w ∈ GoMap.getD s.mapNextNodes v []

/-- In the state of `nodes()`, every binding of `mapNodeIndex` points at a
node of `res` that holds the bound value. -/
def nodes.Indexed (s : nodes.State) : Prop :=
  ∀ w k, GoMap.get s.mapNodeIndex w = some k → ∃ nd, s.res[k]? = some nd ∧ nd.value = w

/-- The state `s1` of `nodes()` comes later than `s`: no next value and no
bound value is lost. -/
def nodes.Grows (s s1 : nodes.State) : Prop :=
  (∀ v w, nodes.Linked s v w → nodes.Linked s1 v w)
    ∧ ∀ w, (GoMap.get s.mapNodeIndex w).isSome = true → (GoMap.get s1.mapNodeIndex w).isSome = true

/-- What the body of the inner loop of `nodes()` has established, in a state
`s`, for the rule `r` at value `j` of group `i`: the value is bound; a value
marked repeating is its own next value; the last value of a group marked
repeating has the first value of its group as a next value; with more than
one group, the last value of a group has the first value of the next group
(wrapping) as a next value. -/
def nodes.Done (p : HeaderRuleValidate) (i : Nat) (g : HeaderRuleGroup) (j : Nat)
    (r : HeaderRule) (s : nodes.State) : Prop :=
  (GoMap.get s.mapNodeIndex r.Value).isSome = true
    ∧ (r.IsRepetition = true → nodes.Linked s r.Value r.Value)
    ∧ (j + 1 = g.Values.length → g.IsRepetition = true →
        ∃ f, g.Values[0]? = some f ∧ nodes.Linked s r.Value f.Value)
    ∧ (j + 1 = g.Values.length → 1 < p.RuleGroups.length →
        ∃ nxt f, p.RuleGroups[(i + 1) % p.RuleGroups.length]? = some nxt
          ∧ nxt.Values[0]? = some f ∧ nodes.Linked s r.Value f.Value)

/-! ## `core/import.go`: the key lookup with its accesses checked -/

/-- The loop of `getUniqueColumnIndex` for several indexes with every access
to the row checked: the outer `none` is an access outside the row, the inner
`none` the early return for an index at or beyond the row's width. -/
def getUniqueColumnIndex.checkedKeys (rowData : List String) :
    List Nat → Option (Option (List String))
  | [] => some (some [])
  | ix :: ixs =>
    if ix ≥ rowData.length then some none
    else
      match rowData[ix]? with
      | none => none
      | some c =>
        (getUniqueColumnIndex.checkedKeys rowData ixs).map (Option.map (fun ks => TrimSpace c :: ks))

/-- `taskScheduler.getUniqueColumnIndex` with every slice access checked:
`none` is an access outside `indexes` or outside the row. -/
def getUniqueColumnIndex.checked {δ : Type} (g : groupRows δ) (rowData : List String) :
    Option (Nat × Bool) :=
  if !(isEnableGroupRows g) then some (0, false)
  else if g.indexesLen = 1 then
    match g.indexes[0]? with
    | none => none
    | some ix =>
      if ix ≥ rowData.length then some (0, false)
      else
        match rowData[ix]? with
        | none => none
        | some key =>
          match GoMap.get g.keyMapIndex key with
          | some index => some (index, true)
          | none => some (0, false)
  else
    match getUniqueColumnIndex.checkedKeys rowData g.indexes with
    | none => none
    | some none => some (0, false)
    | some (some keys) =>
      match GoMap.get g.keyMapIndex (Join keys ":") with
      | some index => some (index, true)
      | none => some (0, false)

/-- Table row `i` is a data row and not blank. -/
def nonBlankAt (rows : List (List String)) (skipRowNum i : Nat) : Prop :=
  skipRowNum ≤ i ∧ ∃ r, rows[i]? = some r ∧ isEmpty r = false

/-- Every row held in a group slot, every row of a submitted unit, every
submitting iteration and every ledger entry belongs to a table row for which
`P` holds. -/
def Run.Only {δ : Type} (P : Nat → Prop) (s : Run.State δ) : Prop :=
  (∀ uc, some uc ∈ s.slots → ∀ x ∈ uc.rowsData, P (row.GetFormIndex x))
    ∧ (∀ e ∈ s.submitted, P e.1 ∧ ∀ x ∈ e.2, P (row.GetFormIndex x))
    ∧ ∀ e ∈ s.errMessages.errors, P e.rowIndex

/-- A table of one header row, a data row, a blank row and a data row,
scanned without unique columns. -/
def withBlankRow : taskScheduler (List String) :=
  rawScheduler [["h"], ["a"], ["", " "], ["b"]] 1 [] ErrorWriteBackModeAnyRow

/-! ## `core/check.go`: the check service -/

/-- `MaxRowNumError`. -/
def MaxRowNumError : String := "max row num error. "

/-- `TemplateError`. -/
def TemplateError : String := "The template is incorrect. "

/-- `LargestRowNumberError`. -/
def LargestRowNumberError : String := "The maximum number of rows was exceeded. "

/-- `EmptyFile`. -/
def EmptyFile : String := "This is an empty file. "

/-- `checkService`, once both files are open and their row iterators
obtained: an iterator is the list of the rows it has not yet passed. -/
structure checkService where
  skipRowNum : Int
  maxRowNum : Int
  headerRuleValidate : Option HeaderRuleValidate
  tplFileRows : List (List String)
  importFileRows : List (List String)
  deriving DecidableEq, Repr

/-- The calls `Next()` and `Columns()` on a row iterator: the row passed
(nil once the rows are exhausted) and the iterator after it. -/
def nextColumns (it : List (List String)) : List String × List (List String) :=
  match it with
  | [] => ([], [])
  | r :: rest => (r, rest)

/-- The loop of `compareHeader` without a header rule, `k` header rows left:
whether they all equal the template's, and the import iterator after them. -/
def compareHeader.loop : Nat → List (List String) → List (List String) → Bool × List (List String)
  | 0, _, importFileRows => (true, importFileRows)
  | k + 1, tplFileRows, importFileRows =>
    let imp := nextColumns importFileRows
    let tpl := nextColumns tplFileRows
    if !(equalStringSlice tpl.1 imp.1) then (false, imp.2)
    else compareHeader.loop k tpl.2 imp.2

/-- `checkService.compareHeader`: the result and the import iterator it
leaves; `none` is a panic inside `Validate`. -/
def compareHeader (p : checkService) : Option (Bool × List (List String)) :=
  match p.headerRuleValidate with
  | some rule =>
    let imp := nextColumns p.importFileRows
    let tpl := nextColumns p.tplFileRows
    (Validate rule tpl.1 imp.1).map (fun ok => (ok, imp.2))
  | none => some (compareHeader.loop p.skipRowNum.toNat p.tplFileRows p.importFileRows)

/-- `checkService.getTotalRows`: the rows left in the import iterator that
are not blank. -/
def getTotalRows : List (List String) → Int
  | [] => 0
  | rowData :: rest => if isEmpty rowData then getTotalRows rest else getTotalRows rest + 1

/-- `checkService.Run`, from the point where both files are open: the pair
`(totalRows, err)`. -/
def checkService.Run (p : checkService) : Option (Int × Option String) :=
  if p.maxRowNum ≤ 0 then some (0, some MaxRowNumError)
  else
    match compareHeader p with
    | none => none
    | some (false, _) => some (0, some TemplateError)
    | some (true, importFileRows) =>
      let totalRows := getTotalRows importFileRows
      if totalRows ≤ 0 then some (0, some EmptyFile)
      else if totalRows > p.maxRowNum then some (0, some LargestRowNumberError)
      else some (totalRows, none)

/-- The two header rows of the template of scenario E. -/
def scenarioE.header : List (List String) := [["id", "name"], ["ID", "Name"]]

/-- Scenario E: a table of 10 rows, 2 of them header rows, checked without a
header rule against a ceiling of 5 rows. -/
def scenarioE : checkService :=
  { skipRowNum := 2, maxRowNum := 5, headerRuleValidate := none,
    tplFileRows := scenarioE.header,
    importFileRows := scenarioE.header ++
      [["1", "a"], ["2", "b"], ["3", "c"], ["4", "d"], ["5", "e"], ["6", "f"], ["7", "g"],
       ["8", "h"]] }

/-- A table that holds the two header rows of the template and no data row,
checked with the header rule of scenario A. -/
def headerOnly.withRule : checkService :=
  { skipRowNum := 2, maxRowNum := 5, headerRuleValidate := some scenarioA,
    tplFileRows := scenarioE.header, importFileRows := scenarioE.header }

/-- The table of `headerOnly.withRule`, checked without a header rule. -/
def headerOnly.withoutRule : checkService :=
  { skipRowNum := 2, maxRowNum := 5, headerRuleValidate := none,
    tplFileRows := scenarioE.header, importFileRows := scenarioE.header }

/-- The rule groups of the comment above `nodes()`: `a, b`, not repeating,
and `c, d`, repeating. -/
def twoGroups : HeaderRuleValidate :=
  { FixedColumnCount := 0, AllowedStartValue := [], AllowedEndValue := [],
    RuleGroups := [{ Values := [{ Value := "a", IsRepetition := false },
                                { Value := "b", IsRepetition := false }], IsRepetition := false },
                   { Values := [{ Value := "c", IsRepetition := false },
                                { Value := "d", IsRepetition := false }], IsRepetition := true }] }

/-! ## `strconv` and `reflect`: what the row decoder calls -/

/-- The error of a `strconv` call, `strconv.ErrSyntax` or `strconv.ErrRange`. -/
inductive NumError where
  | ErrSyntax
  | ErrRange
  deriving DecidableEq, Repr

/-- The largest `uint64`. -/
def maxUint64 : Nat := 2 ^ 64 - 1

/-- The test `'0' <= c && c <= '9'` of `strconv.ParseUint`. -/
def isDigit (c : Char) : Bool := 48 ≤ c.toNat && c.toNat ≤ 57

/-- The loop of `strconv.ParseUint(s, 10, 64)` over the bytes of `s`, with
`n` the number read so far: a byte that is no decimal digit (so every byte
of a character outside ASCII) ends the loop with `ErrSyntax` and 0, a number
that leaves the 64 bits ends it with `ErrRange` and the largest `uint64`. -/
def ParseUint.loop : List Char → Nat → Nat × Option NumError
  | [], n => (n, none)
  | c :: cs, n =>
    if isDigit c then
      let d := c.toNat - 48
      if n ≥ maxUint64 / 10 + 1 then (maxUint64, some NumError.ErrRange)
      else
        let n := (n * 10) % 2 ^ 64
        let n1 := (n + d) % 2 ^ 64
        if n1 < n ∨ n1 > maxUint64 then (maxUint64, some NumError.ErrRange)
        else ParseUint.loop cs n1
    else (0, some NumError.ErrSyntax)

/-- Go's `strconv.ParseUint(s, 10, 64)`: the value and the error. -/
def ParseUint (s : String) : Nat × Option NumError :=
  if s = "" then (0, some NumError.ErrSyntax) else ParseUint.loop s.data 0

/-- Go's conversion `int64(x)`: the low 64 bits as a signed number. -/
def toInt64 (x : Int) : Int := (x + 2 ^ 63) % 2 ^ 64 - 2 ^ 63

/-- Go's `strconv.ParseInt(s, 10, 64)`: the value and the error. -/
def ParseInt (s : String) : Int × Option NumError :=
  match s.data with
  | [] => (0, some NumError.ErrSyntax)
  | c :: cs =>
    let neg : Bool := c = '-'
    let rest := if c = '+' ∨ c = '-' then cs else c :: cs
    let un := ParseUint (String.mk rest)
    if un.2 = some NumError.ErrSyntax then (0, some NumError.ErrSyntax)
    else
      let cutoff : Nat := 2 ^ 63
      if !neg ∧ un.1 ≥ cutoff then (((cutoff - 1 : Nat) : Int), some NumError.ErrRange)
      else if neg ∧ un.1 > cutoff then (-(cutoff : Int), some NumError.ErrRange)
      else
        let n := toInt64 un.1
        (if neg then toInt64 (-n) else n, none)

/-- The kinds of `reflect.Kind` the decoder tells apart; `Struct` carries
whether the type of the field is `ExtraColumn`, `Other` is any other kind. -/
inductive Kind where
  | Int
  | Int8
  | Int16
  | Int32
  | Int64
  | Uint
  | Uint8
  | Uint16
  | Uint32
  | Uint64
  | Float32
  | Float64
  | String
  | Struct (isExtraColumn : Bool)
  | Other
  deriving DecidableEq, Repr

/-- The width in bits of a signed integer kind, on a 64-bit platform. -/
def intBits : Kind → Option Nat
  | Kind.Int => some 64
  | Kind.Int8 => some 8
  | Kind.Int16 => some 16
  | Kind.Int32 => some 32
  | Kind.Int64 => some 64
  | _ => none

/-- The width in bits of an unsigned integer kind, on a 64-bit platform. -/
def uintBits : Kind → Option Nat
  | Kind.Uint => some 64
  | Kind.Uint8 => some 8
  | Kind.Uint16 => some 16
  | Kind.Uint32 => some 32
  | Kind.Uint64 => some 64
  | _ => none

/-- What `reflect.Value.SetInt(x)` stores in a signed field of `bits` bits:
the conversion of `x` to the type of the field, which keeps the low bits. -/
def SetInt (bits : Nat) (x : Int) : Int :=
  (x + 2 ^ (bits - 1)) % 2 ^ bits - 2 ^ (bits - 1)

/-- What `reflect.Value.SetUint(x)` stores in an unsigned field of `bits`
bits. -/
def SetUint (bits : Nat) (x : Nat) : Nat := x % 2 ^ bits

/-! ## `core/extra_column.go` and `core/import.go`: the row decoder -/

/-- `ExtraColumn`. -/
structure ExtraColumn where
  headerData : List String
  data : List String
  deriving DecidableEq, Repr

/-- `ExtraColumn.GetHeaderData`. -/
def ExtraColumn.GetHeaderData (p : ExtraColumn) : List String := p.headerData

/-- `ExtraColumn.GetData`. -/
def ExtraColumn.GetData (p : ExtraColumn) : List String := p.data

/-- A field of the record `parseRowData` fills: a signed or unsigned number, a
`float64` (as the bits of the `float64` that `strconv.ParseFloat` returned), a
`float32` (the `float32` that `reflect.Value.SetFloat` rounds that `float64`
to, given by the bits of the `float64`), a string, the extra columns, or
`untouched` for a field the decoder leaves as the schema provider made it. -/
inductive FieldValue where
  | int (v : Int)
  | uint (v : Nat)
  | float (bits : Nat)
  | float32 (bits : Nat)
  | string (s : String)
  | extra (e : ExtraColumn)
  | untouched
  deriving DecidableEq, Repr

/-- `transferStruct`: the kinds of the fields of the record type, in order;
`fieldNum` is their number. The fields are taken to be settable. -/
structure transferStruct where
  fields : List Kind
  deriving DecidableEq, Repr

/-- The field `fieldNum`. -/
def transferStruct.fieldNum (t : transferStruct) : Nat := t.fields.length

/-- The loop of `parseRowData` over the header cells `j, j+1, ...` for an
`ExtraColumn` field, `k` cells left: `none` is an access outside a slice. -/
def parseRowData.extra (header rowData : List String) : Nat → Nat → ExtraColumn → Option ExtraColumn
  | 0, _, pData => some pData
  | k + 1, j, pData =>
    match header[j]? with
    | none => none
    | some h =>
      if TrimSpace h = "" then parseRowData.extra header rowData k (j + 1) pData
      else
        let extraColumnData : Option String :=
          if (j : Int) ≤ (rowData.length : Int) - 1 then rowData[j]? else some ""
        match extraColumnData with
        | none => none
        | some cell =>
          parseRowData.extra header rowData k (j + 1)
            { headerData := pData.headerData ++ [h], data := pData.data ++ [TrimSpace cell] }

/-- The `switch` of `parseRowData` at field `i`: the value the field is set
to and the new `maxColumnNum`. `ParseFloat` is `strconv.ParseFloat(s, 64)`. -/
def parseRowData.field (header : List String) (ParseFloat : String → Nat)
    (rowData : List String) (rowDataCount maxColumnNum i : Nat) (kind : Kind) (data : String) :
    Option (FieldValue × Nat) :=
  match kind with
  | Kind.Int => some (FieldValue.int (SetInt 64 (ParseInt data).1), maxColumnNum)
  | Kind.Int8 => some (FieldValue.int (SetInt 8 (ParseInt data).1), maxColumnNum)
  | Kind.Int16 => some (FieldValue.int (SetInt 16 (ParseInt data).1), maxColumnNum)
  | Kind.Int32 => some (FieldValue.int (SetInt 32 (ParseInt data).1), maxColumnNum)
  | Kind.Int64 => some (FieldValue.int (SetInt 64 (ParseInt data).1), maxColumnNum)
  | Kind.Uint => some (FieldValue.uint (SetUint 64 (ParseUint data).1), maxColumnNum)
  | Kind.Uint8 => some (FieldValue.uint (SetUint 8 (ParseUint data).1), maxColumnNum)
  | Kind.Uint16 => some (FieldValue.uint (SetUint 16 (ParseUint data).1), maxColumnNum)
  | Kind.Uint32 => some (FieldValue.uint (SetUint 32 (ParseUint data).1), maxColumnNum)
  | Kind.Uint64 => some (FieldValue.uint (SetUint 64 (ParseUint data).1), maxColumnNum)
  | Kind.Float32 => some (FieldValue.float32 (ParseFloat data), maxColumnNum)
  | Kind.Float64 => some (FieldValue.float (ParseFloat data), maxColumnNum)
  | Kind.String => some (FieldValue.string data, maxColumnNum)
  | Kind.Struct true =>
    let maxColumnNum := if rowDataCount > maxColumnNum then rowDataCount else maxColumnNum
    (parseRowData.extra header rowData (header.length - i) i { headerData := [], data := [] }).map
      (fun pData => (FieldValue.extra pData, maxColumnNum))
  | Kind.Struct false => some (FieldValue.untouched, maxColumnNum)
  | Kind.Other => some (FieldValue.untouched, maxColumnNum)

/-- The loop of `parseRowData` over the cells `i, i+1, ...`, `k` cells left,
on the record and `maxColumnNum`: `none` is an access outside a slice. -/
def parseRowData.loop (ts : transferStruct) (header : List String) (ParseFloat : String → Nat)
    (rowData : List String) (rowDataCount : Nat) :
    Nat → Nat → List FieldValue × Nat → Option (List FieldValue × Nat)
  | 0, _, acc => some acc
  | k + 1, i, acc =>
    if i + 1 > ts.fieldNum then some acc
    else
      match rowData[i]?, ts.fields[i]? with
      | some cell, some kind =>
        match parseRowData.field header ParseFloat rowData rowDataCount acc.2 i kind
            (TrimSpace cell) with
        | none => none
        | some v =>
          parseRowData.loop ts header ParseFloat rowData rowDataCount k (i + 1)
            (acc.1.set i v.1, v.2)
      | _, _ => none

/-- `taskScheduler.parseRowData`: the record, a field list that starts as the
schema provider made it, and the new `maxColumnNum`; `header` is
`headerFirstData.data`, the first row of the table. -/
def parseRowData (ts : transferStruct) (header : List String) (ParseFloat : String → Nat)
    (maxColumnNum : Nat) (rowData : List String) : Option (List FieldValue × Nat) :=
  let rowDataCount := rowData.length
  let padded :=
    if rowDataCount < ts.fieldNum then rowData ++ List.replicate (ts.fieldNum - rowDataCount) ""
    else rowData
  let rowDataCount := if rowDataCount < ts.fieldNum then ts.fieldNum else rowDataCount
  parseRowData.loop ts header ParseFloat padded rowDataCount rowDataCount 0
    (List.replicate ts.fieldNum FieldValue.untouched, maxColumnNum)

/-- The number the decimal digits `cs` denote, read after the number `n`. -/
def decimalFrom (n : Nat) (cs : List Char) : Nat :=
  cs.foldl (fun a c => a * 10 + (c.toNat - 48)) n

/-- The number the decimal digits `cs` denote. -/
def decimal (cs : List Char) : Nat := decimalFrom 0 cs

/-- The characters of a text after its sign, if it starts with one. -/
def afterSign (cs : List Char) : List Char :=
  match cs with
  | [] => []
  | c :: rest => if c = '+' ∨ c = '-' then rest else c :: rest

/-- The text starts with a minus sign. -/
def isNegative (cs : List Char) : Bool :=
  match cs with
  | [] => false
  | c :: _ => c = '-'

/-- The leading decimal digits of a text. -/
def leadingDigits (cs : List Char) : List Char := cs.takeWhile isDigit

/-- The text is a well-formed base-10 number without a sign: one decimal
digit or more and nothing else. -/
def isNumber (cs : List Char) : Bool := !cs.isEmpty && cs.all isDigit

/-- The trimmed cell `i` of a row, the empty string when the row is shorter. -/
def trimmedCell (rowData : List String) (i : Nat) : String :=
  TrimSpace ((rowData[i]?).getD "")

/-! ## `core/import.go`: `SetUniqueColumn` -/

/-- The loop of `SetUniqueColumn` over the sorted indexes, `prev` being the
index before the current one: the error, if any, and the indexes kept. -/
def SetUniqueColumn.loop (fieldNum : Int) : List Int → Option Int → List Nat → Option String × List Nat
  | [], _, indexes => (none, indexes)
  | x :: xs, prev, indexes =>
    if prev = some x then SetUniqueColumn.loop fieldNum xs (some x) indexes
    else if x < 0 then
      (some "set unique column error: exceeds the min number of TransferStruct. ", indexes)
    else if x ≥ fieldNum then
      (some "set unique column error: exceeds the max number of TransferStruct. ", indexes)
    else SetUniqueColumn.loop fieldNum xs (some x) (indexes ++ [x.toNat])

/-- `taskScheduler.SetUniqueColumn`: the error returned and the scheduler
left. `fieldNum` is the number of fields `setTransferStruct` reads off the
record type; `sort.Ints` is any sort, the sorted list of integers being one. -/
def SetUniqueColumn {δ : Type} (fieldNum : Nat) (p : taskScheduler δ) (idxes : List Int) :
    Option String × taskScheduler δ :=
  if idxes.length = 0 then (none, p)
  else
    let p := { p with maxColumnNum := fieldNum }
    let idxes := idxes.insertionSort (fun a b => a ≤ b)
    match SetUniqueColumn.loop fieldNum idxes none [] with
    | (some e, _) => (some e, p)
    | (none, indexes) => (none, { p with groupRows := { p.groupRows with indexes := indexes } })

/-- A table whose data row has one cell, scanned with the unique columns 0
and 1 of a record type of two fields. -/
def shortRow : taskScheduler (List String) :=
  (SetUniqueColumn 2 (rawScheduler [["h0", "h1"], ["a"]] 1 [] ErrorWriteBackModeAnyRow) [0, 1]).2

/-- A table whose two data rows hold `b` in column 1, scanned with the unique
column 1 of a record type of two fields. -/
def releasedSlot : taskScheduler (List String) :=
  (SetUniqueColumn 2
    (rawScheduler [["h0", "h1"], ["a", "b"], ["b", "b"]] 1 [] ErrorWriteBackModeAnyRow) [1]).2

/-! ## `core/rows.go`: the calls on a unit -/

/-- A call on a `rows` collection that changes it: `Append`,
`GetRow(j).SetErrs` or `SetRowsErrs`. -/
inductive rows.Call (δ : Type) where
  | Append (data : δ) (index : Nat)
  | SetErrs (j : Nat) (errs : List (Option String))
  | SetRowsErrs (errs : List (Option String))

/-- The collection after a call. -/
def rows.Call.apply {δ : Type} (rs : rows δ) : rows.Call δ → rows δ
  | rows.Call.Append data index => rows.Append rs data index
  | rows.Call.SetErrs j errs => rows.SetErrsAt rs j errs
  | rows.Call.SetRowsErrs errs => rows.SetRowsErrs rs errs

/-- No nil error is passed in the call. -/
def rows.Call.NoNil {δ : Type} : rows.Call δ → Prop
  | rows.Call.Append _ _ => True
  | rows.Call.SetErrs _ errs => none ∉ errs
  | rows.Call.SetRowsErrs errs => none ∉ errs

/-! ## Theorems -/

theorem equalStringSlice_loop_eq (a b : List String) (h : a.length = b.length) :
    equalStringSlice.loop a b = decide (a = b) := by
  induction a generalizing b with
  | nil =>
    cases b with
    | nil => simp [equalStringSlice.loop]
    | cons y ys => simp at h
  | cons x xs ih =>
    cases b with
    | nil => simp at h
    | cons y ys =>
      have h1 : xs.length = ys.length := by simpa using h
      by_cases hxy : x = y
      · simp [equalStringSlice.loop, hxy, ih ys h1]
      · simp [equalStringSlice.loop, hxy]

theorem equalStringSlice_eq (a b : List String) : equalStringSlice a b = decide (a = b) := by
  unfold equalStringSlice
  by_cases h : a.length = b.length
  · simp [h, equalStringSlice_loop_eq a b h]
  · have hne : a ≠ b := fun hab => h (by rw [hab])
    simp [h, hne]

/-- C1, as stated, fails: a padded cell is accepted although the rows differ,
and two equal rows are rejected when they are empty or shorter than the fixed
column count. -/
theorem Validate_same_length_counterexample :
    (["id"].length = ["id "].length ∧ ["id"] ≠ ["id "]
        ∧ Validate oneFixed ["id"] ["id "] = some true)
      ∧ Validate oneFixed [] [] = some false
      ∧ Validate scenarioA ["id"] ["id"] = some false := by
  decide

/-- C1, amended: when the compacted uploaded row (cells trimmed, blank cells
dropped) has as many cells as the template, at least one cell and at least
`FixedColumnCount` cells, `Validate` returns true exactly when the template
equals the compacted uploaded row cell by cell. -/
theorem Validate_same_length (p : HeaderRuleValidate) (tpl up : List String)
    (hlen : (Validate.compact up).length = tpl.length) (hpos : 0 < tpl.length)
    (hfix : p.FixedColumnCount ≤ (tpl.length : Int)) :
    Validate p tpl up = some (decide (tpl = Validate.compact up)) := by
  unfold Validate
  simp only [hlen]
  have h1 : ¬ ((tpl.length : Int) < p.FixedColumnCount ∨ (tpl.length : Int) < p.FixedColumnCount
      ∨ (tpl.length : Int) < (tpl.length : Int) ∨ (tpl.length : Int) = 0) := by
    omega
  rw [if_neg h1]
  simp [equalStringSlice_eq]

/-- C1, amended, at scenario A: the header `id, name` against itself. -/
theorem Validate_same_length_witness :
    Validate scenarioA ["id", "name"] ["id", "name"] = some true :=
  (Validate_same_length scenarioA ["id", "name"] ["id", "name"]
    (by decide) (by decide) (by decide)).trans (by decide)

/-! ### The rule graph and the walk over it -/

theorem GoMap.get_set {κ α : Type} [DecidableEq κ] (m : GoMap κ α) (k : κ) (v : α) (k' : κ) :
    GoMap.get (GoMap.set m k v) k' = if k = k' then some v else GoMap.get m k' := by
  induction m with
  | nil => simp [GoMap.set, GoMap.get]
  | cons e rest ih =>
    obtain ⟨a, b⟩ := e
    by_cases hak : a = k
    · subst hak
      by_cases hk : a = k' <;> simp [GoMap.set, GoMap.get, hk]
    · by_cases hk : k = k'
      · subst hk
        simp [GoMap.set, GoMap.get, hak, ih]
      · by_cases hak' : a = k'
        · subst hak'
          simp [GoMap.set, GoMap.get, hak, hk]
        · simp [GoMap.set, GoMap.get, hak, hak', hk, ih]

theorem nodes_link_fields (s : nodes.State) (v w : String) :
    (nodes.link s v w).mapNodeIndex = s.mapNodeIndex ∧ (nodes.link s v w).res = s.res := by
  simp [nodes.link]

theorem nodes_step_fields (p : HeaderRuleValidate) (i : Nat) (g : HeaderRuleGroup) (j : Nat)
    (r : HeaderRule) (s s1 : nodes.State) (h : nodes.step p i g j r s = some s1) :
    s1.mapNodeIndex = GoMap.set s.mapNodeIndex r.Value s.res.length
      ∧ s1.res = s.res ++ [{ value := r.Value, nextIndex := [] }] := by
  unfold nodes.step at h
  simp only at h
  split at h
  · split at h
    · exact absurd h (by simp)
    · rename_i s3 hs3
      have h3 : s3.mapNodeIndex = GoMap.set s.mapNodeIndex r.Value s.res.length
          ∧ s3.res = s.res ++ [{ value := r.Value, nextIndex := [] }] := by
        split at hs3
        · rcases Option.map_eq_some'.mp hs3 with ⟨f, _, hf⟩
          rw [← hf]
          split <;> simp [nodes.link]
        · injection hs3 with hs3
          rw [← hs3]
          split <;> simp [nodes.link]
      split at h
      · split at h
        · exact absurd h (by simp)
        · rcases Option.map_eq_some'.mp h with ⟨f, _, hf⟩
          rw [← hf]
          simpa [nodes.link] using h3
      · injection h with h
        rw [← h]
        exact h3
  · rcases Option.map_eq_some'.mp h with ⟨f, _, hf⟩
    rw [← hf]
    split <;> simp [nodes.link]

theorem nodes_step_inRange (p : HeaderRuleValidate) (i : Nat) (g : HeaderRuleGroup) (j : Nat)
    (r : HeaderRule) (s s1 : nodes.State) (h : nodes.step p i g j r s = some s1)
    (inv : ∀ w v, GoMap.get s.mapNodeIndex w = some v → v < s.res.length) :
    ∀ w v, GoMap.get s1.mapNodeIndex w = some v → v < s1.res.length := by
  obtain ⟨hm, hr⟩ := nodes_step_fields p i g j r s s1 h
  intro w v hv
  rw [hm, GoMap.get_set] at hv
  rw [hr, List.length_append]
  split at hv
  · injection hv with hv
    simp [← hv]
  · have := inv w v hv
    simp
    omega

theorem nodes_values_inRange (p : HeaderRuleValidate) (i : Nat) (g : HeaderRuleGroup)
    (rs : List HeaderRule) (j : Nat) (s s1 : nodes.State)
    (h : nodes.values p i g j rs s = some s1)
    (inv : ∀ w v, GoMap.get s.mapNodeIndex w = some v → v < s.res.length) :
    ∀ w v, GoMap.get s1.mapNodeIndex w = some v → v < s1.res.length := by
  induction rs generalizing j s with
  | nil =>
    simp only [nodes.values] at h
    injection h with h
    rw [← h]
    exact inv
  | cons r rs ih =>
    simp only [nodes.values] at h
    split at h
    · exact absurd h (by simp)
    · rename_i s2 hs2
      exact ih (j + 1) s2 h (nodes_step_inRange p i g j r s s2 hs2 inv)

theorem nodes_groups_inRange (p : HeaderRuleValidate) (gs : List HeaderRuleGroup) (i : Nat)
    (s s1 : nodes.State) (h : nodes.groups p i gs s = some s1)
    (inv : ∀ w v, GoMap.get s.mapNodeIndex w = some v → v < s.res.length) :
    ∀ w v, GoMap.get s1.mapNodeIndex w = some v → v < s1.res.length := by
  induction gs generalizing i s with
  | nil =>
    simp only [nodes.groups] at h
    injection h with h
    rw [← h]
    exact inv
  | cons g gs ih =>
    simp only [nodes.groups] at h
    split at h
    · exact absurd h (by simp)
    · rename_i s2 hs2
      exact ih (i + 1) s2 h (nodes_values_inRange p i g g.Values 0 s s2 hs2 inv)

/-- In the graph `nodes()` returns, two nodes of equal value have the same
next-index list. -/
theorem nodes_byValue (p : HeaderRuleValidate) (ns : List headerRuleNode) (h : nodes p = some ns)
    (a b : Nat) (na nb : headerRuleNode) (ha : ns[a]? = some na) (hb : ns[b]? = some nb)
    (hv : na.value = nb.value) : na.nextIndex = nb.nextIndex := by
  unfold nodes at h
  split at h
  · exact absurd h (by simp)
  · rename_i s hs
    injection h with h
    subst h
    rw [List.getElem?_map] at ha hb
    rcases Option.map_eq_some'.mp ha with ⟨x, _, hx⟩
    rcases Option.map_eq_some'.mp hb with ⟨y, _, hy⟩
    subst hx
    subst hy
    simp only at hv
    simp [hv]

/-- In the graph `nodes()` returns, every next index is the index of a node. -/
theorem nodes_inRange (p : HeaderRuleValidate) (ns : List headerRuleNode) (h : nodes p = some ns)
    (nd : headerRuleNode) (hnd : nd ∈ ns) (k : Nat) (hk : k ∈ nd.nextIndex) : k < ns.length := by
  unfold nodes at h
  split at h
  · exact absurd h (by simp)
  · rename_i s hs
    injection h with h
    subst h
    have inv := nodes_groups_inRange p p.RuleGroups 0 _ s hs (by simp [GoMap.get])
    rcases List.mem_map.mp hnd with ⟨x, hx, hxe⟩
    subst hxe
    simp only [nodes.resolve, List.mem_map] at hk
    rcases hk with ⟨w, _, hw⟩
    rw [List.length_map]
    have hpos : 0 < s.res.length := List.length_pos_of_mem hx
    unfold GoMap.getD at hw
    cases hg : GoMap.get s.mapNodeIndex w with
    | none =>
      rw [hg] at hw
      simp at hw
      omega
    | some v =>
      rw [hg] at hw
      simp at hw
      have := inv w v hg
      omega

theorem validateRule_next_spec (ns : List headerRuleNode) (c : String) (ks : List Nat)
    (h : ∀ k ∈ ks, k < ns.length) :
    (∃ k nk, validateRule.next ns c ks = some (some k) ∧ k ∈ ks ∧ ns[k]? = some nk ∧ nk.value = c)
      ∨ (validateRule.next ns c ks = some none
          ∧ ∀ k ∈ ks, ∀ nk, ns[k]? = some nk → nk.value ≠ c) := by
  induction ks with
  | nil =>
    right
    simp [validateRule.next]
  | cons k ks ih =>
    have hk : k < ns.length := h k (List.mem_cons_self _ _)
    have hget : ns[k]? = some ns[k] := List.getElem?_eq_getElem hk
    by_cases hv : ns[k].value = c
    · left
      refine ⟨k, ns[k], ?_, List.mem_cons_self _ _, hget, hv⟩
      simp [validateRule.next, hget, hv]
    · rcases ih (fun k' hk' => h k' (List.mem_cons_of_mem _ hk')) with
        ⟨k', nk, h1, h2, h3, h4⟩ | ⟨h1, h2⟩
      · left
        exact ⟨k', nk, by simp [validateRule.next, hget, hv, h1], List.mem_cons_of_mem _ h2, h3, h4⟩
      · right
        refine ⟨by simp [validateRule.next, hget, hv, h1], ?_⟩
        intro k' hk' nk hnk
        rcases List.mem_cons.mp hk' with rfl | hk'
        · rw [hget] at hnk
          injection hnk with hnk
          rw [← hnk]
          exact hv
        · exact h2 k' hk' nk hnk

theorem WalkFrom_congr (ns : List headerRuleNode) (a b : Nat) (na nb : headerRuleNode)
    (ha : ns[a]? = some na) (hb : ns[b]? = some nb) (hn : na.nextIndex = nb.nextIndex)
    (cs : List String) (h : WalkFrom ns a cs) : WalkFrom ns b cs := by
  cases cs with
  | nil => simp [WalkFrom]
  | cons c cs =>
    simp only [WalkFrom] at h ⊢
    obtain ⟨nd, k, nk, h1, h2, h3, h4, h5⟩ := h
    rw [ha] at h1
    injection h1 with h1
    subst h1
    exact ⟨nb, k, nk, hb, hn ▸ h2, h3, h4, h5⟩

theorem validateRule_walk_iff (ns : List headerRuleNode)
    (hval : ∀ (a b : Nat) (na nb : headerRuleNode), ns[a]? = some na → ns[b]? = some nb →
      na.value = nb.value → na.nextIndex = nb.nextIndex)
    (hrange : ∀ nd ∈ ns, ∀ k ∈ nd.nextIndex, k < ns.length)
    (cs : List String) (cur : Nat) (nd : headerRuleNode) (hcur : ns[cur]? = some nd) :
    validateRule.walk ns cur cs = some true ↔ WalkFrom ns cur cs := by
  induction cs generalizing cur nd with
  | nil => simp [validateRule.walk, WalkFrom]
  | cons c cs ih =>
    have hmem : nd ∈ ns := List.mem_iff_getElem?.mpr ⟨cur, hcur⟩
    rcases validateRule_next_spec ns c nd.nextIndex (hrange nd hmem) with
      ⟨k, nk, h1, h2, h3, h4⟩ | ⟨h1, h2⟩
    · have hstep : validateRule.walk ns cur (c :: cs) = validateRule.walk ns k cs := by
        simp [validateRule.walk, hcur, h1]
      rw [hstep, ih k nk h3]
      constructor
      · intro hw
        exact ⟨nd, k, nk, hcur, h2, h3, h4, hw⟩
      · intro hw
        simp only [WalkFrom] at hw
        obtain ⟨nd', k', nk', g1, g2, g3, g4, g5⟩ := hw
        exact WalkFrom_congr ns k' k nk' nk g3 h3 (hval k' k nk' nk g3 h3 (g4.trans h4.symm)) cs g5
    · have hstep : validateRule.walk ns cur (c :: cs) = some false := by
        simp [validateRule.walk, hcur, h1]
      rw [hstep]
      constructor
      · intro hw
        simp at hw
      · intro hw
        simp only [WalkFrom] at hw
        obtain ⟨nd', k', nk', g1, g2, g3, g4, g5⟩ := hw
        rw [hcur] at g1
        injection g1 with g1
        subst g1
        exact absurd g4 (h2 k' g2 nk' g3)

theorem validateRule_start_spec (c : String) (ns : List headerRuleNode) (i0 : Nat) :
    (∃ j nd, validateRule.start c ns i0 = some (i0 + j) ∧ ns[j]? = some nd ∧ nd.value = c)
      ∨ (validateRule.start c ns i0 = none ∧ ∀ nd ∈ ns, nd.value ≠ c) := by
  induction ns generalizing i0 with
  | nil =>
    right
    simp [validateRule.start]
  | cons x xs ih =>
    by_cases hx : c = x.value
    · left
      exact ⟨0, x, by simp [validateRule.start, hx], by simp, hx.symm⟩
    · rcases ih (i0 + 1) with ⟨j, nd, h1, h2, h3⟩ | ⟨h1, h2⟩
      · left
        refine ⟨j + 1, nd, ?_, by simpa using h2, h3⟩
        simp only [validateRule.start, hx, if_false, h1]
        congr 1
        omega
      · right
        refine ⟨by simp [validateRule.start, hx, h1], ?_⟩
        intro nd hnd
        rcases List.mem_cons.mp hnd with rfl | hnd
        · exact fun h => hx h.symm
        · exact h2 nd hnd

theorem index_natCast {α : Type} (s : List α) (n : Nat) : index s (n : Int) = s[n]? := by
  unfold index
  have h : ¬ ((n : Int) < 0) := by omega
  simp [h]

theorem validateRule_iff (p : HeaderRuleValidate) (up : List String) (n : Nat)
    (hn : p.FixedColumnCount = (n : Int)) (hlt : n < up.length) :
    validateRule p up = some true ↔ ∃ ns, nodes p = some ns ∧ IsWalk ns (up.drop n) := by
  have hdrop : up.drop n = up[n] :: up.drop (n + 1) := List.drop_eq_getElem_cons hlt
  have hidx : index up p.FixedColumnCount = some up[n] := by
    rw [hn, index_natCast]
    exact List.getElem?_eq_getElem hlt
  have htoNat : p.FixedColumnCount.toNat = n := by
    rw [hn]
    simp
  cases hnodes : nodes p with
  | none => simp [validateRule, hnodes]
  | some ns =>
    have hval := nodes_byValue p ns hnodes
    have hrange := nodes_inRange p ns hnodes
    cases ns with
    | nil =>
      rw [hdrop]
      simp [validateRule, hnodes, IsWalk]
    | cons x xs =>
      rcases validateRule_start_spec up[n] (x :: xs) 0 with ⟨j, nd, h1, h2, h3⟩ | ⟨h1, h2⟩
      · rw [Nat.zero_add] at h1
        have hv : validateRule p up = validateRule.walk (x :: xs) j (up.drop (n + 1)) := by
          unfold validateRule
          rw [hnodes]
          simp only [hidx, h1, htoNat]
        rw [hv, validateRule_walk_iff (x :: xs) hval hrange (up.drop (n + 1)) j nd h2]
        constructor
        · intro hw
          refine ⟨x :: xs, rfl, ?_⟩
          rw [hdrop]
          exact ⟨j, nd, h2, h3, hw⟩
        · rintro ⟨ns', hns', hw⟩
          injection hns' with hns'
          subst hns'
          rw [hdrop] at hw
          obtain ⟨i, ndi, g1, g2, g3⟩ := hw
          exact WalkFrom_congr _ i j ndi nd g1 h2 (hval i j ndi nd g1 h2 (g2.trans h3.symm)) _ g3
      · have hv : validateRule p up = some false := by
          unfold validateRule
          rw [hnodes]
          simp only [hidx, h1]
        rw [hv]
        constructor
        · intro hw
          simp at hw
        · rintro ⟨ns', hns', hw⟩
          injection hns' with hns'
          subst hns'
          rw [hdrop] at hw
          obtain ⟨i, ndi, g1, g2, _⟩ := hw
          exact absurd g2 (h2 ndi (List.mem_iff_getElem?.mpr ⟨i, g1⟩))

theorem existAt_iff (l : List String) (v : String) : existAt l v = true ↔ v ∈ l := by
  induction l with
  | nil => simp [existAt]
  | cons a as ih =>
    by_cases h : a = v
    · simp [existAt, h]
    · have h' : ¬ v = a := fun e => h e.symm
      simp [existAt, h, h', ih]

theorem Validate_compact_map (up : List String) (h : ∀ c ∈ up, TrimSpace c ≠ "") :
    Validate.compact up = up.map TrimSpace := by
  induction up with
  | nil => rfl
  | cons c cs ih =>
    have hc := h c (List.mem_cons_self _ _)
    have hcs := ih (fun c' hc' => h c' (List.mem_cons_of_mem _ hc'))
    simp [Validate.compact, hc, hcs]

theorem validateFixed_loop_iff (tpl up : List String) (k i : Nat)
    (h1 : i + k ≤ tpl.length) (h2 : i + k ≤ up.length) :
    validateFixed.loop tpl up i k = some true ↔ (up.drop i).take k = (tpl.drop i).take k := by
  induction k generalizing i with
  | zero => simp [validateFixed.loop]
  | succ k ih =>
    have hi1 : i < tpl.length := by omega
    have hi2 : i < up.length := by omega
    have hu : up[i]? = some up[i] := List.getElem?_eq_getElem hi2
    have ht : tpl[i]? = some tpl[i] := List.getElem?_eq_getElem hi1
    rw [List.drop_eq_getElem_cons hi1, List.drop_eq_getElem_cons hi2]
    simp only [validateFixed.loop, hu, ht, List.take_succ_cons]
    by_cases he : up[i] = tpl[i]
    · simp only [he, ne_eq, not_true_eq_false, if_false]
      rw [ih (i + 1) (by omega) (by omega)]
      simp
    · simp [he]

theorem validateFixed_iff (p : HeaderRuleValidate) (tpl up : List String) (n : Nat)
    (hn : p.FixedColumnCount = (n : Int)) (hpos : 0 < n)
    (h1 : n ≤ tpl.length) (h2 : n ≤ up.length) :
    validateFixed p tpl up = some true ↔ up.take n = tpl.take n := by
  have hne : ¬ p.FixedColumnCount = 0 := by omega
  have htoNat : p.FixedColumnCount.toNat = n := by
    rw [hn]
    simp
  unfold validateFixed
  rw [if_neg hne, htoNat, validateFixed_loop_iff tpl up n 0 (by omega) (by omega)]
  simp

theorem validateAllowedEndValue_iff (p : HeaderRuleValidate) (up : List String) (hne : 0 < up.length) :
    validateAllowedEndValue p up = some true ↔ ∃ l, up.getLast? = some l ∧ l ∈ p.AllowedEndValue := by
  have hcast : ((up.length : Int) - 1) = ((up.length - 1 : Nat) : Int) := by omega
  have hlt : up.length - 1 < up.length := by omega
  have hlast : up.getLast? = some up[up.length - 1] := by
    rw [List.getLast?_eq_getElem?]
    exact List.getElem?_eq_getElem hlt
  unfold validateAllowedEndValue
  rw [hcast, index_natCast, List.getElem?_eq_getElem hlt, hlast]
  simp [existAt_iff]

theorem andThen_eq_true (a : Option Bool) (b : Unit → Option Bool) :
    andThen a b = some true ↔ a = some true ∧ b () = some true := by
  cases a with
  | none => simp [andThen]
  | some x => cases x <;> simp [andThen]

/-- C2, as stated, fails: a header without blank cells whose last cell is
padded is accepted, although that cell is not an allowed end value. -/
theorem Validate_longer_counterexample :
    (1 : Int) ≤ scenarioB.FixedColumnCount
      ∧ (∀ c ∈ ["id", "name", " extra1"], TrimSpace c ≠ "")
      ∧ scenarioB.FixedColumnCount ≤ (["id", "name"].length : Int)
      ∧ ["id", "name"].length < ["id", "name", " extra1"].length
      ∧ Validate scenarioB ["id", "name"] ["id", "name", " extra1"] = some true
      ∧ ["id", "name", " extra1"].getLast? = some " extra1"
      ∧ " extra1" ∉ scenarioB.AllowedEndValue := by
  decide

/-- C2, amended: for every configuration with `FixedColumnCount >= 1` and
every uploaded header without blank cells that is strictly longer than a
template of at least `FixedColumnCount` cells, `Validate` returns true exactly
when, for the uploaded cells trimmed of their surrounding white space, (a)
the first `FixedColumnCount` cells equal the template's, (b) the last cell is
in `AllowedEndValue`, and (c) `nodes()` yields a rule graph in which the
cells from the fixed boundary onward form a walk. -/
theorem Validate_longer (p : HeaderRuleValidate) (tpl up : List String)
    (hfixed : 1 ≤ p.FixedColumnCount)
    (hclean : ∀ c ∈ up, TrimSpace c ≠ "")
    (htpl : p.FixedColumnCount ≤ (tpl.length : Int)) (hlong : tpl.length < up.length) :
    Validate p tpl up = some true ↔
      (up.map TrimSpace).take p.FixedColumnCount.toNat = tpl.take p.FixedColumnCount.toNat
        ∧ (∃ l, (up.map TrimSpace).getLast? = some l ∧ l ∈ p.AllowedEndValue)
        ∧ ∃ ns, nodes p = some ns
            ∧ IsWalk ns ((up.map TrimSpace).drop p.FixedColumnCount.toNat) := by
  obtain ⟨n, hn⟩ : ∃ n : Nat, p.FixedColumnCount = (n : Int) :=
    ⟨p.FixedColumnCount.toNat, (Int.toNat_of_nonneg (by omega)).symm⟩
  have htoNat : p.FixedColumnCount.toNat = n := by
    rw [hn]
    simp
  rw [htoNat]
  rw [hn] at hfixed htpl
  have hpos : 0 < n := by omega
  have hnt : n ≤ tpl.length := by omega
  have hlen : (up.map TrimSpace).length = up.length := List.length_map _ _
  have hv : Validate p tpl up = validate p tpl (up.map TrimSpace) := by
    unfold Validate
    simp only [Validate_compact_map up hclean, hn, hlen]
    have hc1 : ¬ ((up.length : Int) < (n : Int) ∨ (tpl.length : Int) < (n : Int)
        ∨ (up.length : Int) < (tpl.length : Int) ∨ (up.length : Int) = 0) := by omega
    have hc2 : ¬ ((up.length : Int) = (tpl.length : Int)) := by omega
    rw [if_neg hc1, if_neg hc2]
  rw [hv]
  unfold validate
  rw [andThen_eq_true, andThen_eq_true,
    validateFixed_iff p tpl (up.map TrimSpace) n hn hpos hnt (by omega),
    validateAllowedEndValue_iff p (up.map TrimSpace) (by omega),
    validateRule_iff p (up.map TrimSpace) n hn (by omega)]

/-- C2, amended, at scenario B: with template `id, name`, two fixed columns, a
rule group holding `extra1` and the end value `extra1`, the header
`id, name, extra1` is accepted; `id, name, bogus` is rejected. -/
theorem Validate_longer_witness :
    Validate scenarioB ["id", "name"] ["id", "name", "extra1"] = some true
      ∧ Validate scenarioB ["id", "name"] ["id", "name", "bogus"] = some false :=
  ⟨(Validate_longer scenarioB ["id", "name"] ["id", "name", "extra1"]
      (by decide) (by decide) (by decide) (by decide)).mpr
      ⟨by decide, ⟨"extra1", by decide, by decide⟩,
        ⟨[{ value := "extra1", nextIndex := [0, 0] }], by decide,
          ⟨0, { value := "extra1", nextIndex := [0, 0] }, by decide, rfl, trivial⟩⟩⟩,
    by decide⟩

/-! ### Grouping at the failing inputs -/

/-- C3 at failing inputs: with column 1 as the unique column, the two data
rows holding `K` in column 1 are submitted as two units of one row each, at
table rows 1 and 2, where the claim has one unit of both rows at row 2; and
with column 0 as the unique column, a data row that shares its blank key
with a blank row is counted twice by the pre-scan and never submitted. -/
theorem Run_sharedColumnOne_units :
    (Run sharedColumnOne quietConsumer Library.ok).map Run.Result.units
        = some [(1, [1]), (2, [2])]
      ∧ (Run blankSharesKey quietConsumer Library.ok).map Run.Result.units = some [] := by
  decide

/-- C4 at the failing inputs: with the unique column 1 the pre-scan counts the
row `a, K` under the key `a` read from column 0 while the lookup uses `K`;
with the unique column 0 the pre-scan counts a padded cell under its trimmed
text while the lookup uses the cell as it stands. -/
theorem key_prescan_ne_lookup :
    (setUniqueColumnMapRowNum.key [1].length ["a", "K"] = some "a"
        ∧ getUniqueColumnIndex.key [1] ["a", "K"] = some "K")
      ∧ (setUniqueColumnMapRowNum.key [0].length [" K "] = some "K"
        ∧ getUniqueColumnIndex.key [0] [" K "] = some " K ") := by
  decide

/-- C6 at a failing input: the consumer passes a nil error to `SetErrs` on
the only row of a unit; the row then has no failure (`GetErrs` is empty) but
its flag is set. In any-row mode the ledger receives an entry for the row,
so that a unit without a failure adds an entry; in assigned-row mode it
receives none, so that a row flagged as failed gets no entry. -/
theorem Run_report_nil_error :
    (∀ r ∈ Submit nilErrorConsumer (rows.Append (newRows (List String)) ["a"] 1),
        row.GetErrs r = [] ∧ row.IsErr r = true)
      ∧ Run.report ErrorWriteBackModeAnyRow
          (Submit nilErrorConsumer (rows.Append (newRows (List String)) ["a"] 1))
        = [{ rowIndex := 1, err := none }]
      ∧ Run.report ErrorWriteBackModeAssignRow
          (Submit nilErrorConsumer (rows.Append (newRows (List String)) ["a"] 1)) = []
      ∧ (Run oneDataRow nilErrorConsumer Library.ok).map (fun r => r.errorCount) = some 1 := by
  decide

/-! ### The error ledger -/

theorem Build_of_count_zero (lib : Library) (p : errorMessages) (rows : List (List String))
    (m s : Nat) (h : errorMessages.Count p = 0) :
    Build lib p rows m s = some { err := none, ledger := p, rows := rows, written := [] } := by
  unfold Build
  simp [h]

theorem Build_success_count (lib : Library) (p : errorMessages) (rows : List (List String))
    (m s : Nat) (b : Build.Result) (h : Build lib p rows m s = some b) (hok : b.err = none) :
    errorMessages.Count b.ledger = 0 := by
  unfold Build at h
  split at h
  · rename_i h0
    injection h with h
    rw [← h]
    exact h0
  · simp only at h
    split at h
    · injection h with h
      rw [← h] at hok
      simp at hok
    · split at h
      · injection h with h
        rw [← h] at hok
        simp at hok
      · split at h
        · exact absurd h (by simp)
        · split at h
          · injection h with h
            rw [← h] at hok
            simp at hok
          · injection h with h
            rw [← h]
            rfl

/-- C10: `Build` on a ledger with no entries returns success, hands no row to
the writer and leaves the ledger, its error file and the table as they are;
after a `Build` that returned success the ledger has `Count() = 0`, so a
further `Build` returns success and leaves the ledger with the error file
built before unchanged. -/
theorem Build_no_entries_noop :
    (∀ (lib : Library) (p : errorMessages) (rows : List (List String)) (m s : Nat),
        errorMessages.Count p = 0 →
          Build lib p rows m s = some { err := none, ledger := p, rows := rows, written := [] })
      ∧ ∀ (lib : Library) (p : errorMessages) (rows : List (List String)) (m s : Nat)
          (b : Build.Result), Build lib p rows m s = some b → b.err = none →
            errorMessages.Count b.ledger = 0
              ∧ ∀ (lib2 : Library) (rows2 : List (List String)) (m2 s2 : Nat),
                  Build lib2 b.ledger rows2 m2 s2
                    = some { err := none, ledger := b.ledger, rows := rows2, written := [] } := by
  refine ⟨Build_of_count_zero, ?_⟩
  intro lib p rows m s b h hok
  have hc := Build_success_count lib p rows m s b h hok
  exact ⟨hc, fun lib2 rows2 m2 s2 => Build_of_count_zero lib2 b.ledger rows2 m2 s2 hc⟩

/-- C10 at a ledger holding one entry for row 1 of a two-row table: the
build succeeds, empties the ledger, and a second build changes nothing. -/
theorem Build_no_entries_noop_witness :
    Build Library.ok { errors := [{ rowIndex := 1, err := some "bad" }], errFile := none }
        [["h"], ["a"]] 1 1
      = some { err := none,
               ledger := { errors := [], errFile := some { sheet := [(1, ["h", errorReasonLabel]), (2, ["a", "bad"])] } },
               rows := [[], []],
               written := [(1, ["h", errorReasonLabel]), (2, ["a", "bad"])] }
      ∧ Build Library.ok
          { errors := [], errFile := some { sheet := [(1, ["h", errorReasonLabel]), (2, ["a", "bad"])] } }
          [["h"], ["a"]] 1 1
        = some { err := none,
                 ledger := { errors := [], errFile := some { sheet := [(1, ["h", errorReasonLabel]), (2, ["a", "bad"])] } },
                 rows := [["h"], ["a"]], written := [] } :=
  ⟨by decide,
    ((Build_no_entries_noop.2 Library.ok
        { errors := [{ rowIndex := 1, err := some "bad" }], errFile := none }
        [["h"], ["a"]] 1 1
        { err := none,
          ledger := { errors := [], errFile := some { sheet := [(1, ["h", errorReasonLabel]), (2, ["a", "bad"])] } },
          rows := [[], []],
          written := [(1, ["h", errorReasonLabel]), (2, ["a", "bad"])] }
        (by decide) (by decide)).2 Library.ok [["h"], ["a"]] 1 1)⟩

/-! ### Grouping by the single unique column 0 -/

theorem occurrences_append (k : String) (a b : List String) (i : Nat) :
    occurrences k i (a ++ b) = occurrences k i a ++ occurrences k (i + a.length) b := by
  induction a generalizing i with
  | nil => simp [occurrences]
  | cons x xs ih =>
    have h : i + (xs.length + 1) = i + 1 + xs.length := by omega
    by_cases hx : x = k <;> simp [occurrences, hx, ih, h]

theorem occurrences_of_not_mem (k : String) (b : List String) (i : Nat) (h : k ∉ b) :
    occurrences k i b = [] := by
  induction b generalizing i with
  | nil => rfl
  | cons x xs ih =>
    have hx : ¬ x = k := fun e => h (by simp [e])
    have hxs : k ∉ xs := fun e => h (List.mem_cons_of_mem _ e)
    simp [occurrences, hx, ih (i + 1) hxs]

theorem occurrences_length (k : String) (l : List String) (i : Nat) :
    (occurrences k i l).length = l.count k := by
  induction l generalizing i with
  | nil => rfl
  | cons x xs ih =>
    by_cases hx : x = k
    · simp [occurrences, hx, ih]
    · have hx' : ¬ (x == k) = true := by simpa using hx
      simp [occurrences, hx, ih, List.count_cons, hx']

theorem occurrences_snoc (k k' : String) (seen : List String) (i : Nat) :
    occurrences k' i (seen ++ [k])
      = if k = k' then occurrences k' i seen ++ [i + seen.length] else occurrences k' i seen := by
  rw [occurrences_append]
  by_cases h : k = k' <;> simp [occurrences, h]

theorem isEmpty_false_ne_nil (r : List String) (h : isEmpty r = false) : r ≠ [] := by
  intro e
  rw [e] at h
  simp [isEmpty] at h

theorem getUniqueColumnIndex_single {δ : Type} (g : groupRows δ) (r : List String)
    (hidx : g.indexes = [0]) (hr : r ≠ []) (slot : Nat)
    (hslot : GoMap.get g.keyMapIndex (keyCell r) = some slot) :
    getUniqueColumnIndex g r = (slot, true) := by
  cases r with
  | nil => exact absurd rfl hr
  | cons c cs =>
    simp only [keyCell, List.headD_cons] at hslot
    simp [getUniqueColumnIndex, isEnableGroupRows, groupRows.indexesLen, hidx,
      getUniqueColumnIndex.key, hslot]

theorem Run_loop_units {δ : Type} (parse : Nat → List String → δ × Nat) (g : groupRows δ)
    (consumer : rows δ → List Attach) (skip : Nat) (hidx : g.indexes = [0])
    (hinj : ∀ (k k' : String) (slot : Nat), GoMap.get g.keyMapIndex k = some slot →
      GoMap.get g.keyMapIndex k' = some slot → k = k')
    (rest : List (List String)) (seen : List String) (s : Run.State δ)
    (hrows : ∀ r ∈ rest, isEmpty r = false)
    (hinv : ∀ k ∈ rest.map keyCell, ∃ slot uc, GoMap.get g.keyMapIndex k = some slot
        ∧ s.slots[slot]? = some (some uc) ∧ uc.mergeNum = (((rest.map keyCell).count k : Nat) : Int)
        ∧ uc.rowsData.map row.GetFormIndex = occurrences k skip seen) :
    ∃ s', Run.loop parse g consumer (skip + seen.length) rest s = some s'
      ∧ s'.submitted.map Run.view
          = s.submitted.map Run.view ++ logicalUnits skip seen (rest.map keyCell) := by
  induction rest generalizing seen s with
  | nil => exact ⟨s, by simp [Run.loop], by simp [logicalUnits]⟩
  | cons r rs ih =>
    have hr : isEmpty r = false := hrows r (List.mem_cons_self _ _)
    have hrs : ∀ r' ∈ rs, isEmpty r' = false := fun r' h => hrows r' (List.mem_cons_of_mem _ h)
    obtain ⟨slot, uc, hslot, huc, hnum, hocc⟩ := hinv (keyCell r) (by simp)
    have hget := getUniqueColumnIndex_single g r hidx (isEmpty_false_ne_nil r hr) slot hslot
    have hlen : skip + seen.length + 1 = skip + (seen ++ [keyCell r]).length := by
      simp
      omega
    have hslotlt : slot < s.slots.length := by
      rcases List.getElem?_eq_some.mp huc with ⟨h, _⟩
      exact h
    have hcount : (((r :: rs).map keyCell).count (keyCell r) : Nat)
        = (rs.map keyCell).count (keyCell r) + 1 := by
      simp
    rw [hcount] at hnum
    have hoccNew : (rows.Append uc.rowsData (parse s.maxColumnNum r).1 (skip + seen.length)).map
        row.GetFormIndex = occurrences (keyCell r) skip (seen ++ [keyCell r]) := by
      rw [occurrences_snoc]
      simp [rows.Append, hocc, row.GetFormIndex]
    have hother : ∀ k' ∈ rs.map keyCell, k' ≠ keyCell r → ∀ (x : Option (uniqueColumn δ)),
        ∃ slot' uc', GoMap.get g.keyMapIndex k' = some slot'
          ∧ (s.slots.set slot x)[slot']? = some (some uc')
          ∧ uc'.mergeNum = (((rs.map keyCell).count k' : Nat) : Int)
          ∧ uc'.rowsData.map row.GetFormIndex = occurrences k' skip (seen ++ [keyCell r]) := by
      intro k' hk' hne x
      obtain ⟨slot', uc', h1, h2, h3, h4⟩ := hinv k' (List.mem_cons_of_mem _ hk')
      have hslots : slot ≠ slot' := fun e => hne (hinj k' (keyCell r) slot' h1 (e ▸ hslot))
      refine ⟨slot', uc', h1, ?_, ?_, ?_⟩
      · rw [List.getElem?_set_ne hslots]
        exact h2
      · rw [h3]
        have hne' : ¬ (keyCell r == k') = true := by
          simpa using fun e => hne e.symm
        simp [List.count_cons, hne']
      · rw [occurrences_snoc, if_neg (fun e => hne e.symm)]
        exact h4
    by_cases hmem : keyCell r ∈ rs.map keyCell
    · have hpos : uc.mergeNum - 1 > 0 := by
        have := List.count_pos_iff.mpr hmem
        omega
      have hstep : Run.loop parse g consumer (skip + seen.length) (r :: rs) s
          = Run.loop parse g consumer (skip + (seen ++ [keyCell r]).length) rs
              { s with maxColumnNum := (parse s.maxColumnNum r).2,
                       slots := s.slots.set slot (some
                         { rowsData := rows.Append uc.rowsData (parse s.maxColumnNum r).1 (skip + seen.length),
                           mergeNum := uc.mergeNum - 1 }) } := by
        rw [← hlen]
        simp only [Run.loop, hr, hget, huc]
        simp [hpos]
      obtain ⟨s', hs', hsub⟩ := ih (seen ++ [keyCell r])
        { s with maxColumnNum := (parse s.maxColumnNum r).2,
                 slots := s.slots.set slot (some
                   { rowsData := rows.Append uc.rowsData (parse s.maxColumnNum r).1 (skip + seen.length),
                     mergeNum := uc.mergeNum - 1 }) } hrs (by
        intro k' hk'
        by_cases hk : k' = keyCell r
        · subst hk
          refine ⟨slot, { rowsData := rows.Append uc.rowsData (parse s.maxColumnNum r).1 (skip + seen.length),
                          mergeNum := uc.mergeNum - 1 }, hslot, ?_, ?_, hoccNew⟩
          · simp [hslotlt]
          · simp only
            omega
        · exact hother k' hk' hk _)
      refine ⟨s', hstep.trans hs', ?_⟩
      rw [hsub]
      simp [logicalUnits, hmem]
    · have hzero : ¬ (uc.mergeNum - 1 > 0) := by
        have := List.count_eq_zero.mpr hmem
        omega
      have hstep : Run.loop parse g consumer (skip + seen.length) (r :: rs) s
          = Run.loop parse g consumer (skip + (seen ++ [keyCell r]).length) rs
              (Run.submit consumer g.errorWriteBackMode (skip + seen.length)
                (rows.Append uc.rowsData (parse s.maxColumnNum r).1 (skip + seen.length))
                { s with maxColumnNum := (parse s.maxColumnNum r).2,
                         slots := s.slots.set slot none }) := by
        rw [← hlen]
        simp only [Run.loop, hr, hget, huc]
        simp [hzero]
      obtain ⟨s', hs', hsub⟩ := ih (seen ++ [keyCell r])
        (Run.submit consumer g.errorWriteBackMode (skip + seen.length)
          (rows.Append uc.rowsData (parse s.maxColumnNum r).1 (skip + seen.length))
          { s with maxColumnNum := (parse s.maxColumnNum r).2,
                   slots := s.slots.set slot none }) hrs (by
        intro k' hk'
        have hk : k' ≠ keyCell r := fun e => hmem (e ▸ hk')
        simpa [Run.submit] using hother k' hk' hk none)
      refine ⟨s', hstep.trans hs', ?_⟩
      rw [hsub]
      simp [logicalUnits, hmem, Run.submit, Run.view, hoccNew]

theorem GoMap.mem_of_get {κ α : Type} [DecidableEq κ] (m : GoMap κ α) (k : κ) (v : α)
    (h : GoMap.get m k = some v) : (k, v) ∈ m := by
  induction m with
  | nil => simp [GoMap.get] at h
  | cons e rest ih =>
    obtain ⟨a, b⟩ := e
    by_cases hak : a = k
    · simp [GoMap.get, hak] at h
      simp [hak, h]
    · simp [GoMap.get, hak] at h
      exact List.mem_cons_of_mem _ (ih h)

theorem GoMap.mem_set {κ α : Type} [DecidableEq κ] (m : GoMap κ α) (k : κ) (v : α) (e : κ × α)
    (h : e ∈ GoMap.set m k v) : e = (k, v) ∨ e ∈ m := by
  induction m with
  | nil =>
    left
    simpa [GoMap.set] using h
  | cons x rest ih =>
    obtain ⟨a, b⟩ := x
    by_cases hak : a = k
    · simp only [GoMap.set, hak, if_true, List.mem_cons] at h
      rcases h with h | h
      · exact Or.inl h
      · exact Or.inr (List.mem_cons_of_mem _ h)
    · simp only [GoMap.set, hak, if_false, List.mem_cons] at h
      rcases h with h | h
      · exact Or.inr (by simp [h])
      · rcases ih h with h | h
        · exact Or.inl h
        · exact Or.inr (List.mem_cons_of_mem _ h)

theorem Join_single (c sep : String) : Join [c] sep = c := by
  simp [Join, List.intercalate]

theorem setUniqueColumnMapRowNum_key_single (r : List String) (hr : r ≠ [])
    (htrim : TrimSpace (keyCell r) = keyCell r) :
    setUniqueColumnMapRowNum.key 1 r = some (keyCell r) := by
  cases r with
  | nil => exact absurd rfl hr
  | cons c cs =>
    simp only [keyCell, List.headD_cons] at htrim
    simp [setUniqueColumnMapRowNum.key, setUniqueColumnMapRowNum.keys, htrim, Join_single, keyCell]

theorem setUniqueColumnMapRowNum_loop_counted {δ : Type} (skip : Nat)
    (rest : List (List String)) (seen : List String) (s : setUniqueColumnMapRowNum.State δ)
    (hrows : ∀ r ∈ rest, r ≠ [] ∧ TrimSpace (keyCell r) = keyCell r)
    (hinv : setUniqueColumnMapRowNum.Counted seen s) :
    ∃ s', setUniqueColumnMapRowNum.loop skip 1 (skip + seen.length) rest s = some s'
      ∧ setUniqueColumnMapRowNum.Counted (seen ++ rest.map keyCell) s' := by
  induction rest generalizing seen s with
  | nil => exact ⟨s, by simp [setUniqueColumnMapRowNum.loop], by simpa using hinv⟩
  | cons r rs ih =>
    obtain ⟨hr, htrim⟩ := hrows r (List.mem_cons_self _ _)
    have hrs : ∀ r' ∈ rs, r' ≠ [] ∧ TrimSpace (keyCell r') = keyCell r' :=
      fun r' h => hrows r' (List.mem_cons_of_mem _ h)
    have hkey := setUniqueColumnMapRowNum_key_single r hr htrim
    obtain ⟨ha, hb, hc, hd, he⟩ := hinv
    have hlen : skip + seen.length + 1 = skip + (seen ++ [keyCell r]).length := by
      simp
      omega
    have happ : seen ++ (r :: rs).map keyCell = (seen ++ [keyCell r]) ++ rs.map keyCell := by
      simp
    have hnum : ∀ k, GoMap.get (GoMap.set s.keyNum (keyCell r) (GoMap.getD s.keyNum (keyCell r) 0 + 1)) k
        = if k ∈ seen ++ [keyCell r] then some ((seen ++ [keyCell r]).count k) else none := by
      intro k
      rw [GoMap.get_set]
      by_cases hk : keyCell r = k
      · subst hk
        unfold GoMap.getD
        rw [hb]
        by_cases hs : keyCell r ∈ seen
        · simp [hs]
        · simp [hs, List.count_eq_zero.mpr hs]
      · have hk' : ¬ (keyCell r == k) = true := by simpa using hk
        have hk'' : ¬ k = keyCell r := fun e => hk e.symm
        simp [hk, hb k, hk'', List.count_append, List.count_cons, hk']
    rw [happ]
    by_cases hseen : keyCell r ∈ seen
    · have hstart : GoMap.get s.keyStartIndex (keyCell r) = some () := by
        rw [hc]
        simp [hseen]
      have hstep : setUniqueColumnMapRowNum.loop skip 1 (skip + seen.length) (r :: rs) s
          = setUniqueColumnMapRowNum.loop skip 1 (skip + (seen ++ [keyCell r]).length) rs
              { s with keyNum := GoMap.set s.keyNum (keyCell r) (GoMap.getD s.keyNum (keyCell r) 0 + 1),
                       rows := s.rows ++ [none] } := by
        rw [← hlen]
        simp only [setUniqueColumnMapRowNum.loop, hkey, hstart]
      rw [hstep]
      apply ih
      · exact hrs
      · refine ⟨by simp [ha], hnum, ?_, ?_, ?_⟩
        · intro k
          rw [hc k]
          by_cases hk : k = keyCell r
          · simp [hk, hseen]
          · simp [hk]
        · intro k slot hmem
          obtain ⟨h1, h2⟩ := hd k slot hmem
          have hlt : slot < seen.length := (List.getElem?_eq_some.mp h1).1
          refine ⟨?_, ?_⟩
          · rw [List.getElem?_append_left hlt]
            exact h1
          · simp only
            rw [List.getElem?_append_left (by omega)]
            exact h2
        · intro k hk
          rcases List.mem_append.mp hk with hk | hk
          · exact he k hk
          · simp at hk
            subst hk
            exact he _ hseen
    · have hstart : GoMap.get s.keyStartIndex (keyCell r) = none := by
        rw [hc]
        simp [hseen]
      have hidx : skip + seen.length - skip = seen.length := by omega
      have hstep : setUniqueColumnMapRowNum.loop skip 1 (skip + seen.length) (r :: rs) s
          = setUniqueColumnMapRowNum.loop skip 1 (skip + (seen ++ [keyCell r]).length) rs
              { keyNum := GoMap.set s.keyNum (keyCell r) (GoMap.getD s.keyNum (keyCell r) 0 + 1),
                keyStartIndex := GoMap.set s.keyStartIndex (keyCell r) (),
                rows := (s.rows ++ [none]).set seen.length
                  (some { rowsData := newRows δ, mergeNum := 0 }),
                keyMapIndex := GoMap.set s.keyMapIndex (keyCell r) seen.length } := by
        rw [← hlen]
        simp only [setUniqueColumnMapRowNum.loop, hkey, hstart, hidx]
        simp [ha]
      rw [hstep]
      apply ih
      · exact hrs
      · refine ⟨by simp [ha], hnum, ?_, ?_, ?_⟩
        · intro k
          rw [GoMap.get_set, hc k]
          by_cases hk : keyCell r = k
          · simp [hk]
          · have hk' : ¬ k = keyCell r := fun e => hk e.symm
            simp [hk, hk']
        · intro k slot hmem
          rcases GoMap.mem_set _ _ _ _ hmem with h | h
          · injection h with h1 h2
            subst h1
            subst h2
            refine ⟨by simp, ?_⟩
            simp only
            rw [List.getElem?_set_self (by simp [ha])]
          · obtain ⟨h1, h2⟩ := hd k slot h
            have hlt : slot < seen.length := (List.getElem?_eq_some.mp h1).1
            refine ⟨?_, ?_⟩
            · rw [List.getElem?_append_left hlt]
              exact h1
            · simp only
              rw [List.getElem?_set_ne (by omega), List.getElem?_append_left (by omega)]
              exact h2
        · intro k hk
          simp only
          rw [GoMap.get_set]
          by_cases hkr : keyCell r = k
          · exact ⟨seen.length, by simp [hkr]⟩
          · rcases List.mem_append.mp hk with hk | hk
            · obtain ⟨slot, hslot⟩ := he k hk
              exact ⟨slot, by simp [hkr, hslot]⟩
            · simp at hk
              exact absurd hk.symm hkr

theorem setUniqueColumnMapRowNum_fill_spec {δ : Type} (keyNum : GoMap String Nat)
    (all : List String) (bs : List (String × Nat)) (slots : List (Option (uniqueColumn δ)))
    (hb : ∀ k slot, (k, slot) ∈ bs →
      all[slot]? = some k ∧ GoMap.get keyNum k = some (all.count k))
    (hs : ∀ k slot, (k, slot) ∈ bs →
      ∃ m : Int, slots[slot]? = some (some { rowsData := newRows δ, mergeNum := m })) :
    ∃ slots', setUniqueColumnMapRowNum.fill keyNum bs slots = some slots'
      ∧ (∀ k slot, (k, slot) ∈ bs →
          slots'[slot]? = some (some { rowsData := newRows δ, mergeNum := ((all.count k : Nat) : Int) }))
      ∧ ∀ slot, (∀ k, (k, slot) ∉ bs) → slots'[slot]? = slots[slot]? := by
  induction bs generalizing slots with
  | nil => exact ⟨slots, by simp [setUniqueColumnMapRowNum.fill], by simp, by simp⟩
  | cons b rest ih =>
    obtain ⟨k, slot⟩ := b
    obtain ⟨h1, h2⟩ := hb k slot (List.mem_cons_self _ _)
    obtain ⟨m, hm⟩ := hs k slot (List.mem_cons_self _ _)
    have hlt : slot < slots.length := (List.getElem?_eq_some.mp hm).1
    have hstep : setUniqueColumnMapRowNum.fill keyNum ((k, slot) :: rest) slots
        = setUniqueColumnMapRowNum.fill keyNum rest
            (slots.set slot (some { rowsData := newRows δ, mergeNum := ((all.count k : Nat) : Int) })) := by
      simp only [setUniqueColumnMapRowNum.fill, h2, hm]
    obtain ⟨slots', hfill, hA, hB⟩ := ih
      (slots.set slot (some { rowsData := newRows δ, mergeNum := ((all.count k : Nat) : Int) }))
      (fun k' slot' h => hb k' slot' (List.mem_cons_of_mem _ h))
      (by
        intro k' slot' h
        by_cases hsl : slot = slot'
        · subst hsl
          exact ⟨_, List.getElem?_set_self hlt⟩
        · obtain ⟨m', hm'⟩ := hs k' slot' (List.mem_cons_of_mem _ h)
          exact ⟨m', by rw [List.getElem?_set_ne hsl]; exact hm'⟩)
    refine ⟨slots', hstep.trans hfill, ?_, ?_⟩
    · intro k' slot' h
      rcases List.mem_cons.mp h with h | h
      · injection h with hk hsl
        subst hk
        subst hsl
        by_cases hex : ∃ k'', (k'', slot') ∈ rest
        · obtain ⟨k'', hk''⟩ := hex
          have hsame : k'' = k' := by
            have := (hb k'' slot' (List.mem_cons_of_mem _ hk'')).1
            rw [h1] at this
            injection this with this
            exact this.symm
          rw [← hsame]
          exact hA k'' slot' hk''
        · rw [hB slot' (fun k'' hk'' => hex ⟨k'', hk''⟩)]
          exact List.getElem?_set_self hlt
      · exact hA k' slot' h
    · intro slot' hno
      have hne : slot ≠ slot' := fun e => hno k (by simp [e])
      rw [hB slot' (fun k'' hk'' => hno k'' (List.mem_cons_of_mem _ hk'')),
        List.getElem?_set_ne hne]

theorem setUniqueColumnMapRowNum_single {δ : Type} (p : taskScheduler δ)
    (hidx : p.groupRows.indexes = [0]) (hslots : p.groupRows.rows = [])
    (hmap : p.groupRows.keyMapIndex = [])
    (hrows : ∀ r ∈ p.rows.drop p.skipRowNum, r ≠ [] ∧ TrimSpace (keyCell r) = keyCell r) :
    ∃ g, setUniqueColumnMapRowNum p = some g ∧ g.indexes = [0]
      ∧ g.errorWriteBackMode = p.groupRows.errorWriteBackMode
      ∧ (∀ (k k' : String) (slot : Nat), GoMap.get g.keyMapIndex k = some slot →
          GoMap.get g.keyMapIndex k' = some slot → k = k')
      ∧ ∀ k ∈ (p.rows.drop p.skipRowNum).map keyCell, ∃ slot uc,
          GoMap.get g.keyMapIndex k = some slot ∧ g.rows[slot]? = some (some uc)
            ∧ uc.mergeNum = ((((p.rows.drop p.skipRowNum).map keyCell).count k : Nat) : Int)
            ∧ uc.rowsData = newRows δ := by
  obtain ⟨s', hloop, ha, hb, hc, hd, he⟩ := setUniqueColumnMapRowNum_loop_counted (δ := δ)
    p.skipRowNum (p.rows.drop p.skipRowNum) []
    { keyNum := [], keyStartIndex := [], rows := p.groupRows.rows,
      keyMapIndex := p.groupRows.keyMapIndex } hrows
    (by simp [setUniqueColumnMapRowNum.Counted, hslots, hmap, GoMap.get])
  simp only [List.nil_append, List.length_nil, Nat.add_zero] at hloop ha hb hc hd he
  obtain ⟨slots', hfill, hA, _⟩ := setUniqueColumnMapRowNum_fill_spec s'.keyNum
    ((p.rows.drop p.skipRowNum).map keyCell) s'.keyMapIndex s'.rows
    (by
      intro k slot h
      obtain ⟨h1, _⟩ := hd k slot h
      have hk : k ∈ (p.rows.drop p.skipRowNum).map keyCell := List.mem_iff_getElem?.mpr ⟨slot, h1⟩
      exact ⟨h1, by rw [hb k]; simp only [hk, if_true]⟩)
    (fun k slot h => ⟨0, (hd k slot h).2⟩)
  have hen : isEnableGroupRows p.groupRows = true := by
    simp [isEnableGroupRows, groupRows.indexesLen, hidx]
  have hlen : p.groupRows.indexesLen = 1 := by
    simp [groupRows.indexesLen, hidx]
  refine ⟨{ p.groupRows with rows := slots', keyMapIndex := s'.keyMapIndex }, ?_, hidx, rfl, ?_, ?_⟩
  · unfold setUniqueColumnMapRowNum
    simp only [hen, hlen, hloop, hfill]
    simp
  · intro k k' slot h1 h2
    have e1 := (hd k slot (GoMap.mem_of_get _ _ _ h1)).1
    have e2 := (hd k' slot (GoMap.mem_of_get _ _ _ h2)).1
    rw [e1] at e2
    injection e2
  · intro k hk
    obtain ⟨slot, hslot⟩ := he k hk
    exact ⟨slot, _, hslot, hA k slot (GoMap.mem_of_get _ _ _ hslot), rfl, rfl⟩

theorem Build_mapErrorRowIndex_get (es : List errorMessage) (i : Nat) (m0 : GoMap Nat Nat)
    (x k : Nat) (h : GoMap.get (Build.mapErrorRowIndex i es m0) x = some k) :
    GoMap.get m0 x = some k ∨ ∃ t e, es[t]? = some e ∧ k = i + t ∧ e.rowIndex = x := by
  induction es generalizing i m0 with
  | nil => exact Or.inl (by simpa [Build.mapErrorRowIndex] using h)
  | cons e es ih =>
    simp only [Build.mapErrorRowIndex] at h
    rcases ih (i + 1) _ h with h1 | ⟨t, e', h1, h2, h3⟩
    · rw [GoMap.get_set] at h1
      by_cases hx : e.rowIndex = x
      · rw [if_pos hx] at h1
        injection h1 with h1
        exact Or.inr ⟨0, e, by simp, by omega, hx⟩
      · rw [if_neg hx] at h1
        exact Or.inl h1
    · exact Or.inr ⟨t + 1, e', by simpa using h1, by omega, h3⟩

theorem Build_loop_isSome (errors : List errorMessage) (m : GoMap Nat Nat) (M skip : Nat)
    (hm : ∀ x k, GoMap.get m x = some k → ∃ e, errors[k]? = some e)
    (rows : List (List String)) (i : Nat) :
    ∃ w, Build.loop errors m M skip i rows = some w := by
  induction rows generalizing i with
  | nil => exact ⟨[], by simp [Build.loop]⟩
  | cons r rs ih =>
    obtain ⟨w, hw⟩ := ih (i + 1)
    have hrow : ∃ o, Build.row errors m M skip i r = some o := by
      unfold Build.row
      by_cases hi : i < skip
      · simp [hi]
      · cases hg : GoMap.get m i with
        | none => simp [hi]
        | some k =>
          obtain ⟨e, he⟩ := hm i k hg
          simp [hi, he]
    obtain ⟨o, ho⟩ := hrow
    exact ⟨o.toList ++ w, by simp [Build.loop, ho, hw]⟩

theorem Build_mapErrorRowIndex_inRange (errors : List errorMessage) (x k : Nat)
    (h : GoMap.get (Build.mapErrorRowIndex 0 errors []) x = some k) :
    ∃ e, errors[k]? = some e := by
  rcases Build_mapErrorRowIndex_get errors 0 [] x k h with h1 | ⟨t, e, h1, h2, _⟩
  · simp [GoMap.get] at h1
  · exact ⟨e, by rw [h2, Nat.zero_add]; exact h1⟩

/-- `Build` never stops on an entry index outside the entry list. -/
theorem Build_isSome (lib : Library) (p : errorMessages) (rows : List (List String))
    (M skip : Nat) : ∃ b, Build lib p rows M skip = some b := by
  obtain ⟨w, hw⟩ := Build_loop_isSome (sortSlice lib p.errors)
    (Build.mapErrorRowIndex 0 (sortSlice lib p.errors) []) M skip
    (Build_mapErrorRowIndex_inRange (sortSlice lib p.errors)) rows 0
  unfold Build
  by_cases h0 : errorMessages.Count p = 0
  · simp [h0]
  · simp only [h0, if_false, hw]
    cases lib.NewStreamWriter <;> cases lib.NewStyle <;> cases lib.Flush <;> simp

theorem logicalUnits_ge (skip : Nat) (rest seen : List String) (x : Nat × List Nat)
    (h : x ∈ logicalUnits skip seen rest) : skip + seen.length ≤ x.1 := by
  induction rest generalizing seen with
  | nil => simp [logicalUnits] at h
  | cons k rest ih =>
    simp only [logicalUnits] at h
    split at h
    · have := ih (seen ++ [k]) h
      simp at this
      omega
    · rcases List.mem_cons.mp h with h | h
      · simp [h]
      · have := ih (seen ++ [k]) h
        simp at this
        omega

theorem logicalUnits_nodup (skip : Nat) (rest seen : List String) :
    ((logicalUnits skip seen rest).map Prod.fst).Nodup := by
  induction rest generalizing seen with
  | nil => simp [logicalUnits]
  | cons k rest ih =>
    simp only [logicalUnits]
    split
    · exact ih (seen ++ [k])
    · rw [List.map_cons, List.nodup_cons]
      refine ⟨?_, ih (seen ++ [k])⟩
      intro hmem
      rcases List.mem_map.mp hmem with ⟨x, hx, hxe⟩
      have := logicalUnits_ge skip rest (seen ++ [k]) x hx
      simp at this hxe
      omega

theorem mem_logicalUnits (skip : Nat) (rest seen : List String) (i : Nat) (u : List Nat) :
    (i, u) ∈ logicalUnits skip seen rest ↔
      ∃ j k, i = skip + seen.length + j ∧ rest[j]? = some k ∧ k ∉ rest.drop (j + 1)
        ∧ u = occurrences k skip (seen ++ rest) := by
  induction rest generalizing seen with
  | nil => simp [logicalUnits]
  | cons k0 rest ih =>
    have hrec : (i, u) ∈ logicalUnits skip (seen ++ [k0]) rest ↔
        ∃ j k, i = skip + seen.length + (j + 1) ∧ (k0 :: rest)[j + 1]? = some k
          ∧ k ∉ (k0 :: rest).drop (j + 1 + 1) ∧ u = occurrences k skip (seen ++ k0 :: rest) := by
      rw [ih (seen ++ [k0])]
      constructor
      · rintro ⟨j, k, h1, h2, h3, h4⟩
        refine ⟨j, k, ?_, by simpa using h2, by simpa using h3, by simpa using h4⟩
        simp at h1
        omega
      · rintro ⟨j, k, h1, h2, h3, h4⟩
        refine ⟨j, k, ?_, by simpa using h2, by simpa using h3, by simpa using h4⟩
        simp
        omega
    have hzero : k0 ∉ rest → occurrences k0 skip (seen ++ k0 :: rest)
        = occurrences k0 skip (seen ++ [k0]) := by
      intro hk
      have e : seen ++ k0 :: rest = (seen ++ [k0]) ++ rest := by simp
      rw [e, occurrences_append (b := rest), occurrences_of_not_mem k0 rest _ hk]
      simp
    simp only [logicalUnits]
    constructor
    · intro h
      by_cases hk : k0 ∈ rest
      · rw [if_pos hk] at h
        obtain ⟨j, k, h1, h2, h3, h4⟩ := hrec.mp h
        exact ⟨j + 1, k, h1, h2, h3, h4⟩
      · rw [if_neg hk] at h
        rcases List.mem_cons.mp h with h | h
        · injection h with h1 h2
          exact ⟨0, k0, by omega, by simp, by simpa using hk, by rw [h2, hzero hk]⟩
        · obtain ⟨j, k, h1, h2, h3, h4⟩ := hrec.mp h
          exact ⟨j + 1, k, h1, h2, h3, h4⟩
    · rintro ⟨j, k, h1, h2, h3, h4⟩
      cases j with
      | zero =>
        simp at h2 h3
        subst h2
        rw [if_neg h3]
        refine List.mem_cons.mpr (Or.inl ?_)
        rw [h4, hzero h3, h1]
        simp
      | succ j =>
        have h := hrec.mpr ⟨j, k, h1, h2, h3, h4⟩
        by_cases hk : k0 ∈ rest
        · rw [if_pos hk]
          exact h
        · rw [if_neg hk]
          exact List.mem_cons_of_mem _ h

/-- C5: with the single unique column 0, a fresh group table and data rows
that are not blank and whose column-0 cell carries no surrounding white
space, the pre-scan and the scan run to their end and (1) the pre-scan leaves
every key a slot holding the number of rows with that key; (2) a unit is
submitted during the iteration of table row `i` exactly when the row is the
last one with its key, and the unit then holds, in order, all the rows with
that key; (3) no iteration submits twice; (4) the size of a submitted unit is
the pre-scan count of its key. -/
theorem Run_single_unique_column {δ : Type} (p : taskScheduler δ)
    (consumer : rows δ → List Attach) (lib : Library)
    (hidx : p.groupRows.indexes = [0]) (hslots : p.groupRows.rows = [])
    (hmap : p.groupRows.keyMapIndex = [])
    (hrows : ∀ r ∈ p.rows.drop p.skipRowNum,
      isEmpty r = false ∧ TrimSpace (keyCell r) = keyCell r) :
    ∃ g res, setUniqueColumnMapRowNum p = some g ∧ Run p consumer lib = some res
      ∧ (∀ k ∈ (p.rows.drop p.skipRowNum).map keyCell, ∃ slot uc,
          GoMap.get g.keyMapIndex k = some slot ∧ g.rows[slot]? = some (some uc)
            ∧ uc.mergeNum = ((((p.rows.drop p.skipRowNum).map keyCell).count k : Nat) : Int))
      ∧ (∀ i u, (i, u) ∈ res.units ↔
          ∃ j k, i = p.skipRowNum + j ∧ ((p.rows.drop p.skipRowNum).map keyCell)[j]? = some k
            ∧ k ∉ ((p.rows.drop p.skipRowNum).map keyCell).drop (j + 1)
            ∧ u = occurrences k p.skipRowNum ((p.rows.drop p.skipRowNum).map keyCell))
      ∧ (res.units.map Prod.fst).Nodup
      ∧ ∀ i u, (i, u) ∈ res.units → ∃ k slot uc,
          ((p.rows.drop p.skipRowNum).map keyCell)[i - p.skipRowNum]? = some k
            ∧ GoMap.get g.keyMapIndex k = some slot ∧ g.rows[slot]? = some (some uc)
            ∧ (u.length : Int) = uc.mergeNum := by
  obtain ⟨g, hg, hgidx, _, hinj, hcount⟩ := setUniqueColumnMapRowNum_single p hidx hslots hmap
    (fun r hr => ⟨isEmpty_false_ne_nil r (hrows r hr).1, (hrows r hr).2⟩)
  have hunits : ∃ res, Run p consumer lib = some res
      ∧ res.units = logicalUnits p.skipRowNum [] ((p.rows.drop p.skipRowNum).map keyCell) := by
    by_cases hempty : p.rowsCount ≤ p.skipRowNum
    · have hdrop : p.rows.drop p.skipRowNum = [] := List.drop_eq_nil_of_le hempty
      have hrun : Run p consumer lib = some ⟨[], false, 0, 0, newErrorMessages, none, []⟩ := by
        simp only [Run, hempty, if_true]
      refine ⟨_, hrun, ?_⟩
      simp [Run.Result.units, hdrop, logicalUnits]
    · obtain ⟨s', hs', hsub⟩ := Run_loop_units p.parseRowData g consumer p.skipRowNum hgidx hinj
        (p.rows.drop p.skipRowNum) []
        { slots := g.rows, maxColumnNum := p.maxColumnNum, emptyRowNum := 0,
          errMessages := newErrorMessages, submitted := [] }
        (fun r hr => (hrows r hr).1)
        (by
          intro k hk
          obtain ⟨slot, uc, h1, h2, h3, h4⟩ := hcount k hk
          exact ⟨slot, uc, h1, h2, h3, by simp [h4, newRows, occurrences]⟩)
      simp only [List.length_nil, Nat.add_zero, List.map_nil, List.nil_append] at hs' hsub
      obtain ⟨b, hb⟩ := Build_isSome lib s'.errMessages p.rows s'.maxColumnNum p.skipRowNum
      have hrun : Run p consumer lib = some ⟨s'.submitted, true,
          p.rowsCount - p.skipRowNum - s'.emptyRowNum, errorMessages.Count s'.errMessages,
          b.ledger, b.err, s'.errMessages.errors⟩ := by
        simp only [Run, hempty, if_false, hg, hs', hb]
      refine ⟨_, hrun, ?_⟩
      rw [← hsub]
      simp [Run.Result.units, Run.view]
  obtain ⟨res, hres, hu⟩ := hunits
  have hmemU : ∀ i u, (i, u) ∈ res.units ↔
      ∃ j k, i = p.skipRowNum + j ∧ ((p.rows.drop p.skipRowNum).map keyCell)[j]? = some k
        ∧ k ∉ ((p.rows.drop p.skipRowNum).map keyCell).drop (j + 1)
        ∧ u = occurrences k p.skipRowNum ((p.rows.drop p.skipRowNum).map keyCell) := by
    intro i u
    rw [hu, mem_logicalUnits]
    simp
  refine ⟨g, res, hg, hres, ?_, hmemU, ?_, ?_⟩
  · intro k hk
    obtain ⟨slot, uc, h1, h2, h3, _⟩ := hcount k hk
    exact ⟨slot, uc, h1, h2, h3⟩
  · rw [hu]
    exact logicalUnits_nodup _ _ _
  · intro i u hmem
    obtain ⟨j, k, h1, h2, _, h4⟩ := (hmemU i u).mp hmem
    have hk : k ∈ (p.rows.drop p.skipRowNum).map keyCell := List.mem_iff_getElem?.mpr ⟨j, h2⟩
    obtain ⟨slot, uc, g1, g2, g3, _⟩ := hcount k hk
    have hj : i - p.skipRowNum = j := by omega
    refine ⟨k, slot, uc, by rw [hj]; exact h2, g1, g2, ?_⟩
    rw [g3, h4, occurrences_length]

/-- C5 at scenario C: the pre-scan counts `K1` twice (slot 0) and `K2` once
(slot 2); the first `K1` row (table row 1) submits nothing, the second (table
row 2) submits the unit of rows 1 and 2, and the `K2` row (table row 3)
submits itself at once. -/
theorem Run_single_unique_column_witness :
    ((setUniqueColumnMapRowNum scenarioC).map
        (fun g => (g.keyMapIndex, g.rows.map (Option.map uniqueColumn.mergeNum)))
        = some ([("K1", 0), ("K2", 2)], [some 2, none, some 1])
      ∧ (Run scenarioC quietConsumer Library.ok).map Run.Result.units
        = some [(2, [1, 2]), (3, [3])])
    ∧ ∃ g res, setUniqueColumnMapRowNum scenarioC = some g
      ∧ Run scenarioC quietConsumer Library.ok = some res
      ∧ (∀ k ∈ (scenarioC.rows.drop scenarioC.skipRowNum).map keyCell, ∃ slot uc,
          GoMap.get g.keyMapIndex k = some slot ∧ g.rows[slot]? = some (some uc)
            ∧ uc.mergeNum = ((((scenarioC.rows.drop scenarioC.skipRowNum).map keyCell).count k : Nat) : Int))
      ∧ (∀ i u, (i, u) ∈ res.units ↔
          ∃ j k, i = scenarioC.skipRowNum + j
            ∧ ((scenarioC.rows.drop scenarioC.skipRowNum).map keyCell)[j]? = some k
            ∧ k ∉ ((scenarioC.rows.drop scenarioC.skipRowNum).map keyCell).drop (j + 1)
            ∧ u = occurrences k scenarioC.skipRowNum
                ((scenarioC.rows.drop scenarioC.skipRowNum).map keyCell))
      ∧ (res.units.map Prod.fst).Nodup
      ∧ ∀ i u, (i, u) ∈ res.units → ∃ k slot uc,
          ((scenarioC.rows.drop scenarioC.skipRowNum).map keyCell)[i - scenarioC.skipRowNum]? = some k
            ∧ GoMap.get g.keyMapIndex k = some slot ∧ g.rows[slot]? = some (some uc)
            ∧ (u.length : Int) = uc.mergeNum :=
  ⟨by decide,
    Run_single_unique_column scenarioC quietConsumer Library.ok rfl rfl rfl (by decide)⟩

/-! ### What `Build` writes -/

theorem Build_loop_append (E : List errorMessage) (m : GoMap Nat Nat) (M skip : Nat)
    (a b : List (List String)) (i : Nat) :
    Build.loop E m M skip i (a ++ b)
      = match Build.loop E m M skip i a with
        | none => none
        | some wa => (Build.loop E m M skip (i + a.length) b).map (fun wb => wa ++ wb) := by
  induction a generalizing i with
  | nil =>
    simp only [List.nil_append, Build.loop, List.length_nil, Nat.add_zero]
    cases Build.loop E m M skip i b <;> simp
  | cons r rs ih =>
    have hlen : i + (rs.length + 1) = i + 1 + rs.length := by omega
    simp only [List.cons_append, Build.loop, List.length_cons, hlen]
    cases hrow : Build.row E m M skip i r with
    | none => rfl
    | some w =>
      simp only [List.append_eq]
      rw [ih (i + 1)]
      cases Build.loop E m M skip (i + 1) rs with
      | none => rfl
      | some wa =>
        cases Build.loop E m M skip (i + 1 + rs.length) b <;> simp

theorem Build_loop_header (E : List errorMessage) (m : GoMap Nat Nat) (M skip : Nat)
    (rs : List (List String)) (i : Nat) (h : i + rs.length ≤ skip) :
    Build.loop E m M skip i rs
      = some ((rs.enumFrom i).map (fun jr =>
          (jr.1 + 1, Build.rowData M jr.2 (if jr.1 = 0 then some errorReasonLabel else none)))) := by
  induction rs generalizing i with
  | nil => simp [Build.loop]
  | cons r rs ih =>
    have hi : i < skip := by
      simp at h
      omega
    have hrest : i + 1 + rs.length ≤ skip := by
      simp at h
      omega
    simp [Build.loop, Build.row, hi, ih (i + 1) hrest]

theorem Build_loop_data (E : List errorMessage) (m : GoMap Nat Nat) (M skip : Nat)
    (rows : List (List String))
    (hmono : ∀ (t t' : Nat) (e e' : errorMessage), E[t]? = some e → E[t']? = some e' → t < t' →
      e.rowIndex < e'.rowIndex)
    (hM1 : ∀ (t : Nat) (e : errorMessage), E[t]? = some e → GoMap.get m e.rowIndex = some t)
    (hM2 : ∀ x k, GoMap.get m x = some k → ∃ e, E[k]? = some e ∧ e.rowIndex = x)
    (hlt : ∀ e ∈ E, e.rowIndex < rows.length)
    (d j c : Nat) (hd : rows.length - j = d) (hskip : skip ≤ j) (hj : j ≤ rows.length)
    (hinv : ∀ (t : Nat) (e : errorMessage), E[t]? = some e → (t < c ↔ e.rowIndex < j)) :
    Build.loop E m M skip j (rows.drop j)
      = some (((E.drop c).enumFrom c).map (fun ke =>
          (ke.1 + skip + 1, Build.rowData M (rows[ke.2.rowIndex]?.getD []) ke.2.err))) := by
  induction d generalizing j c with
  | zero =>
    have hdrop : rows.drop j = [] := List.drop_eq_nil_of_le (by omega)
    have hE : E.drop c = [] := by
      apply List.drop_eq_nil_of_le
      by_contra hc
      have hc' : c < E.length := by omega
      have h1 := hinv c E[c] (List.getElem?_eq_getElem hc')
      have h2 := hlt E[c] (List.getElem_mem hc')
      omega
    simp [hdrop, hE, Build.loop]
  | succ d ih =>
    have hjlt : j < rows.length := by omega
    have hnot : ¬ j < skip := by omega
    rw [List.drop_eq_getElem_cons hjlt]
    by_cases hhit : ∃ e, E[c]? = some e ∧ e.rowIndex = j
    · obtain ⟨e, he, hej⟩ := hhit
      have hc : c < E.length := (List.getElem?_eq_some.mp he).1
      have hEc : E[c] = e := (List.getElem?_eq_some.mp he).2
      have hget : GoMap.get m j = some c := hej ▸ hM1 c e he
      have hrow : Build.row E m M skip j rows[j]
          = some (some (c + skip + 1, Build.rowData M rows[j] e.err)) := by
        simp [Build.row, hnot, hget, he]
      have hnext := ih (j + 1) (c + 1) (by omega) (by omega) (by omega) (by
        intro t e' he'
        constructor
        · intro ht
          by_cases htc : t < c
          · have := (hinv t e' he').mp htc
            omega
          · have htc' : t = c := by omega
            subst htc'
            rw [he] at he'
            injection he' with he'
            rw [← he', hej]
            omega
        · intro hlt'
          by_contra ht
          have hct : c < t := by omega
          have := hmono c t e e' he he' hct
          omega)
      rw [List.drop_eq_getElem_cons hc, hEc]
      simp only [Build.loop, hrow, hnext, List.enumFrom_cons, List.map_cons, Option.map_some',
        Option.toList_some, List.singleton_append]
      simp [hej, List.getElem?_eq_getElem hjlt]
    · have hget : GoMap.get m j = none := by
        cases hg : GoMap.get m j with
        | none => rfl
        | some k =>
          exfalso
          obtain ⟨e, he, hej⟩ := hM2 j k hg
          have hk : ¬ k < c := fun hk => by
            have := (hinv k e he).mp hk
            omega
          by_cases hkc : k = c
          · exact hhit ⟨e, hkc ▸ he, hej⟩
          · have hck : c < k := by omega
            have hclt : c < E.length := by
              have := (List.getElem?_eq_some.mp he).1
              omega
            have h1 := hmono c k E[c] e (List.getElem?_eq_getElem hclt) he hck
            have h2 := hinv c E[c] (List.getElem?_eq_getElem hclt)
            omega
      have hrow : Build.row E m M skip j rows[j] = some none := by
        simp [Build.row, hnot, hget]
      have hnext := ih (j + 1) c (by omega) (by omega) (by omega) (by
        intro t e' he'
        constructor
        · intro ht
          have := (hinv t e' he').mp ht
          omega
        · intro hlt'
          by_contra ht
          by_cases hej : e'.rowIndex = j
          · by_cases htc : t = c
            · exact hhit ⟨e', htc ▸ he', hej⟩
            · have hct : c < t := by omega
              have hclt : c < E.length := by
                have := (List.getElem?_eq_some.mp he').1
                omega
              have h1 := hmono c t E[c] e' (List.getElem?_eq_getElem hclt) he' hct
              have h2 := hinv c E[c] (List.getElem?_eq_getElem hclt)
              omega
          · have := (hinv t e' he').mpr (by omega)
            exact ht this)
      simp only [Build.loop, hrow, hnext]
      simp

theorem Build_mapErrorRowIndex_other (es : List errorMessage) (i : Nat) (m0 : GoMap Nat Nat)
    (x : Nat) (h : ∀ e ∈ es, e.rowIndex ≠ x) :
    GoMap.get (Build.mapErrorRowIndex i es m0) x = GoMap.get m0 x := by
  induction es generalizing i m0 with
  | nil => rfl
  | cons e es ih =>
    simp only [Build.mapErrorRowIndex]
    rw [ih (i + 1) _ (fun e' he' => h e' (List.mem_cons_of_mem _ he')), GoMap.get_set,
      if_neg (h e (List.mem_cons_self _ _))]

theorem Build_mapErrorRowIndex_last (es : List errorMessage) (i : Nat) (m0 : GoMap Nat Nat)
    (t : Nat) (e : errorMessage) (h : es[t]? = some e)
    (hlast : ∀ (t' : Nat) (e' : errorMessage), es[t']? = some e' → t < t' →
      e'.rowIndex ≠ e.rowIndex) :
    GoMap.get (Build.mapErrorRowIndex i es m0) e.rowIndex = some (i + t) := by
  induction es generalizing i m0 t with
  | nil => simp at h
  | cons e0 es ih =>
    simp only [Build.mapErrorRowIndex]
    cases t with
    | zero =>
      simp at h
      subst h
      rw [Build_mapErrorRowIndex_other es (i + 1) _ e0.rowIndex, GoMap.get_set]
      · simp
      · intro e' he'
        obtain ⟨t', ht'⟩ := List.mem_iff_getElem?.mp he'
        exact hlast (t' + 1) e' (by simpa using ht') (by omega)
    | succ t =>
      have h' : es[t]? = some e := by simpa using h
      rw [ih (i + 1) _ t h' (fun t' e' he' hlt =>
        hlast (t' + 1) e' (by simpa using he') (by omega))]
      congr 1
      omega

theorem Build_written (lib : Library) (p : errorMessages) (rows : List (List String))
    (M skip : Nat) (hw : lib.NewStreamWriter = none) (hs : lib.NewStyle = none)
    (hne : p.errors ≠ []) (w : List (Nat × List String))
    (hloop : Build.loop (sortSlice lib p.errors) (Build.mapErrorRowIndex 0 (sortSlice lib p.errors) [])
      M skip 0 rows = some w) :
    ∃ b, Build lib p rows M skip = some b ∧ b.written = w := by
  have h0 : ¬ errorMessages.Count p = 0 := by
    intro h
    exact hne (List.length_eq_zero.mp h)
  unfold Build
  simp only [h0, if_false, hw, hs, hloop]
  cases lib.Flush <;> simp

theorem sortSlice_spec (lib : Library) (es : List errorMessage)
    (hlong : 12 < es.length → (lib.sortLong es).Perm es
      ∧ (lib.sortLong es).Pairwise (fun a b => a.rowIndex ≤ b.rowIndex)) :
    (sortSlice lib es).Perm es
      ∧ (sortSlice lib es).Pairwise (fun a b => a.rowIndex ≤ b.rowIndex) := by
  unfold sortSlice
  by_cases h : es.length ≤ 12
  · rw [if_pos h]
    haveI : IsTotal errorMessage (fun a b => a.rowIndex ≤ b.rowIndex) :=
      ⟨fun a b => Nat.le_total a.rowIndex b.rowIndex⟩
    haveI : IsTrans errorMessage (fun a b => a.rowIndex ≤ b.rowIndex) :=
      ⟨fun _ _ _ h1 h2 => Nat.le_trans h1 h2⟩
    exact ⟨List.perm_insertionSort _ es,
      List.sorted_insertionSort (fun a b : errorMessage => a.rowIndex ≤ b.rowIndex) es⟩
  · rw [if_neg h]
    exact hlong (by omega)

theorem sortSlice_strict (lib : Library) (es : List errorMessage)
    (hlong : 12 < es.length → (lib.sortLong es).Perm es
      ∧ (lib.sortLong es).Pairwise (fun a b => a.rowIndex ≤ b.rowIndex))
    (hnodup : (es.map errorMessage.rowIndex).Nodup) :
    (sortSlice lib es).Pairwise (fun a b => a.rowIndex < b.rowIndex) := by
  obtain ⟨hperm, h1⟩ := sortSlice_spec lib es hlong
  have h2 : ((sortSlice lib es).map errorMessage.rowIndex).Nodup :=
    (hperm.map errorMessage.rowIndex).nodup_iff.mpr hnodup
  have h3 : (sortSlice lib es).Pairwise (fun a b => a.rowIndex ≠ b.rowIndex) := by
    simpa [List.Nodup, List.pairwise_map] using h2
  exact (h1.and h3).imp (fun h => Nat.lt_of_le_of_ne h.1 h.2)

/-- C7, as stated, fails: on a ledger without entries, whose positions are
trivially distinct and in range, `Build` hands no row to the writer, not even
the header row; nor does it when the stream writer cannot be opened. -/
theorem Build_distinct_positions_counterexample :
    ((Build Library.ok { errors := [], errFile := none } [["h"], ["a"]] 1 1).map
        Build.Result.written = some [])
      ∧ (Build Library.closed
          { errors := [{ rowIndex := 1, err := some "bad" }], errFile := none }
          [["h"], ["a"]] 1 1).map Build.Result.written = some [] := by
  decide

/-- C7, amended: for every ledger with at least one entry whose entries have
pairwise distinct row positions, all within `[skipRowNum, number of rows)`,
a stream writer that opens and a `sort.Slice` that returns a long slice
sorted, `Build` hands the writer exactly these rows,
in this order: each of the `skipRowNum` header rows `i` under the row number
`i + 1` (artifact position `i`), and, for the entry of the `k`-th smallest
position, the table row at that position under the row number
`k + skipRowNum + 1` (artifact position `k + skipRowNum`). The sorted entry
list is the ascending arrangement of the ledger's entries. -/
theorem Build_distinct_positions (lib : Library) (p : errorMessages)
    (rows : List (List String)) (M skip : Nat)
    (hw : lib.NewStreamWriter = none) (hs : lib.NewStyle = none)
    (hlong : 12 < p.errors.length → (lib.sortLong p.errors).Perm p.errors
      ∧ (lib.sortLong p.errors).Pairwise (fun a b => a.rowIndex ≤ b.rowIndex))
    (hne : p.errors ≠ [])
    (hnodup : (p.errors.map errorMessage.rowIndex).Nodup)
    (hrange : ∀ e ∈ p.errors, skip ≤ e.rowIndex ∧ e.rowIndex < rows.length) :
    ∃ b, Build lib p rows M skip = some b
      ∧ (sortSlice lib p.errors).Perm p.errors
      ∧ (sortSlice lib p.errors).Pairwise (fun a b => a.rowIndex < b.rowIndex)
      ∧ (rows.take skip).length = skip
      ∧ b.written
        = ((rows.take skip).enumFrom 0).map (fun ir =>
            (ir.1 + 1, Build.rowData M ir.2 (if ir.1 = 0 then some errorReasonLabel else none)))
          ++ ((sortSlice lib p.errors).enumFrom 0).map (fun ke =>
            (ke.1 + skip + 1, Build.rowData M (rows[ke.2.rowIndex]?.getD []) ke.2.err)) := by
  have hperm := (sortSlice_spec lib p.errors hlong).1
  have hstrict := sortSlice_strict lib p.errors hlong hnodup
  have hmem : ∀ e ∈ sortSlice lib p.errors, skip ≤ e.rowIndex ∧ e.rowIndex < rows.length :=
    fun e he => hrange e (hperm.mem_iff.mp he)
  have hskip : skip ≤ rows.length := by
    obtain ⟨e, he⟩ := List.exists_mem_of_ne_nil _ hne
    have := hrange e he
    omega
  have htake : (rows.take skip).length = skip := by
    simp [hskip]
  have hmono : ∀ (t t' : Nat) (e e' : errorMessage), (sortSlice lib p.errors)[t]? = some e →
      (sortSlice lib p.errors)[t']? = some e' → t < t' → e.rowIndex < e'.rowIndex := by
    intro t t' e e' he he' hlt
    obtain ⟨h1, h2⟩ := List.getElem?_eq_some.mp he
    obtain ⟨h1', h2'⟩ := List.getElem?_eq_some.mp he'
    rw [← h2, ← h2']
    exact List.pairwise_iff_getElem.mp hstrict t t' h1 h1' hlt
  have hM1 : ∀ (t : Nat) (e : errorMessage), (sortSlice lib p.errors)[t]? = some e →
      GoMap.get (Build.mapErrorRowIndex 0 (sortSlice lib p.errors) []) e.rowIndex = some t := by
    intro t e he
    have := Build_mapErrorRowIndex_last (sortSlice lib p.errors) 0 [] t e he (by
      intro t' e' he' hlt
      have := hmono t t' e e' he he' hlt
      omega)
    simpa using this
  have hM2 : ∀ x k, GoMap.get (Build.mapErrorRowIndex 0 (sortSlice lib p.errors) []) x = some k →
      ∃ e, (sortSlice lib p.errors)[k]? = some e ∧ e.rowIndex = x := by
    intro x k h
    rcases Build_mapErrorRowIndex_get (sortSlice lib p.errors) 0 [] x k h with h1 | ⟨t, e, h1, h2, h3⟩
    · simp [GoMap.get] at h1
    · exact ⟨e, by rw [h2, Nat.zero_add]; exact h1, h3⟩
  have hhead := Build_loop_header (sortSlice lib p.errors)
    (Build.mapErrorRowIndex 0 (sortSlice lib p.errors) []) M skip (rows.take skip) 0 (by omega)
  have hdata := Build_loop_data (sortSlice lib p.errors)
    (Build.mapErrorRowIndex 0 (sortSlice lib p.errors) []) M skip rows hmono hM1 hM2
    (fun e he => (hmem e he).2) (rows.length - skip) skip 0 rfl (Nat.le_refl _) hskip (by
      intro t e he
      have := (hmem e (List.mem_iff_getElem?.mpr ⟨t, he⟩)).1
      omega)
  have hloop := Build_loop_append (sortSlice lib p.errors)
    (Build.mapErrorRowIndex 0 (sortSlice lib p.errors) []) M skip (rows.take skip) (rows.drop skip) 0
  rw [List.take_append_drop, hhead, htake, Nat.zero_add, hdata] at hloop
  simp only [Option.map_some', List.drop_zero] at hloop
  obtain ⟨b, hb, hbw⟩ := Build_written lib p rows M skip hw hs hne _ hloop
  exact ⟨b, hb, hperm, hstrict, htake, hbw⟩

/-- C7, amended, at a table of one header row and three data rows with
entries for rows 3 and 1, appended in that order: the header, row 1 and row 3
are written under the row numbers 1, 2 and 3; row 2 is not written. -/
theorem Build_distinct_positions_witness :
    (Build Library.ok
        { errors := [{ rowIndex := 3, err := some "late" }, { rowIndex := 1, err := none }],
          errFile := none }
        [["h"], ["a"], ["b"], ["c"]] 1 1).map Build.Result.written
      = some [(1, ["h", errorReasonLabel]), (2, ["a", ""]), (3, ["c", "late"])] := by
  obtain ⟨b, hb, _, _, _, hbw⟩ := Build_distinct_positions Library.ok
    { errors := [{ rowIndex := 3, err := some "late" }, { rowIndex := 1, err := none }],
      errFile := none }
    [["h"], ["a"], ["b"], ["c"]] 1 1 rfl rfl (by decide) (by decide) (by decide) (by decide)
  rw [hb, Option.map_some', hbw]
  decide

theorem filter_orderedInsert_rowIndex (r : Nat) (a : errorMessage) (l : List errorMessage) :
    (List.orderedInsert (fun a b : errorMessage => a.rowIndex ≤ b.rowIndex) a l).filter
        (fun x => x.rowIndex = r)
      = (a :: l).filter (fun x => x.rowIndex = r) := by
  induction l with
  | nil => simp
  | cons b l ih =>
    by_cases hab : a.rowIndex ≤ b.rowIndex
    · simp [List.orderedInsert, hab]
    · simp only [List.orderedInsert, hab, if_false]
      rw [List.filter_cons, ih]
      by_cases ha : a.rowIndex = r
      · have hb : ¬ b.rowIndex = r := by omega
        simp [List.filter_cons, ha, hb]
      · simp [List.filter_cons, ha]

/-- The sort of `Build` keeps the entries of one row position in the order
in which they were appended. -/
theorem filter_insertionSort_rowIndex (r : Nat) (es : List errorMessage) :
    (es.insertionSort (fun a b => a.rowIndex ≤ b.rowIndex)).filter (fun x => x.rowIndex = r)
      = es.filter (fun x => x.rowIndex = r) := by
  induction es with
  | nil => rfl
  | cons e es ih =>
    rw [List.insertionSort, filter_orderedInsert_rowIndex, List.filter_cons, List.filter_cons, ih]

theorem filter_sortSlice (lib : Library) (r : Nat) (es : List errorMessage)
    (hsmall : es.length ≤ 12) :
    (sortSlice lib es).filter (fun x => x.rowIndex = r) = es.filter (fun x => x.rowIndex = r) := by
  unfold sortSlice
  rw [if_pos hsmall]
  exact filter_insertionSort_rowIndex r es

theorem getLast?_filter_index (r : Nat) (es : List errorMessage) (e : errorMessage)
    (h : (es.filter (fun x => x.rowIndex = r)).getLast? = some e) :
    ∃ t, es[t]? = some e ∧ e.rowIndex = r
      ∧ ∀ (t' : Nat) (e' : errorMessage), es[t']? = some e' → t < t' → e'.rowIndex ≠ r := by
  induction es with
  | nil => simp at h
  | cons x xs ih =>
    cases hf : xs.filter (fun x => x.rowIndex = r) with
    | nil =>
      have hnone : ∀ e' ∈ xs, e'.rowIndex ≠ r := by
        intro e' he' hr
        have : e' ∈ xs.filter (fun x => x.rowIndex = r) := by
          simp [List.mem_filter, he', hr]
        rw [hf] at this
        simp at this
      by_cases hx : x.rowIndex = r
      · simp [List.filter_cons, hx, hf] at h
        subst h
        refine ⟨0, by simp, hx, ?_⟩
        intro t' e' he' hlt
        cases t' with
        | zero => omega
        | succ t' =>
          exact hnone e' (List.mem_iff_getElem?.mpr ⟨t', by simpa using he'⟩)
      · simp [List.filter_cons, hx, hf] at h
    | cons y ys =>
      have h' : (xs.filter (fun x => x.rowIndex = r)).getLast? = some e := by
        by_cases hx : x.rowIndex = r
        · simpa [List.filter_cons, hx, hf] using h
        · simpa [List.filter_cons, hx, hf] using h
      obtain ⟨t, h1, h2, h3⟩ := ih h'
      refine ⟨t + 1, by simpa using h1, h2, ?_⟩
      intro t' e' he' hlt
      cases t' with
      | zero => omega
      | succ t' => exact h3 t' e' (by simpa using he') (by omega)

theorem Build_loop_filterMap (E : List errorMessage) (m : GoMap Nat Nat) (M skip : Nat)
    (rs : List (List String)) (i : Nat) (w : List (Nat × List String))
    (h : Build.loop E m M skip i rs = some w) :
    w = (rs.enumFrom i).filterMap (fun ir => (Build.row E m M skip ir.1 ir.2).getD none) := by
  induction rs generalizing i w with
  | nil =>
    simp only [Build.loop] at h
    injection h with h
    simp [← h]
  | cons r rs ih =>
    simp only [Build.loop] at h
    cases hrow : Build.row E m M skip i r with
    | none => simp [hrow] at h
    | some o =>
      rw [hrow] at h
      cases hrest : Build.loop E m M skip (i + 1) rs with
      | none => simp [hrest] at h
      | some ws =>
        rw [hrest] at h
        simp only [Option.map_some'] at h
        injection h with h
        rw [← h, List.enumFrom_cons, List.filterMap_cons, ← ih (i + 1) ws hrest]
        cases o <;> simp [hrow]

/-- C8, as stated, fails: of two entries appended for row 2, `first` and then
`second`, the row is written with `second`, the entry appended last. -/
theorem Build_last_writer_counterexample :
    (Build Library.ok
        { errors := [{ rowIndex := 2, err := some "first" }, { rowIndex := 2, err := some "second" }],
          errFile := none }
        [["h"], ["a"], ["b"]] 1 1).map Build.Result.written
      = some [(1, ["h", errorReasonLabel]), (3, ["b", "second"])] := by
  decide

/-- C8, amended: in a ledger of at most 12 entries (for which the sort of
`Build` is the insertion sort) and with a stream writer that opens, `Build`
hands the writer at most one row per table row, and the data row at a
position for which entries were appended is handed over annotated with the
failure of the entry appended last for that position (last writer wins). -/
theorem Build_last_writer (lib : Library) (p : errorMessages) (rows : List (List String))
    (M skip : Nat) (hw : lib.NewStreamWriter = none) (hs : lib.NewStyle = none)
    (hsmall : p.errors.length ≤ 12) (r : Nat) (row : List String) (e : errorMessage)
    (hskip : skip ≤ r) (hrow : rows[r]? = some row)
    (hlast : (p.errors.filter (fun x => x.rowIndex = r)).getLast? = some e) :
    ∃ b k, Build lib p rows M skip = some b
      ∧ b.written = (rows.enumFrom 0).filterMap (fun ir =>
          (Build.row (sortSlice lib p.errors) (Build.mapErrorRowIndex 0 (sortSlice lib p.errors) [])
            M skip ir.1 ir.2).getD none)
      ∧ Build.row (sortSlice lib p.errors) (Build.mapErrorRowIndex 0 (sortSlice lib p.errors) [])
          M skip r row = some (some (k + skip + 1, Build.rowData M row e.err))
      ∧ (k + skip + 1, Build.rowData M row e.err) ∈ b.written := by
  have hne : p.errors ≠ [] := by
    intro h
    rw [h] at hlast
    simp at hlast
  obtain ⟨w, hloop⟩ := Build_loop_isSome (sortSlice lib p.errors)
    (Build.mapErrorRowIndex 0 (sortSlice lib p.errors) []) M skip
    (Build_mapErrorRowIndex_inRange (sortSlice lib p.errors)) rows 0
  obtain ⟨b, hb, hbw⟩ := Build_written lib p rows M skip hw hs hne w hloop
  rw [← filter_sortSlice lib r p.errors hsmall] at hlast
  obtain ⟨k, h1, h2, h3⟩ := getLast?_filter_index r (sortSlice lib p.errors) e hlast
  have hget := Build_mapErrorRowIndex_last (sortSlice lib p.errors) 0 [] k e h1
    (fun t' e' he' hlt => by rw [h2]; exact h3 t' e' he' hlt)
  rw [h2, Nat.zero_add] at hget
  have hnot : ¬ r < skip := by omega
  have hrowAt : Build.row (sortSlice lib p.errors)
      (Build.mapErrorRowIndex 0 (sortSlice lib p.errors) []) M skip r row
        = some (some (k + skip + 1, Build.rowData M row e.err)) := by
    simp [Build.row, hnot, hget, h1]
  have hfm := Build_loop_filterMap _ _ M skip rows 0 w hloop
  refine ⟨b, k, hb, hbw.trans hfm, hrowAt, ?_⟩
  rw [hbw, hfm, List.mem_filterMap]
  refine ⟨(r, row), ?_, by simp [hrowAt]⟩
  apply List.mem_iff_getElem?.mpr
  exact ⟨r, by rw [List.getElem?_enumFrom, hrow]; simp⟩

/-- C8, amended, at the ledger of the counterexample: row 2 is written once,
under the row number 3, with the failure `second`. -/
theorem Build_last_writer_witness :
    ∃ b k, Build Library.ok
        { errors := [{ rowIndex := 2, err := some "first" }, { rowIndex := 2, err := some "second" }],
          errFile := none }
        [["h"], ["a"], ["b"]] 1 1 = some b
      ∧ b.written = ([["h"], ["a"], ["b"]].enumFrom 0).filterMap (fun ir =>
          (Build.row
            (sortSlice Library.ok [{ rowIndex := 2, err := some "first" }, { rowIndex := 2, err := some "second" }])
            (Build.mapErrorRowIndex 0
              (sortSlice Library.ok [{ rowIndex := 2, err := some "first" }, { rowIndex := 2, err := some "second" }]) [])
            1 1 ir.1 ir.2).getD none)
      ∧ Build.row
          (sortSlice Library.ok [{ rowIndex := 2, err := some "first" }, { rowIndex := 2, err := some "second" }])
          (Build.mapErrorRowIndex 0
            (sortSlice Library.ok [{ rowIndex := 2, err := some "first" }, { rowIndex := 2, err := some "second" }]) [])
          1 1 2 ["b"] = some (some (k + 1 + 1, Build.rowData 1 ["b"] (some "second")))
      ∧ (k + 1 + 1, Build.rowData 1 ["b"] (some "second")) ∈ b.written :=
  Build_last_writer Library.ok
    { errors := [{ rowIndex := 2, err := some "first" }, { rowIndex := 2, err := some "second" }],
      errFile := none }
    [["h"], ["a"], ["b"]] 1 1 rfl rfl (by decide) 2 ["b"] { rowIndex := 2, err := some "second" }
    (by decide) (by decide) (by decide)

theorem copy_length (n : Nat) (r : List String) :
    (copy (List.replicate n "") r).length = n := by
  simp [copy]
  omega

theorem copy_getElem? (n : Nat) (r : List String) (c : Nat) (hc : c < n) :
    (copy (List.replicate n "") r)[c]? = some (r[c]?.getD "") := by
  unfold copy
  by_cases hr : c < r.length
  · rw [List.getElem?_append_left (by simp; omega), List.length_replicate,
      List.getElem?_take_of_lt hc, List.getElem?_eq_getElem hr]
    simp
  · have hlen : r.length ≤ n := by omega
    rw [List.length_replicate, List.take_of_length_le hlen,
      List.getElem?_append_right (by omega), List.getElem?_drop,
      List.getElem?_replicate_of_lt (by omega), List.getElem?_eq_none (by omega)]
    simp

theorem Build_rowData_length (M : Nat) (r : List String) (last : Option String) :
    (Build.rowData M r last).length = M + 1 := by
  cases last <;> simp [Build.rowData, copy_length]

theorem Build_rowData_getElem? (M : Nat) (r : List String) (last : Option String) (c : Nat)
    (hc : c < M) : (Build.rowData M r last)[c]? = some (r[c]?.getD "") := by
  have hne : M ≠ c := by omega
  cases last with
  | none => simp [Build.rowData, copy_getElem? (M + 1) r c (by omega)]
  | some text =>
    simp only [Build.rowData]
    rw [List.getElem?_set_ne hne]
    exact copy_getElem? (M + 1) r c (by omega)

theorem Build_rowData_last (M : Nat) (r : List String) (last : Option String) :
    (Build.rowData M r last)[M]? = some (last.getD (r[M]?.getD "")) := by
  cases last with
  | none => simp [Build.rowData, copy_getElem? (M + 1) r M (by omega)]
  | some text =>
    simp only [Build.rowData]
    rw [List.getElem?_set_self (by rw [copy_length]; omega)]
    simp

theorem Build_loop_width (E : List errorMessage) (m : GoMap Nat Nat) (M skip : Nat)
    (rs : List (List String)) (i : Nat) (w : List (Nat × List String))
    (h : Build.loop E m M skip i rs = some w) : ∀ x ∈ w, x.2.length = M + 1 := by
  rw [Build_loop_filterMap E m M skip rs i w h]
  intro x hx
  rcases List.mem_filterMap.mp hx with ⟨ir, _, hir⟩
  unfold Build.row at hir
  split at hir
  · simp at hir
    rw [← hir]
    exact Build_rowData_length _ _ _
  · split at hir
    · simp at hir
    · split at hir
      · simp at hir
      · simp at hir
        rw [← hir]
        exact Build_rowData_length _ _ _

/-- C9, as stated, fails: a header row of three cells written with
`maxColumnNum = 1` keeps its first cell only, the label taking the place of
the second cell and the third being dropped; and on a ledger without entries,
or with a stream writer that cannot be opened, no header row is written. -/
theorem Build_header_rows_counterexample :
    ((Build Library.ok { errors := [{ rowIndex := 1, err := some "bad" }], errFile := none }
        [["a", "b", "c"], ["x"]] 1 1).map Build.Result.written
        = some [(1, ["a", errorReasonLabel]), (2, ["x", "bad"])])
      ∧ ((Build Library.ok { errors := [], errFile := none } [["a", "b", "c"], ["x"]] 1 1).map
          Build.Result.written = some [])
      ∧ (Build Library.closed { errors := [{ rowIndex := 1, err := some "bad" }], errFile := none }
          [["a", "b", "c"], ["x"]] 1 1).map Build.Result.written = some [] := by
  decide

theorem Build_written_cases (lib : Library) (p : errorMessages) (rows : List (List String))
    (M skip : Nat) (b : Build.Result) (h : Build lib p rows M skip = some b) :
    b.written = [] ∨ Build.loop (sortSlice lib p.errors)
      (Build.mapErrorRowIndex 0 (sortSlice lib p.errors) []) M skip 0 rows = some b.written := by
  unfold Build at h
  split at h
  · injection h with h
    exact Or.inl (by rw [← h])
  · simp only at h
    split at h
    · injection h with h
      exact Or.inl (by rw [← h])
    · split at h
      · injection h with h
        exact Or.inl (by rw [← h])
      · split at h
        · exact absurd h (by simp)
        · rename_i w hw
          split at h
          · injection h with h
            exact Or.inr (by rw [← h]; exact hw)
          · injection h with h
            exact Or.inr (by rw [← h]; exact hw)

/-- C9, amended: for every table, `maxColumnNum` and `skipRowNum`, `Build`
returns and every row it hands to the writer has exactly `maxColumnNum + 1`
cells; and when the ledger has an entry and the stream writer opens, every
header row `i` (index below `skipRowNum`) is the `i`-th row written, under
the row number `i + 1`: its cells at the columns below `maxColumnNum` are the
original cells (empty where the header row is shorter), and its last cell, at
column `maxColumnNum`, is the error-reason label on header row 0 and the
original cell of that column (empty if there is none) on the other header
rows; the original cells beyond column `maxColumnNum` are not written. -/
theorem Build_header_rows (lib : Library) (p : errorMessages) (rows : List (List String))
    (M skip : Nat) :
    ∃ b, Build lib p rows M skip = some b
      ∧ (∀ x ∈ b.written, x.2.length = M + 1)
      ∧ (lib.NewStreamWriter = none → lib.NewStyle = none → p.errors ≠ [] →
          ∀ (i : Nat) (row : List String), i < skip → rows[i]? = some row →
            ∃ cells, b.written[i]? = some (i + 1, cells)
              ∧ cells.length = M + 1
              ∧ (∀ c, c < M → cells[c]? = some (row[c]?.getD ""))
              ∧ cells[M]? = some (if i = 0 then errorReasonLabel else row[M]?.getD "")) := by
  obtain ⟨b, hb⟩ := Build_isSome lib p rows M skip
  refine ⟨b, hb, ?_, ?_⟩
  · rcases Build_written_cases lib p rows M skip b hb with h | h
    · rw [h]
      simp
    · exact Build_loop_width _ _ M skip rows 0 _ h
  · intro hw hs hne i row hi hrow
    obtain ⟨wd, hwd⟩ := Build_loop_isSome (sortSlice lib p.errors)
      (Build.mapErrorRowIndex 0 (sortSlice lib p.errors) []) M skip
      (Build_mapErrorRowIndex_inRange (sortSlice lib p.errors)) (rows.drop skip)
      (0 + (rows.take skip).length)
    have hhead := Build_loop_header (sortSlice lib p.errors)
      (Build.mapErrorRowIndex 0 (sortSlice lib p.errors) []) M skip (rows.take skip) 0
      (by simp)
    have hloop := Build_loop_append (sortSlice lib p.errors)
      (Build.mapErrorRowIndex 0 (sortSlice lib p.errors) []) M skip (rows.take skip)
      (rows.drop skip) 0
    rw [List.take_append_drop, hhead, hwd] at hloop
    simp only [Option.map_some'] at hloop
    obtain ⟨b', hb', hbw⟩ := Build_written lib p rows M skip hw hs hne _ hloop
    rw [hb] at hb'
    injection hb' with hb'
    subst hb'
    have hilt : i < rows.length := (List.getElem?_eq_some.mp hrow).1
    refine ⟨Build.rowData M row (if i = 0 then some errorReasonLabel else none), ?_,
      Build_rowData_length _ _ _, fun c hc => Build_rowData_getElem? M row _ c hc, ?_⟩
    · rw [hbw, List.getElem?_append_left (by simp; omega), List.getElem?_map,
        List.getElem?_enumFrom, List.getElem?_take_of_lt hi, hrow]
      simp
    · rw [Build_rowData_last]
      by_cases h0 : i = 0 <;> simp [h0]

/-- C9, amended, at the table of the counterexample with `maxColumnNum = 3`:
the header row is written first, under the row number 1, as its three cells
and the label. -/
theorem Build_header_rows_witness :
    ∃ b, Build Library.ok { errors := [{ rowIndex := 1, err := some "bad" }], errFile := none }
        [["a", "b", "c"], ["x"]] 3 1 = some b
      ∧ b.written[0]? = some (1, ["a", "b", "c", errorReasonLabel]) := by
  obtain ⟨b, hb, _, hhead⟩ := Build_header_rows Library.ok
    { errors := [{ rowIndex := 1, err := some "bad" }], errFile := none }
    [["a", "b", "c"], ["x"]] 3 1
  obtain ⟨cells, h1, h2, h3, h4⟩ := hhead rfl rfl (by decide) 0 ["a", "b", "c"] (by decide) rfl
  refine ⟨b, hb, ?_⟩
  rw [h1]
  have e0 := h3 0 (by decide)
  have e1 := h3 1 (by decide)
  have e2 := h3 2 (by decide)
  simp at e0 e1 e2 h4
  have hcells : cells = ["a", "b", "c", errorReasonLabel] := by
    apply List.ext_getElem?
    intro n
    match n with
    | 0 => simpa using e0
    | 1 => simpa using e1
    | 2 => simpa using e2
    | 3 => simpa using h4
    | n + 4 =>
      rw [List.getElem?_eq_none (by omega)]
      simp
  rw [hcells]

/-! ### The allowed end value -/

theorem NewHeaderRuleValidate_fields (fixedColumnCount : Int) (allowedStartValue : List String)
    (ruleGroups : List HeaderRuleGroup) (p : HeaderRuleValidate)
    (h : NewHeaderRuleValidate fixedColumnCount allowedStartValue ruleGroups = some p) :
    ∃ g r, index ruleGroups ((ruleGroups.length : Int) - 1) = some g
      ∧ index g.Values ((g.Values.length : Int) - 1) = some r
      ∧ p = { FixedColumnCount := fixedColumnCount, AllowedStartValue := allowedStartValue,
              AllowedEndValue := [r.Value], RuleGroups := ruleGroups } := by
  unfold NewHeaderRuleValidate at h
  simp only at h
  cases hg : index ruleGroups ((ruleGroups.length : Int) - 1) with
  | none => rw [hg] at h; simp at h
  | some g =>
    rw [hg] at h
    simp only at h
    cases hr : index g.Values ((g.Values.length : Int) - 1) with
    | none => rw [hr] at h; simp at h
    | some r =>
      rw [hr] at h
      simp only [Option.some.injEq] at h
      exact ⟨g, r, rfl, hr, h.symm⟩

/-- C11: a configuration written with `AllowedEndValue` left empty rejects
the header of scenario B although the fixed columns and the rule walk pass and
the last cell is the value of the last rule of the last group; no header
longer than the template is accepted by such a configuration. The
configuration `NewHeaderRuleValidate` builds from the same arguments holds
exactly that value as its end value and accepts the header. -/
theorem Validate_unset_end_value :
    (scenarioBUnset.AllowedEndValue = []
        ∧ validateFixed scenarioBUnset ["id", "name"] ["id", "name", "extra1"] = some true
        ∧ validateRule scenarioBUnset ["id", "name", "extra1"] = some true
        ∧ Validate scenarioBUnset ["id", "name"] ["id", "name", "extra1"] = some false)
      ∧ (∀ (p : HeaderRuleValidate) (tpl up : List String), p.AllowedEndValue = [] →
          tpl.length < (Validate.compact up).length → Validate p tpl up ≠ some true)
      ∧ (NewHeaderRuleValidate 2 [] scenarioBUnset.RuleGroups = some scenarioB
        ∧ scenarioB.AllowedEndValue = ["extra1"]
        ∧ Validate scenarioB ["id", "name"] ["id", "name", "extra1"] = some true)
      ∧ ∀ (fixedColumnCount : Int) (allowedStartValue : List String)
          (ruleGroups : List HeaderRuleGroup) (p : HeaderRuleValidate),
          NewHeaderRuleValidate fixedColumnCount allowedStartValue ruleGroups = some p →
          ∃ g r, ruleGroups.getLast? = some g ∧ g.Values.getLast? = some r
            ∧ p.AllowedEndValue = [r.Value] := by
  refine ⟨by decide, ?_, by decide, ?_⟩
  · intro p tpl up hend hlt h
    unfold Validate at h
    simp only at h
    split at h
    · simp at h
    · split at h
      · rename_i heq
        have : ((Validate.compact up).length : Int) ≠ (tpl.length : Int) := by omega
        exact this heq
      · unfold validate andThen at h
        cases hf : validateFixed p tpl (Validate.compact up) with
        | none => rw [hf] at h; simp at h
        | some b =>
          rw [hf] at h
          cases b with
          | false => simp at h
          | true =>
            simp only at h
            unfold validateAllowedEndValue at h
            rw [hend] at h
            cases hi : index (Validate.compact up) (((Validate.compact up).length : Int) - 1) with
            | none => rw [hi] at h; simp [andThen] at h
            | some c => rw [hi] at h; simp [andThen, existAt] at h
  · intro f a gs p h
    obtain ⟨g, r, hg, hr, hp⟩ := NewHeaderRuleValidate_fields f a gs p h
    refine ⟨g, r, ?_, ?_, by rw [hp]⟩
    · unfold index at hg
      split at hg
      · simp at hg
      · rw [List.getLast?_eq_getElem?]
        have : ((gs.length : Int) - 1).toNat = gs.length - 1 := by omega
        rw [← this]; exact hg
    · unfold index at hr
      split at hr
      · simp at hr
      · rw [List.getLast?_eq_getElem?]
        have : ((g.Values.length : Int) - 1).toNat = g.Values.length - 1 := by omega
        rw [← this]; exact hr

/-! ### The edges of the rule graph -/

theorem nodes_link_getD (s : nodes.State) (v w a : String) :
    GoMap.getD (nodes.link s v w).mapNextNodes a []
      = if v = a then GoMap.getD s.mapNextNodes v [] ++ [w] else GoMap.getD s.mapNextNodes a [] := by
  simp only [nodes.link, GoMap.getD, GoMap.get_set]
  split <;> rfl

theorem nodes_link_Linked (s : nodes.State) (v w a b : String) :
    nodes.Linked (nodes.link s v w) a b ↔ nodes.Linked s a b ∨ (a = v ∧ b = w) := by
  unfold nodes.Linked
  rw [nodes_link_getD]
  by_cases h : v = a
  · subst h
    simp
  · have h' : ¬ a = v := fun e => h e.symm
    simp [h, h']

theorem nodes_Linked_of_fields (s t : nodes.State) (a b : String)
    (h : t.mapNextNodes = s.mapNextNodes) : nodes.Linked t a b ↔ nodes.Linked s a b := by
  unfold nodes.Linked
  rw [h]

theorem nodes_step_links (p : HeaderRuleValidate) (i : Nat) (g : HeaderRuleGroup) (j : Nat)
    (r : HeaderRule) (s s1 : nodes.State) (h : nodes.step p i g j r s = some s1) :
    (∀ a b, nodes.Linked s a b → nodes.Linked s1 a b)
      ∧ (r.IsRepetition = true → nodes.Linked s1 r.Value r.Value)
      ∧ (j + 1 = g.Values.length → g.IsRepetition = true →
          ∃ f, g.Values[0]? = some f ∧ nodes.Linked s1 r.Value f.Value)
      ∧ (j + 1 = g.Values.length → 1 < p.RuleGroups.length →
          ∃ nxt f, p.RuleGroups[(i + 1) % p.RuleGroups.length]? = some nxt
            ∧ nxt.Values[0]? = some f ∧ nodes.Linked s1 r.Value f.Value) := by
  unfold nodes.step at h
  simp only at h
  have h2 : ∀ a b, (nodes.Linked s a b → nodes.Linked
        (if r.IsRepetition = true then
          nodes.link { s with mapNodeIndex := GoMap.set s.mapNodeIndex r.Value s.res.length,
                              res := s.res ++ [{ value := r.Value, nextIndex := [] }] }
            r.Value r.Value
        else { s with mapNodeIndex := GoMap.set s.mapNodeIndex r.Value s.res.length,
                      res := s.res ++ [{ value := r.Value, nextIndex := [] }] }) a b) := by
    intro a b hab
    split
    · rw [nodes_link_Linked]
      exact Or.inl hab
    · exact hab
  have h2r : r.IsRepetition = true → nodes.Linked
        (if r.IsRepetition = true then
          nodes.link { s with mapNodeIndex := GoMap.set s.mapNodeIndex r.Value s.res.length,
                              res := s.res ++ [{ value := r.Value, nextIndex := [] }] }
            r.Value r.Value
        else { s with mapNodeIndex := GoMap.set s.mapNodeIndex r.Value s.res.length,
                      res := s.res ++ [{ value := r.Value, nextIndex := [] }] }) r.Value r.Value := by
    intro hr
    rw [if_pos hr, nodes_link_Linked]
    exact Or.inr ⟨rfl, rfl⟩
  generalize (if r.IsRepetition = true then
          nodes.link { s with mapNodeIndex := GoMap.set s.mapNodeIndex r.Value s.res.length,
                              res := s.res ++ [{ value := r.Value, nextIndex := [] }] }
            r.Value r.Value
        else { s with mapNodeIndex := GoMap.set s.mapNodeIndex r.Value s.res.length,
                      res := s.res ++ [{ value := r.Value, nextIndex := [] }] }) = s2 at h h2 h2r
  by_cases hj : j + 1 = g.Values.length
  · rw [if_pos hj] at h
    have h3 : ∃ s3, (if g.IsRepetition = true then
          (g.Values[0]?).map (fun f => nodes.link s2 r.Value f.Value) else some s2) = some s3
        ∧ (if p.RuleGroups.length > 1 then
            match p.RuleGroups[(i + 1) % p.RuleGroups.length]? with
            | none => none
            | some nxt => (nxt.Values[0]?).map (fun f => nodes.link s3 r.Value f.Value)
          else some s3) = some s1 := by
      split at h
      · simp at h
      · rename_i s3 hs3
        exact ⟨s3, hs3, h⟩
    obtain ⟨s3, hs3, h⟩ := h3
    have h3l : (∀ a b, nodes.Linked s2 a b → nodes.Linked s3 a b)
        ∧ (g.IsRepetition = true → ∃ f, g.Values[0]? = some f ∧ nodes.Linked s3 r.Value f.Value) := by
      split at hs3
      · rename_i hg
        rcases Option.map_eq_some'.mp hs3 with ⟨f, hf, hfe⟩
        rw [← hfe]
        refine ⟨fun a b hab => (nodes_link_Linked _ _ _ _ _).mpr (Or.inl hab), fun _ => ⟨f, hf, ?_⟩⟩
        exact (nodes_link_Linked _ _ _ _ _).mpr (Or.inr ⟨rfl, rfl⟩)
      · rename_i hg
        injection hs3 with hs3
        rw [← hs3]
        exact ⟨fun a b hab => hab, fun hg' => absurd hg' hg⟩
    obtain ⟨h3m, h3g⟩ := h3l
    split at h
    · rename_i hn
      split at h
      · simp at h
      · rename_i nxt hnxt
        rcases Option.map_eq_some'.mp h with ⟨f, hf, hfe⟩
        rw [← hfe]
        have hm : ∀ a b, nodes.Linked s3 a b → nodes.Linked (nodes.link s3 r.Value f.Value) a b :=
          fun a b hab => (nodes_link_Linked _ _ _ _ _).mpr (Or.inl hab)
        refine ⟨fun a b hab => hm a b (h3m a b (h2 a b hab)),
          fun hr => hm _ _ (h3m _ _ (h2r hr)), ?_, ?_⟩
        · intro _ hg
          obtain ⟨f0, hf0, hl⟩ := h3g hg
          exact ⟨f0, hf0, hm _ _ hl⟩
        · intro _ _
          exact ⟨nxt, f, hnxt, hf, (nodes_link_Linked _ _ _ _ _).mpr (Or.inr ⟨rfl, rfl⟩)⟩
    · rename_i hn
      injection h with h
      rw [← h]
      exact ⟨fun a b hab => h3m a b (h2 a b hab), fun hr => h3m _ _ (h2r hr),
        fun _ hg => h3g hg, fun _ hn' => absurd hn' hn⟩
  · rw [if_neg hj] at h
    rcases Option.map_eq_some'.mp h with ⟨f, hf, hfe⟩
    rw [← hfe]
    have hm : ∀ a b, nodes.Linked s2 a b → nodes.Linked (nodes.link s2 r.Value f.Value) a b :=
      fun a b hab => (nodes_link_Linked _ _ _ _ _).mpr (Or.inl hab)
    exact ⟨fun a b hab => hm a b (h2 a b hab), fun hr => hm _ _ (h2r hr),
      fun hj' => absurd hj' hj, fun hj' => absurd hj' hj⟩

theorem nodes_Grows_refl (s : nodes.State) : nodes.Grows s s :=
  ⟨fun _ _ h => h, fun _ h => h⟩

theorem nodes_Grows_trans (s s1 s2 : nodes.State) (h1 : nodes.Grows s s1)
    (h2 : nodes.Grows s1 s2) : nodes.Grows s s2 :=
  ⟨fun v w h => h2.1 v w (h1.1 v w h), fun w h => h2.2 w (h1.2 w h)⟩

theorem nodes_Done_mono (p : HeaderRuleValidate) (i : Nat) (g : HeaderRuleGroup) (j : Nat)
    (r : HeaderRule) (s s1 : nodes.State) (hd : nodes.Done p i g j r s)
    (hg : nodes.Grows s s1) : nodes.Done p i g j r s1 := by
  obtain ⟨d1, d2, d3, d4⟩ := hd
  refine ⟨hg.2 _ d1, fun hr => hg.1 _ _ (d2 hr), ?_, ?_⟩
  · intro hj hrep
    obtain ⟨f, hf, hl⟩ := d3 hj hrep
    exact ⟨f, hf, hg.1 _ _ hl⟩
  · intro hj hn
    obtain ⟨nxt, f, hnxt, hf, hl⟩ := d4 hj hn
    exact ⟨nxt, f, hnxt, hf, hg.1 _ _ hl⟩

theorem nodes_step_Done (p : HeaderRuleValidate) (i : Nat) (g : HeaderRuleGroup) (j : Nat)
    (r : HeaderRule) (s s1 : nodes.State) (h : nodes.step p i g j r s = some s1) :
    nodes.Done p i g j r s1 ∧ nodes.Grows s s1 ∧ (nodes.Indexed s → nodes.Indexed s1)
      ∧ s1.res.map (fun nd => nd.value) = s.res.map (fun nd => nd.value) ++ [r.Value] := by
  obtain ⟨hm, hr⟩ := nodes_step_fields p i g j r s s1 h
  obtain ⟨l1, l2, l3, l4⟩ := nodes_step_links p i g j r s s1 h
  refine ⟨⟨?_, l2, l3, l4⟩, ⟨l1, ?_⟩, ?_, ?_⟩
  · rw [hm, GoMap.get_set]
    simp
  · intro w hw
    rw [hm, GoMap.get_set]
    split
    · rfl
    · exact hw
  · intro hidx w k hk
    rw [hm, GoMap.get_set] at hk
    rw [hr]
    split at hk
    · rename_i hw
      injection hk with hk
      refine ⟨{ value := r.Value, nextIndex := [] }, ?_, hw⟩
      rw [← hk]
      simp
    · obtain ⟨nd, hnd, hv⟩ := hidx w k hk
      refine ⟨nd, ?_, hv⟩
      rw [List.getElem?_append_left (List.getElem?_eq_some.mp hnd).1]
      exact hnd
  · rw [hr]
    simp

theorem nodes_values_Done (p : HeaderRuleValidate) (i : Nat) (g : HeaderRuleGroup)
    (rs : List HeaderRule) (j : Nat) (s s1 : nodes.State)
    (h : nodes.values p i g j rs s = some s1) :
    (∀ k r, rs[k]? = some r → nodes.Done p i g (j + k) r s1) ∧ nodes.Grows s s1
      ∧ (nodes.Indexed s → nodes.Indexed s1)
      ∧ s1.res.map (fun nd => nd.value)
          = s.res.map (fun nd => nd.value) ++ rs.map (fun r => r.Value) := by
  induction rs generalizing j s with
  | nil =>
    simp only [nodes.values] at h
    injection h with h
    rw [← h]
    exact ⟨by simp, nodes_Grows_refl s, fun hi => hi, by simp⟩
  | cons r rs ih =>
    simp only [nodes.values] at h
    split at h
    · exact absurd h (by simp)
    · rename_i s2 hs2
      obtain ⟨hd, hg, hi, hv⟩ := nodes_step_Done p i g j r s s2 hs2
      obtain ⟨ihd, ihg, ihi, ihv⟩ := ih (j + 1) s2 h
      refine ⟨?_, nodes_Grows_trans _ _ _ hg ihg, fun hx => ihi (hi hx), ?_⟩
      · intro k r' hk
        cases k with
        | zero =>
          simp only [List.getElem?_cons_zero, Option.some.injEq] at hk
          rw [← hk]
          exact nodes_Done_mono p i g j r s2 s1 hd ihg
        | succ k =>
          simp only [List.getElem?_cons_succ] at hk
          have := ihd k r' hk
          rw [show j + (k + 1) = j + 1 + k by omega]
          exact this
      · rw [ihv, hv]
        simp

theorem nodes_groups_Done (p : HeaderRuleValidate) (gs : List HeaderRuleGroup) (i : Nat)
    (s s1 : nodes.State) (h : nodes.groups p i gs s = some s1) :
    (∀ a g, gs[a]? = some g → ∀ k r, g.Values[k]? = some r → nodes.Done p (i + a) g k r s1)
      ∧ nodes.Grows s s1 ∧ (nodes.Indexed s → nodes.Indexed s1)
      ∧ s1.res.map (fun nd => nd.value)
          = s.res.map (fun nd => nd.value)
            ++ (gs.map (fun g => g.Values.map (fun r => r.Value))).flatten := by
  induction gs generalizing i s with
  | nil =>
    simp only [nodes.groups] at h
    injection h with h
    rw [← h]
    exact ⟨by simp, nodes_Grows_refl s, fun hi => hi, by simp⟩
  | cons g gs ih =>
    simp only [nodes.groups] at h
    split at h
    · exact absurd h (by simp)
    · rename_i s2 hs2
      obtain ⟨hd, hg, hi, hv⟩ := nodes_values_Done p i g g.Values 0 s s2 hs2
      obtain ⟨ihd, ihg, ihi, ihv⟩ := ih (i + 1) s2 h
      refine ⟨?_, nodes_Grows_trans _ _ _ hg ihg, fun hx => ihi (hi hx), ?_⟩
      · intro a g' ha k r hk
        cases a with
        | zero =>
          simp only [List.getElem?_cons_zero, Option.some.injEq] at ha
          rw [← ha] at hk ⊢
          have := hd k r hk
          rw [Nat.zero_add] at this
          exact nodes_Done_mono p i g k r s2 s1 this ihg
        | succ a =>
          simp only [List.getElem?_cons_succ] at ha
          have := ihd a g' ha k r hk
          rw [show i + (a + 1) = i + 1 + a by omega]
          exact this
      · rw [ihv, hv]
        simp

theorem nodes_step_isSome (p : HeaderRuleValidate) (hne : ∀ g ∈ p.RuleGroups, g.Values ≠ [])
    (i : Nat) (g : HeaderRuleGroup) (j : Nat) (r : HeaderRule) (s : nodes.State)
    (hj : j < g.Values.length) : ∃ s1, nodes.step p i g j r s = some s1 := by
  have h0 : ∀ (g' : HeaderRuleGroup), 0 < g'.Values.length → ∃ f, g'.Values[0]? = some f :=
    fun g' h => ⟨g'.Values[0], List.getElem?_eq_getElem h⟩
  unfold nodes.step
  simp only
  by_cases hj1 : j + 1 = g.Values.length
  · rw [if_pos hj1]
    obtain ⟨f, hf⟩ := h0 g (by omega)
    have h3 : ∃ s3, (if g.IsRepetition = true then
          (g.Values[0]?).map (fun f => nodes.link
            (if r.IsRepetition = true then
              nodes.link { s with mapNodeIndex := GoMap.set s.mapNodeIndex r.Value s.res.length,
                                  res := s.res ++ [{ value := r.Value, nextIndex := [] }] }
                r.Value r.Value
            else { s with mapNodeIndex := GoMap.set s.mapNodeIndex r.Value s.res.length,
                          res := s.res ++ [{ value := r.Value, nextIndex := [] }] })
            r.Value f.Value)
        else some
            (if r.IsRepetition = true then
              nodes.link { s with mapNodeIndex := GoMap.set s.mapNodeIndex r.Value s.res.length,
                                  res := s.res ++ [{ value := r.Value, nextIndex := [] }] }
                r.Value r.Value
            else { s with mapNodeIndex := GoMap.set s.mapNodeIndex r.Value s.res.length,
                          res := s.res ++ [{ value := r.Value, nextIndex := [] }] })) = some s3 := by
      split
      · rw [hf]
        exact ⟨_, rfl⟩
      · exact ⟨_, rfl⟩
    obtain ⟨s3, hs3⟩ := h3
    rw [hs3]
    simp only
    by_cases hn : p.RuleGroups.length > 1
    · rw [if_pos hn]
      have hlt : (i + 1) % p.RuleGroups.length < p.RuleGroups.length :=
        Nat.mod_lt _ (by omega)
      rw [List.getElem?_eq_getElem hlt]
      simp only
      obtain ⟨f1, hf1⟩ := h0 p.RuleGroups[(i + 1) % p.RuleGroups.length]
        (List.length_pos.mpr (hne _ (List.getElem_mem _)))
      rw [hf1]
      exact ⟨_, rfl⟩
    · rw [if_neg hn]
      exact ⟨_, rfl⟩
  · rw [if_neg hj1]
    have hlt : j + 1 < g.Values.length := by omega
    rw [List.getElem?_eq_getElem hlt]
    exact ⟨_, rfl⟩

theorem nodes_values_isSome (p : HeaderRuleValidate) (hne : ∀ g ∈ p.RuleGroups, g.Values ≠ [])
    (i : Nat) (g : HeaderRuleGroup) (rs : List HeaderRule) (j : Nat) (s : nodes.State)
    (hlen : j + rs.length = g.Values.length) : ∃ s1, nodes.values p i g j rs s = some s1 := by
  induction rs generalizing j s with
  | nil => exact ⟨s, rfl⟩
  | cons r rs ih =>
    simp only [List.length_cons] at hlen
    obtain ⟨s2, hs2⟩ := nodes_step_isSome p hne i g j r s (by omega)
    obtain ⟨s1, hs1⟩ := ih (j + 1) s2 (by omega)
    refine ⟨s1, ?_⟩
    simp only [nodes.values, hs2]
    exact hs1

theorem nodes_groups_isSome (p : HeaderRuleValidate) (hne : ∀ g ∈ p.RuleGroups, g.Values ≠ [])
    (gs : List HeaderRuleGroup) (i : Nat) (s : nodes.State) :
    ∃ s1, nodes.groups p i gs s = some s1 := by
  induction gs generalizing i s with
  | nil => exact ⟨s, rfl⟩
  | cons g gs ih =>
    obtain ⟨s2, hs2⟩ := nodes_values_isSome p hne i g g.Values 0 s (by simp)
    obtain ⟨s1, hs1⟩ := ih (i + 1) s2
    refine ⟨s1, ?_⟩
    simp only [nodes.groups, hs2]
    exact hs1

/-- In the final state of the first pass of `nodes()`, a next value `w` of
`v` that is bound in `mapNodeIndex` gives every node holding `v` a next index
at which a node holding `w` stands. -/
theorem nodes_resolve_edge (s : nodes.State) (hidx : nodes.Indexed s) (v w : String)
    (hl : nodes.Linked s v w) (hw : (GoMap.get s.mapNodeIndex w).isSome = true)
    (nd : headerRuleNode)
    (hnd : nd ∈ s.res.map (fun nd => (⟨nd.value, nodes.resolve s nd.value⟩ : headerRuleNode)))
    (hv : nd.value = v) :
    ∃ k nk, k ∈ nd.nextIndex
      ∧ (s.res.map (fun nd => (⟨nd.value, nodes.resolve s nd.value⟩ : headerRuleNode)))[k]? = some nk
      ∧ nk.value = w := by
  obtain ⟨k, hk⟩ := Option.isSome_iff_exists.mp hw
  obtain ⟨x, hx, hxv⟩ := hidx w k hk
  obtain ⟨y, _, hy⟩ := List.mem_map.mp hnd
  refine ⟨k, { value := x.value, nextIndex := nodes.resolve s x.value }, ?_, ?_, hxv⟩
  · rw [← hy] at hv ⊢
    simp only at hv
    simp only [nodes.resolve, hv, List.mem_map]
    exact ⟨w, hl, by simp [GoMap.getD, hk]⟩
  · rw [List.getElem?_map, hx]
    rfl

/-- C12, as stated, fails: with one rule group `a, b`, neither marked
repeating, the node of the last value `b` has no outgoing edge at all; and
with the groups `x` (marked repeating) and `y, x` the node of the first `x`
has no edge to itself and the node of the last `x` has no edge to node 0, the
node of the first value of the first group: the edges for `x` all lead to
node 2, the last node that holds `x`. -/
theorem nodes_edges_counterexample :
    ((∀ g ∈ singleGroup.RuleGroups, g.Values ≠ []) ∧ singleGroup.RuleGroups.length = 1
        ∧ nodes singleGroup = some [⟨"a", [1]⟩, ⟨"b", []⟩])
      ∧ ((∀ g ∈ sharedValue.RuleGroups, g.Values ≠ []) ∧ sharedValue.RuleGroups.length = 2
        ∧ nodes sharedValue = some [⟨"x", [2, 1, 2]⟩, ⟨"y", [2]⟩, ⟨"x", [2, 1, 2]⟩]) := by
  decide

/-- C12, amended: for every list of non-empty rule groups `nodes()` returns
a graph whose nodes hold the values of the groups in order, and in it (1)
with two groups or more, every node holding the last value of group `i` has
an outgoing edge to a node holding the first value of group `(i+1) mod n`;
(2) every node holding the last value of a group marked repeating has an
outgoing edge to a node holding the first value of that group; (3) every
node holding a value marked repeating has an outgoing edge to a node holding
that value. -/
theorem nodes_edges (p : HeaderRuleValidate) (hne : ∀ g ∈ p.RuleGroups, g.Values ≠ []) :
    ∃ ns, nodes p = some ns
      ∧ ns.map (fun nd => nd.value)
          = (p.RuleGroups.map (fun g => g.Values.map (fun r => r.Value))).flatten
      ∧ (∀ i g r, p.RuleGroups[i]? = some g → g.Values.getLast? = some r →
          ∀ nd ∈ ns, nd.value = r.Value →
            (1 < p.RuleGroups.length →
              ∃ nxt f k nk, p.RuleGroups[(i + 1) % p.RuleGroups.length]? = some nxt
                ∧ nxt.Values.head? = some f ∧ k ∈ nd.nextIndex ∧ ns[k]? = some nk
                ∧ nk.value = f.Value)
            ∧ (g.IsRepetition = true →
              ∃ f k nk, g.Values.head? = some f ∧ k ∈ nd.nextIndex ∧ ns[k]? = some nk
                ∧ nk.value = f.Value))
      ∧ ∀ g ∈ p.RuleGroups, ∀ r ∈ g.Values, r.IsRepetition = true →
          ∀ nd ∈ ns, nd.value = r.Value →
            ∃ k nk, k ∈ nd.nextIndex ∧ ns[k]? = some nk ∧ nk.value = r.Value := by
  obtain ⟨s, hs⟩ := nodes_groups_isSome p hne p.RuleGroups 0
    { mapNodeIndex := [], mapNextNodes := [], res := [] }
  obtain ⟨hd, _, hi, hv⟩ := nodes_groups_Done p p.RuleGroups 0 _ s hs
  have hidx : nodes.Indexed s := hi (by
    intro w k hk
    simp [GoMap.get] at hk)
  have hnodes : nodes p
      = some (s.res.map (fun nd => (⟨nd.value, nodes.resolve s nd.value⟩ : headerRuleNode))) := by
    unfold nodes
    rw [hs]
  refine ⟨_, hnodes, ?_, ?_, ?_⟩
  · rw [List.map_map]
    simpa using hv
  · intro i g r hg hr nd hnd hval
    have hlast : g.Values[g.Values.length - 1]? = some r := by
      rw [← List.getLast?_eq_getElem?]
      exact hr
    have hpos : 0 < g.Values.length := by
      have := (List.getElem?_eq_some.mp hlast).1
      omega
    have hj : g.Values.length - 1 + 1 = g.Values.length := by omega
    have hdone := hd i g hg (g.Values.length - 1) r hlast
    rw [Nat.zero_add] at hdone
    obtain ⟨_, _, d3, d4⟩ := hdone
    refine ⟨?_, ?_⟩
    · intro hn
      obtain ⟨nxt, f, hnxt, hf, hl⟩ := d4 hj hn
      have hbound := (hd _ nxt hnxt 0 f hf).1
      obtain ⟨k, nk, hk, hnk, hkv⟩ := nodes_resolve_edge s hidx r.Value f.Value hl hbound nd hnd hval
      exact ⟨nxt, f, k, nk, hnxt, by rw [List.head?_eq_getElem?]; exact hf, hk, hnk, hkv⟩
    · intro hrep
      obtain ⟨f, hf, hl⟩ := d3 hj hrep
      have hbound := (hd i g hg 0 f hf).1
      obtain ⟨k, nk, hk, hnk, hkv⟩ := nodes_resolve_edge s hidx r.Value f.Value hl hbound nd hnd hval
      exact ⟨f, k, nk, by rw [List.head?_eq_getElem?]; exact hf, hk, hnk, hkv⟩
  · intro g hg r hr hrep nd hnd hval
    obtain ⟨i, hi⟩ := List.mem_iff_getElem?.mp hg
    obtain ⟨k, hk⟩ := List.mem_iff_getElem?.mp hr
    obtain ⟨d1, d2, _, _⟩ := hd i g hi k r hk
    exact nodes_resolve_edge s hidx r.Value r.Value (d2 hrep) d1 nd hnd hval

/-- C12, amended, at the two groups `a, b` and `c, d`, the second marked
repeating: `nodes()` returns a graph of four nodes holding `a, b, c, d`. -/
theorem nodes_edges_witness :
    (∀ g ∈ twoGroups.RuleGroups, g.Values ≠ [])
      ∧ ∃ ns, nodes twoGroups = some ns ∧ ns.map (fun nd => nd.value) = ["a", "b", "c", "d"] :=
  ⟨by decide, by
    obtain ⟨ns, h, hv, _⟩ := nodes_edges twoGroups (by decide)
    exact ⟨ns, h, hv.trans (by decide)⟩⟩

/-! ### Blank cells and the guard of `Validate` -/

theorem Validate_compact_dropBlank (up : List String) :
    Validate.compact (dropBlank up) = Validate.compact up := by
  induction up with
  | nil => rfl
  | cons c cs ih =>
    unfold dropBlank at ih ⊢
    simp only [ne_eq, decide_not] at ih
    by_cases h : TrimSpace c = ""
    · simp [List.filter, h, Validate.compact, ih]
    · simp [List.filter, h, Validate.compact, ih]

theorem Validate_compact_append (a b : List String) :
    Validate.compact (a ++ b) = Validate.compact a ++ Validate.compact b := by
  induction a with
  | nil => rfl
  | cons c cs ih =>
    by_cases h : TrimSpace c = "" <;> simp [Validate.compact, h, ih]

theorem Validate_congr_compact (p : HeaderRuleValidate) (tpl up up1 : List String)
    (h : Validate.compact up1 = Validate.compact up) : Validate p tpl up1 = Validate p tpl up := by
  unfold Validate
  rw [h]

/-- C13: `Validate` gives the same result on the uploaded row and on the
uploaded row without its blank cells, so a blank cell put anywhere into the
uploaded row does not change the result. -/
theorem Validate_dropBlank (p : HeaderRuleValidate) (tpl up : List String) :
    Validate p tpl up = Validate p tpl (dropBlank up)
      ∧ ∀ (a b : List String) (c : String), up = a ++ b → TrimSpace c = "" →
          Validate p tpl (a ++ c :: b) = Validate p tpl up := by
  refine ⟨(Validate_congr_compact p tpl up (dropBlank up) (Validate_compact_dropBlank up)).symm, ?_⟩
  intro a b c hup hc
  apply Validate_congr_compact
  rw [hup, Validate_compact_append, Validate_compact_append]
  simp [Validate.compact, hc]

/-- C14: `Validate` returns false whenever the compacted uploaded header has
fewer cells than `FixedColumnCount`, or the template has, or the compacted
uploaded header has fewer cells than the template, or no cell at all. -/
theorem Validate_guard (p : HeaderRuleValidate) (tpl up : List String)
    (h : ((Validate.compact up).length : Int) < p.FixedColumnCount
      ∨ (tpl.length : Int) < p.FixedColumnCount
      ∨ (Validate.compact up).length < tpl.length
      ∨ (Validate.compact up).length = 0) :
    Validate p tpl up = some false := by
  unfold Validate
  simp only
  rw [if_pos]
  omega

/-- C14 at scenario A: an uploaded header of one cell, a blank cell apart,
against two fixed columns. -/
theorem Validate_guard_witness : Validate scenarioA ["id", "name"] ["id", " "] = some false :=
  Validate_guard scenarioA ["id", "name"] ["id", " "] (by decide)

/-! ### No fixed column -/

theorem validateFixed_zero_iff (p : HeaderRuleValidate) (tpl up : List String)
    (h0 : p.FixedColumnCount = 0) (hne : 0 < up.length) :
    validateFixed p tpl up = some true ↔
      tpl = [] ∧ ∃ c, up.head? = some c ∧ c ∈ p.AllowedStartValue := by
  unfold validateFixed
  rw [if_pos h0]
  cases up with
  | nil => simp at hne
  | cons c cs =>
    cases tpl with
    | cons t ts => simp
    | nil =>
      simp only [List.length_nil, ne_eq, not_true_eq_false, if_false, List.getElem?_cons_zero,
        List.head?_cons, Option.some.injEq, exists_eq_left', true_and]
      by_cases hc : existAt p.AllowedStartValue c = true
      · simp [hc, (existAt_iff _ _).mp hc]
      · have hnm : c ∉ p.AllowedStartValue := fun hm => hc ((existAt_iff _ _).mpr hm)
        simp [hc, hnm]

/-- C15, as stated, fails: with no fixed column an uploaded header that is
longer than a non-empty template is accepted when the cells beyond the
template are blank, and an uploaded header is accepted against the empty
template although its first cell, a blank cell or a padded one, is not an
allowed start value. -/
theorem Validate_no_fixed_counterexample :
    noFixed.FixedColumnCount = 0
      ∧ (["a"].length < ["a", ""].length ∧ ["a"] ≠ []
        ∧ Validate noFixed ["a"] ["a", ""] = some true)
      ∧ (([] : List String).length < ["", "a", "a"].length
        ∧ ["", "a", "a"].head? = some "" ∧ "" ∉ noFixed.AllowedStartValue
        ∧ Validate noFixed [] ["", "a", "a"] = some true)
      ∧ (([] : List String).length < [" a", "a"].length
        ∧ [" a", "a"].head? = some " a" ∧ " a" ∉ noFixed.AllowedStartValue
        ∧ Validate noFixed [] [" a", "a"] = some true) := by
  decide

/-- C15, amended: when `FixedColumnCount` is 0 and the compacted uploaded
header (blank cells dropped, cells trimmed) is longer than the template,
`Validate` returns true exactly when the template is empty, the first cell of
the compacted header is in `AllowedStartValue`, its last cell is in
`AllowedEndValue` and its cells form a walk in the rule graph; with a
non-empty template `Validate` returns false. -/
theorem Validate_no_fixed (p : HeaderRuleValidate) (tpl up : List String)
    (hfixed : p.FixedColumnCount = 0) (hlong : tpl.length < (Validate.compact up).length) :
    (Validate p tpl up = some true ↔
        tpl = []
          ∧ (∃ c, (Validate.compact up).head? = some c ∧ c ∈ p.AllowedStartValue)
          ∧ (∃ l, (Validate.compact up).getLast? = some l ∧ l ∈ p.AllowedEndValue)
          ∧ ∃ ns, nodes p = some ns ∧ IsWalk ns (Validate.compact up))
      ∧ (tpl ≠ [] → Validate p tpl up = some false) := by
  have hv : Validate p tpl up = validate p tpl (Validate.compact up) := by
    unfold Validate
    simp only [hfixed]
    have hc1 : ¬ (((Validate.compact up).length : Int) < 0 ∨ (tpl.length : Int) < 0
        ∨ ((Validate.compact up).length : Int) < (tpl.length : Int)
        ∨ ((Validate.compact up).length : Int) = 0) := by omega
    have hc2 : ¬ (((Validate.compact up).length : Int) = (tpl.length : Int)) := by omega
    rw [if_neg hc1, if_neg hc2]
  have hpos : 0 < (Validate.compact up).length := by omega
  refine ⟨?_, ?_⟩
  · rw [hv]
    unfold validate
    rw [andThen_eq_true, andThen_eq_true, validateFixed_zero_iff p tpl _ hfixed hpos,
      validateAllowedEndValue_iff p _ hpos,
      validateRule_iff p (Validate.compact up) 0 (by rw [hfixed]; rfl) hpos]
    simp only [List.drop_zero]
    tauto
  · intro hne
    rw [hv]
    unfold validate validateFixed
    rw [if_pos hfixed]
    have : tpl.length ≠ 0 := fun h => hne (List.length_eq_zero.mp h)
    simp [this, andThen]

/-- C15, amended, at the configuration `noFixed`: the header `a, a` against
the empty template is accepted, against the template `a` the header `a, a`
is rejected. -/
theorem Validate_no_fixed_witness :
    Validate noFixed [] ["a", "a"] = some true ∧ Validate noFixed ["a"] ["a", "a"] = some false :=
  ⟨((Validate_no_fixed noFixed [] ["a", "a"] (by decide) (by decide)).1).mpr (by
      refine ⟨rfl, ⟨"a", by decide, by decide⟩, ⟨"a", by decide, by decide⟩,
        ⟨[⟨"a", [0]⟩], by decide, ?_⟩⟩
      exact ⟨0, ⟨"a", [0]⟩, by decide, by decide, ⟨"a", [0]⟩, 0, ⟨"a", [0]⟩, by decide, by decide,
        by decide, by decide, trivial⟩),
    (Validate_no_fixed noFixed ["a"] ["a", "a"] (by decide) (by decide)).2 (by decide)⟩

/-! ### The scan without unique columns -/

theorem getUniqueColumnIndex_disabled {δ : Type} (g : groupRows δ) (rowData : List String)
    (hidx : g.indexes = []) : getUniqueColumnIndex g rowData = (0, false) := by
  simp [getUniqueColumnIndex, isEnableGroupRows, groupRows.indexesLen, hidx]

theorem Run_loop_no_unique_column {δ : Type} (parse : Nat → List String → δ × Nat)
    (g : groupRows δ) (consumer : rows δ → List Attach) (hidx : g.indexes = [])
    (rest : List (List String)) (i : Nat) (s : Run.State δ) :
    ∃ s', Run.loop parse g consumer i rest s = some s'
      ∧ s'.submitted.map Run.view
          = s.submitted.map Run.view ++ (rest.enumFrom i).filterMap
              (fun ir => if isEmpty ir.2 then none else some (ir.1, [ir.1])) := by
  induction rest generalizing i s with
  | nil => exact ⟨s, by simp [Run.loop], by simp⟩
  | cons r rs ih =>
    by_cases hr : isEmpty r = true
    · obtain ⟨s', hs', hsub⟩ := ih (i + 1) { s with emptyRowNum := s.emptyRowNum + 1 }
      refine ⟨s', ?_, ?_⟩
      · rw [Run.loop]
        simp only [hr, if_true]
        exact hs'
      · rw [hsub]
        simp [List.enumFrom, hr]
    · obtain ⟨s', hs', hsub⟩ := ih (i + 1)
        (Run.submit consumer g.errorWriteBackMode i
          (rows.Append (newRows δ) (parse s.maxColumnNum r).1 i)
          { s with maxColumnNum := (parse s.maxColumnNum r).2 })
      refine ⟨s', ?_, ?_⟩
      · rw [Run.loop]
        simp only [hr, getUniqueColumnIndex_disabled g r hidx]
        exact hs'
      · rw [hsub]
        simp [List.enumFrom, hr, Run.submit, Run.view, rows.Append, newRows, row.GetFormIndex]

/-- C16: when no unique column is configured, `Run` returns, and the units it
has handed to `Submit` are, in the order of the table, one unit for every
data row that is not blank, submitted in the iteration of that row and made
of one record whose form index is the index of the row in the table. -/
theorem Run_no_unique_column {δ : Type} (p : taskScheduler δ)
    (consumer : rows δ → List Attach) (lib : Library) (hidx : p.groupRows.indexes = []) :
    ∃ res, Run p consumer lib = some res
      ∧ res.units = ((p.rows.drop p.skipRowNum).enumFrom p.skipRowNum).filterMap
          (fun ir => if isEmpty ir.2 then none else some (ir.1, [ir.1])) := by
  unfold Run
  by_cases hle : p.rowsCount ≤ p.skipRowNum
  · rw [if_pos hle]
    refine ⟨_, rfl, ?_⟩
    rw [List.drop_eq_nil_of_le hle]
    rfl
  · rw [if_neg hle]
    have hpre : setUniqueColumnMapRowNum p = some p.groupRows := by
      simp [setUniqueColumnMapRowNum, isEnableGroupRows, groupRows.indexesLen, hidx]
    rw [hpre]
    simp only
    obtain ⟨s', hs', hsub⟩ := Run_loop_no_unique_column p.parseRowData p.groupRows consumer hidx
      (p.rows.drop p.skipRowNum) p.skipRowNum
      { slots := p.groupRows.rows, maxColumnNum := p.maxColumnNum, emptyRowNum := 0,
        errMessages := newErrorMessages, submitted := [] }
    rw [hs']
    simp only
    obtain ⟨b, hb⟩ := Build_isSome lib s'.errMessages p.rows s'.maxColumnNum p.skipRowNum
    rw [hb]
    refine ⟨_, rfl, ?_⟩
    simp only [Run.Result.units]
    have hview : s'.submitted.map Run.view
        = List.map (fun e => (e.1, List.map row.GetFormIndex e.2)) s'.submitted := rfl
    rw [← hview, hsub]
    simp

/-- C16 at a table of one header row, a data row, a blank row and a data
row: the two data rows that are not blank are submitted, each on its own. -/
theorem Run_no_unique_column_witness :
    ∃ res, Run withBlankRow quietConsumer Library.ok = some res
      ∧ res.units = [(1, [1]), (3, [3])] := by
  obtain ⟨res, hres, hunits⟩ := Run_no_unique_column withBlankRow quietConsumer Library.ok rfl
  exact ⟨res, hres, hunits.trans (by decide)⟩

/-! ### The key lookup -/

theorem getUniqueColumnIndex_checkedKeys_eq (rowData : List String) (indexes : List Nat) :
    getUniqueColumnIndex.checkedKeys rowData indexes
      = some (getUniqueColumnIndex.keys rowData indexes) := by
  induction indexes with
  | nil => rfl
  | cons ix ixs ih =>
    unfold getUniqueColumnIndex.checkedKeys getUniqueColumnIndex.keys
    by_cases h : ix ≥ rowData.length
    · simp [h]
    · have hlt : ix < rowData.length := by omega
      simp [h, List.getElem?_eq_getElem hlt, ih]

theorem getUniqueColumnIndex_checked_eq {δ : Type} (g : groupRows δ) (rowData : List String) :
    getUniqueColumnIndex.checked g rowData = some (getUniqueColumnIndex g rowData) := by
  unfold getUniqueColumnIndex.checked getUniqueColumnIndex
  by_cases hen : isEnableGroupRows g = true
  · simp only [hen, Bool.not_true, Bool.false_eq_true, if_false]
    by_cases h1 : g.indexesLen = 1
    · rw [if_pos h1]
      unfold groupRows.indexesLen at h1
      obtain ⟨ix, hix⟩ := List.length_eq_one.mp h1
      rw [hix]
      simp only [List.getElem?_cons_zero, getUniqueColumnIndex.key]
      by_cases hge : ix ≥ rowData.length
      · simp [hge]
      · have hlt : ix < rowData.length := by omega
        simp only [hge, if_false, List.getElem?_eq_getElem hlt]
        cases GoMap.get g.keyMapIndex rowData[ix] <;> rfl
    · rw [if_neg h1]
      rw [getUniqueColumnIndex_checkedKeys_eq]
      have hkey : getUniqueColumnIndex.key g.indexes rowData
          = (getUniqueColumnIndex.keys rowData g.indexes).map (fun keys => Join keys ":") := by
        unfold getUniqueColumnIndex.key
        split
        · rename_i ix hix
          exact absurd (by rw [groupRows.indexesLen, hix]; rfl) h1
        · rfl
      rw [hkey]
      cases getUniqueColumnIndex.keys rowData g.indexes with
      | none => rfl
      | some keys =>
        simp only [Option.map_some']
        cases GoMap.get g.keyMapIndex (Join keys ":") <;> rfl
  · simp [hen]

theorem getUniqueColumnIndex_keys_beyond (rowData : List String) (indexes : List Nat)
    (h : ∃ ix ∈ indexes, rowData.length ≤ ix) : getUniqueColumnIndex.keys rowData indexes = none := by
  induction indexes with
  | nil => simp at h
  | cons ix ixs ih =>
    unfold getUniqueColumnIndex.keys
    by_cases hge : ix ≥ rowData.length
    · simp [hge]
    · have hlt : ix < rowData.length := by omega
      have hrest : ∃ ix ∈ ixs, rowData.length ≤ ix := by
        obtain ⟨jx, hj, hjw⟩ := h
        rcases List.mem_cons.mp hj with rfl | hj
        · omega
        · exact ⟨jx, hj, hjw⟩
      simp [hge, List.getElem?_eq_getElem hlt, ih hrest]

theorem getUniqueColumnIndex_beyond {δ : Type} (g : groupRows δ) (rowData : List String)
    (h : ∃ ix ∈ g.indexes, rowData.length ≤ ix) : getUniqueColumnIndex g rowData = (0, false) := by
  unfold getUniqueColumnIndex
  split
  · rfl
  · have hkey : getUniqueColumnIndex.key g.indexes rowData = none := by
      unfold getUniqueColumnIndex.key
      split
      · rename_i ix hix
        rw [hix] at h
        simp only [List.mem_singleton, exists_eq_left] at h
        simp [h]
      · rw [getUniqueColumnIndex_keys_beyond rowData g.indexes h]; rfl
    rw [hkey]

/-- C17: when some configured index is at or beyond the width of the row,
`getUniqueColumnIndex` makes no access outside a slice and reports no match,
and the scan loop of `Run` then submits the row, if it is not blank, as a
unit of its own. -/
theorem getUniqueColumnIndex_index_beyond_width {δ : Type} (g : groupRows δ)
    (rowData : List String) (h : ∃ ix ∈ g.indexes, rowData.length ≤ ix) :
    getUniqueColumnIndex.checked g rowData = some (0, false)
      ∧ getUniqueColumnIndex g rowData = (0, false)
      ∧ ∀ (parseRowData : Nat → List String → δ × Nat) (consumer : rows δ → List Attach)
          (i : Nat) (rs : List (List String)) (s : Run.State δ), isEmpty rowData = false →
          Run.loop parseRowData g consumer i (rowData :: rs) s
            = Run.loop parseRowData g consumer (i + 1) rs
                (Run.submit consumer g.errorWriteBackMode i
                  (rows.Append (newRows δ) (parseRowData s.maxColumnNum rowData).1 i)
                  { s with maxColumnNum := (parseRowData s.maxColumnNum rowData).2 }) := by
  have hb := getUniqueColumnIndex_beyond g rowData h
  refine ⟨by rw [getUniqueColumnIndex_checked_eq, hb], hb, ?_⟩
  intro parse consumer i rs s hne
  rw [Run.loop]
  simp only [hne, Bool.false_eq_true, if_false, hb]

/-- C17 at a row of one cell under the unique columns 0 and 1. -/
theorem getUniqueColumnIndex_index_beyond_width_witness :
    getUniqueColumnIndex.checked (rawScheduler [] 0 [0, 1] "").groupRows ["a"] = some (0, false) :=
  (getUniqueColumnIndex_index_beyond_width (rawScheduler [] 0 [0, 1] "").groupRows ["a"]
    ⟨1, by decide, by decide⟩).1

/-! ### Blank rows in the scan -/

theorem row_SetErrs_index {δ : Type} (r : row δ) (errs : List (Option String)) :
    (row.SetErrs r errs).index = r.index := by
  unfold row.SetErrs
  split <;> rfl

theorem rows_SetErrsAt_index {δ : Type} (rs : rows δ) (j : Nat) (errs : List (Option String)) :
    (rows.SetErrsAt rs j errs).map row.GetFormIndex = rs.map row.GetFormIndex := by
  induction rs generalizing j with
  | nil => rfl
  | cons r rs ih =>
    cases j with
    | zero => simp [rows.SetErrsAt, row.GetFormIndex, row_SetErrs_index]
    | succ j => simp [rows.SetErrsAt, ih j]

theorem rows_SetRowsErrs_index {δ : Type} (rs : rows δ) (errs : List (Option String)) :
    (rows.SetRowsErrs rs errs).map row.GetFormIndex = rs.map row.GetFormIndex := by
  unfold rows.SetRowsErrs
  split
  · rfl
  · rw [List.map_map]
    apply List.map_congr_left
    intro r _
    exact row_SetErrs_index r errs

theorem Submit_index {δ : Type} (consumer : rows δ → List Attach) (rs : rows δ) :
    (Submit consumer rs).map row.GetFormIndex = rs.map row.GetFormIndex := by
  unfold Submit
  generalize consumer rs = calls
  induction calls generalizing rs with
  | nil => rfl
  | cons c cs ih =>
    rw [List.foldl_cons, ih]
    cases c with
    | SetErrs j errs => exact rows_SetErrsAt_index rs j errs
    | SetRowsErrs errs => exact rows_SetRowsErrs_index rs errs

theorem Run_report_index {δ : Type} (errorWriteBackMode : String) (rowsData : rows δ)
    (e : errorMessage) (h : e ∈ Run.report errorWriteBackMode rowsData) :
    e.rowIndex ∈ rowsData.map row.GetFormIndex := by
  unfold Run.report at h
  split at h
  · obtain ⟨x, hx, hxe⟩ := List.mem_filterMap.mp h
    simp only [Option.ite_none_right_eq_some, Option.some.injEq] at hxe
    obtain ⟨_, hxe⟩ := hxe
    rw [← hxe]
    exact List.mem_map.mpr ⟨x, hx, rfl⟩
  · simp at h

theorem errorMessages_foldl_Append (l : List errorMessage) (em : errorMessages) :
    (l.foldl (fun em e => errorMessages.Append em e.rowIndex e.err) em).errors
      = em.errors ++ l := by
  induction l generalizing em with
  | nil => simp
  | cons e es ih =>
    rw [List.foldl_cons, ih]
    simp [errorMessages.Append]

theorem Run_submit_only {δ : Type} (P : Nat → Prop) (consumer : rows δ → List Attach)
    (errorWriteBackMode : String) (i : Nat) (rowsData : rows δ) (s : Run.State δ)
    (hi : P i) (hrows : ∀ x ∈ rowsData, P (row.GetFormIndex x)) (hinv : Run.Only P s) :
    Run.Only P (Run.submit consumer errorWriteBackMode i rowsData s) := by
  obtain ⟨h1, h2, h3⟩ := hinv
  refine ⟨h1, ?_, ?_⟩
  · intro e he
    simp only [Run.submit, List.mem_append, List.mem_singleton] at he
    rcases he with he | he
    · exact h2 e he
    · rw [he]
      exact ⟨hi, hrows⟩
  · intro e he
    simp only [Run.submit, errorMessages_foldl_Append, List.mem_append] at he
    rcases he with he | he
    · exact h3 e he
    · have hm := Run_report_index _ _ e he
      rw [Submit_index] at hm
      obtain ⟨x, hx, hxe⟩ := List.mem_map.mp hm
      rw [← hxe]
      exact hrows x hx

theorem Run_submit_emptyRowNum {δ : Type} (consumer : rows δ → List Attach)
    (errorWriteBackMode : String) (i : Nat) (rowsData : rows δ) (s : Run.State δ) :
    (Run.submit consumer errorWriteBackMode i rowsData s).emptyRowNum = s.emptyRowNum := rfl

theorem Run_loop_only {δ : Type} (parse : Nat → List String → δ × Nat) (g : groupRows δ)
    (consumer : rows δ → List Attach) (P : Nat → Prop) (rest : List (List String)) (i : Nat)
    (s s' : Run.State δ)
    (hP : ∀ k r, rest[k]? = some r → isEmpty r = false → P (i + k))
    (h : Run.loop parse g consumer i rest s = some s') (hinv : Run.Only P s) :
    Run.Only P s' ∧ s'.emptyRowNum = s.emptyRowNum + (rest.filter isEmpty).length := by
  induction rest generalizing i s with
  | nil =>
    simp only [Run.loop, Option.some.injEq] at h
    rw [← h]
    exact ⟨hinv, by simp⟩
  | cons r rs ih =>
    have hP' : ∀ k r', rs[k]? = some r' → isEmpty r' = false → P (i + 1 + k) := by
      intro k r' hk hr'
      have := hP (k + 1) r' (by simpa using hk) hr'
      rw [show i + 1 + k = i + (k + 1) by omega]
      exact this
    rw [Run.loop] at h
    by_cases hr : isEmpty r = true
    · simp only [hr, if_true] at h
      obtain ⟨h1, h2⟩ := ih (i + 1) _ hP' h hinv
      refine ⟨h1, ?_⟩
      rw [h2]
      simp [List.filter, hr]
      omega
    · have hi : P i := hP 0 r (by simp) (by simpa using hr)
      have hcount : ((r :: rs).filter isEmpty).length = (rs.filter isEmpty).length := by
        simp [List.filter, hr]
      rw [hcount]
      rw [if_neg hr] at h
      simp only at h
      obtain ⟨hs1, hs2, hs3⟩ := hinv
      split at h
      · rename_i index hidx
        split at h
        · rename_i u hu
          have hmem : some u ∈ s.slots := List.mem_iff_getElem?.mpr ⟨index, hu⟩
          have hnew : ∀ x ∈ rows.Append u.rowsData (parse s.maxColumnNum r).1 i,
              P (row.GetFormIndex x) := by
            intro x hx
            simp only [rows.Append, List.mem_append, List.mem_singleton] at hx
            rcases hx with hx | hx
            · exact hs1 u hmem x hx
            · rw [hx]
              exact hi
          split at h
          · have key := ih (i + 1) _ hP' h
            refine key ⟨?_, hs2, hs3⟩
            intro uc huc x hx
            rcases List.mem_or_eq_of_mem_set huc with huc | huc
            · exact hs1 uc huc x hx
            · injection huc with huc
              rw [huc] at hx
              exact hnew x hx
          · have key := ih (i + 1) _ hP' h
            refine key (Run_submit_only P consumer g.errorWriteBackMode i _ _ hi hnew ⟨?_, hs2, hs3⟩)
            intro uc huc x hx
            rcases List.mem_or_eq_of_mem_set huc with huc | huc
            · exact hs1 uc huc x hx
            · simp at huc
        · simp at h
      · have hone : ∀ x ∈ rows.Append (newRows δ) (parse s.maxColumnNum r).1 i,
            P (row.GetFormIndex x) := by
          intro x hx
          simp only [rows.Append, newRows, List.nil_append, List.mem_singleton] at hx
          rw [hx]
          exact hi
        have key := ih (i + 1) _ hP' h
        exact key (Run_submit_only P consumer g.errorWriteBackMode i _ _ hi hone ⟨hs1, hs2, hs3⟩)

theorem Run_loop_congr {δ : Type} (parse parse1 : Nat → List String → δ × Nat)
    (g : groupRows δ) (consumer : rows δ → List Attach)
    (hparse : ∀ m r, isEmpty r = false → parse1 m r = parse m r)
    (rest : List (List String)) (i : Nat) (s : Run.State δ) :
    Run.loop parse1 g consumer i rest s = Run.loop parse g consumer i rest s := by
  induction rest generalizing i s with
  | nil => simp [Run.loop]
  | cons r rs ih =>
    by_cases hr : isEmpty r = true
    · simp only [Run.loop, hr, if_true]
      exact ih _ _
    · have hr1 : isEmpty r = false := by simpa using hr
      simp only [Run.loop, hr, hparse s.maxColumnNum r hr1, ih]

theorem setUniqueColumnMapRowNum_loop_buffers {δ : Type} (skip indexesLen : Nat)
    (rest : List (List String)) (i : Nat) (s s1 : setUniqueColumnMapRowNum.State δ)
    (h : setUniqueColumnMapRowNum.loop skip indexesLen i rest s = some s1)
    (hinv : ∀ uc, some uc ∈ s.rows → uc.rowsData = []) :
    ∀ uc, some uc ∈ s1.rows → uc.rowsData = [] := by
  induction rest generalizing i s with
  | nil =>
    simp only [setUniqueColumnMapRowNum.loop, Option.some.injEq] at h
    rw [← h]
    exact hinv
  | cons r rs ih =>
    rw [setUniqueColumnMapRowNum.loop] at h
    have hgrow : ∀ uc, some uc ∈ s.rows ++ [none] → uc.rowsData = [] := by
      intro uc huc
      simp only [List.mem_append, List.mem_singleton] at huc
      rcases huc with huc | huc
      · exact hinv uc huc
      · simp at huc
    split at h
    · simp at h
    · simp only at h
      split at h
      · exact ih _ _ h hgrow
      · split at h
        · refine ih _ _ h ?_
          intro uc huc
          rcases List.mem_or_eq_of_mem_set huc with huc | huc
          · exact hgrow uc huc
          · injection huc with huc
            rw [huc]
            rfl
        · simp at h

theorem setUniqueColumnMapRowNum_fill_buffers {δ : Type} (keyNum : GoMap String Nat)
    (l : List (String × Nat)) (slots slots1 : List (Option (uniqueColumn δ)))
    (h : setUniqueColumnMapRowNum.fill keyNum l slots = some slots1)
    (hinv : ∀ uc, some uc ∈ slots → uc.rowsData = []) :
    ∀ uc, some uc ∈ slots1 → uc.rowsData = [] := by
  induction l generalizing slots with
  | nil =>
    simp only [setUniqueColumnMapRowNum.fill, Option.some.injEq] at h
    rw [← h]
    exact hinv
  | cons e es ih =>
    obtain ⟨key, index⟩ := e
    rw [setUniqueColumnMapRowNum.fill] at h
    split at h
    · exact ih _ h hinv
    · split at h
      · rename_i u hu
        refine ih _ h ?_
        intro uc huc
        rcases List.mem_or_eq_of_mem_set huc with huc | huc
        · exact hinv uc huc
        · injection huc with huc
          rw [huc]
          exact hinv u (List.mem_iff_getElem?.mpr ⟨index, hu⟩)
      · simp at h

theorem setUniqueColumnMapRowNum_buffers {δ : Type} (p : taskScheduler δ) (g : groupRows δ)
    (hslots : p.groupRows.rows = []) (h : setUniqueColumnMapRowNum p = some g) :
    ∀ uc, some uc ∈ g.rows → uc.rowsData = [] := by
  unfold setUniqueColumnMapRowNum at h
  split at h
  · injection h with h
    rw [← h, hslots]
    simp
  · split at h
    · simp at h
    · rename_i s hs
      split at h
      · simp at h
      · rename_i slots hfill
        injection h with h
        rw [← h]
        simp only
        exact setUniqueColumnMapRowNum_fill_buffers _ _ _ _ hfill
          (setUniqueColumnMapRowNum_loop_buffers _ _ _ _ _ _ hs (by rw [hslots]; simp))

theorem filter_isEmpty_length (l : List (List String)) :
    (l.filter isEmpty).length + (l.filter (fun r => !isEmpty r)).length = l.length := by
  induction l with
  | nil => rfl
  | cons r rs ih =>
    by_cases hr : isEmpty r = true
    · simp [List.filter, hr]
      omega
    · simp [List.filter, hr]
      omega

/-- C18: for a scheduler whose group slots are still empty, (1) `Run` gives
the same result with every row decoder that agrees with the scheduler's on
the rows that are not blank, so a blank row is never decoded; (2) when `Run`
returns, the done count is the number of data rows that are not blank, every
unit submitted is submitted in the iteration of a data row that is not blank
and holds only such rows, the error count is the number of ledger entries
appended, and every entry belongs to a data row that is not blank; (3)
without unique columns `Run` returns. -/
theorem Run_blank_rows {δ : Type} (p : taskScheduler δ) (consumer : rows δ → List Attach)
    (lib : Library) (hslots : p.groupRows.rows = []) :
    (∀ parse1 : Nat → List String → δ × Nat,
        (∀ m r, isEmpty r = false → parse1 m r = p.parseRowData m r) →
        Run { p with parseRowData := parse1 } consumer lib = Run p consumer lib)
      ∧ (∀ res, Run p consumer lib = some res →
          res.doneCount = ((p.rows.drop p.skipRowNum).filter (fun r => !isEmpty r)).length
            ∧ (∀ e ∈ res.submitted, nonBlankAt p.rows p.skipRowNum e.1
                ∧ ∀ x ∈ e.2, nonBlankAt p.rows p.skipRowNum (row.GetFormIndex x))
            ∧ res.errorCount = res.appended.length
            ∧ ∀ e ∈ res.appended, nonBlankAt p.rows p.skipRowNum e.rowIndex)
      ∧ (p.groupRows.indexes = [] → ∃ res, Run p consumer lib = some res) := by
  refine ⟨?_, ?_, ?_⟩
  · intro parse1 hparse
    have hpre : setUniqueColumnMapRowNum { p with parseRowData := parse1 }
        = setUniqueColumnMapRowNum p := rfl
    unfold Run
    rw [hpre]
    simp only [taskScheduler.rowsCount, Run_loop_congr p.parseRowData parse1 _ consumer hparse]
  · intro res h
    unfold Run at h
    by_cases hle : p.rowsCount ≤ p.skipRowNum
    · rw [if_pos hle] at h
      injection h with h
      rw [← h]
      simp only [List.drop_eq_nil_of_le hle]
      simp
    · rw [if_neg hle] at h
      split at h
      · simp at h
      · rename_i g hg
        split at h
        · simp at h
        · rename_i s hs
          simp only at h
          split at h
          · simp at h
          · rename_i b hb
            injection h with h
            have hbuf := setUniqueColumnMapRowNum_buffers p g hslots hg
            obtain ⟨⟨_, hsub, herr⟩, hempty⟩ := Run_loop_only p.parseRowData g consumer
              (nonBlankAt p.rows p.skipRowNum) (p.rows.drop p.skipRowNum) p.skipRowNum _ s
              (by
                intro k r hk hr
                rw [List.getElem?_drop] at hk
                exact ⟨by omega, r, hk, hr⟩)
              hs
              ⟨by
                intro uc huc x hx
                rw [hbuf uc huc] at hx
                simp at hx, by simp, by simp [newErrorMessages]⟩
            rw [← h]
            refine ⟨?_, hsub, rfl, herr⟩
            simp only [zero_add] at hempty
            have hlen := filter_isEmpty_length (p.rows.drop p.skipRowNum)
            rw [List.length_drop] at hlen
            simp only [taskScheduler.rowsCount, hempty]
            omega
  · intro hidx
    unfold Run
    by_cases hle : p.rowsCount ≤ p.skipRowNum
    · rw [if_pos hle]
      exact ⟨_, rfl⟩
    · rw [if_neg hle]
      have hpre : setUniqueColumnMapRowNum p = some p.groupRows := by
        simp [setUniqueColumnMapRowNum, isEnableGroupRows, groupRows.indexesLen, hidx]
      rw [hpre]
      simp only
      obtain ⟨s1, hs1, _⟩ := Run_loop_no_unique_column p.parseRowData p.groupRows consumer hidx
        (p.rows.drop p.skipRowNum) p.skipRowNum
        { slots := p.groupRows.rows, maxColumnNum := p.maxColumnNum, emptyRowNum := 0,
          errMessages := newErrorMessages, submitted := [] }
      rw [hs1]
      simp only
      obtain ⟨b, hb⟩ := Build_isSome lib s1.errMessages p.rows s1.maxColumnNum p.skipRowNum
      rw [hb]
      exact ⟨_, rfl⟩

/-- C18 at a table of one header row, a data row, a blank row and a data
row, with a consumer that attaches a failure to every row it is handed: the
done count and the error count are 2, and the blank row at index 2 is in no
unit and has no ledger entry. -/
theorem Run_blank_rows_witness :
    ∃ res, Run withBlankRow (fun _ => [Attach.SetRowsErrs [some "bad"]]) Library.ok = some res
      ∧ res.doneCount = 2 ∧ res.errorCount = 2
      ∧ (∀ e ∈ res.submitted, e.1 ≠ 2 ∧ ∀ x ∈ e.2, row.GetFormIndex x ≠ 2)
      ∧ ∀ e ∈ res.appended, e.rowIndex ≠ 2 := by
  have hT := Run_blank_rows withBlankRow (fun _ => [Attach.SetRowsErrs [some "bad"]]) Library.ok rfl
  obtain ⟨res, hres⟩ := hT.2.2 rfl
  obtain ⟨hdone, hsub, hcount, herr⟩ := hT.2.1 res hres
  have hblank : ¬ nonBlankAt withBlankRow.rows withBlankRow.skipRowNum 2 := by
    rintro ⟨_, r, hr, hne⟩
    have : r = ["", " "] := by
      have h2 : withBlankRow.rows[2]? = some ["", " "] := by decide
      rw [h2] at hr
      injection hr with hr
      exact hr.symm
    rw [this] at hne
    revert hne
    decide
  have hval : Run withBlankRow (fun _ => [Attach.SetRowsErrs [some "bad"]]) Library.ok
      = some res → res.errorCount = 2 := by
    intro h
    have hdec : (Run withBlankRow (fun _ => [Attach.SetRowsErrs [some "bad"]]) Library.ok).map
        (fun r => r.errorCount) = some 2 := by decide
    rw [h] at hdec
    simpa using hdec
  refine ⟨res, hres, hdone.trans (by decide), hval hres, ?_, ?_⟩
  · intro e he
    obtain ⟨h1, h2⟩ := hsub e he
    exact ⟨fun h => hblank (h ▸ h1), fun x hx h => hblank (h ▸ h2 x hx)⟩
  · intro e he h
    exact hblank (h ▸ herr e he)

/-! ### The check service -/

theorem compareHeader_loop_equal (k : Nat) (tplFileRows importFileRows : List (List String))
    (h : ∀ i, i < k → tplFileRows[i]?.getD [] = importFileRows[i]?.getD []) :
    compareHeader.loop k tplFileRows importFileRows = (true, importFileRows.drop k) := by
  induction k generalizing tplFileRows importFileRows with
  | zero => simp [compareHeader.loop]
  | succ k ih =>
    have h0 := h 0 (by omega)
    have hs : ∀ i, i < k → tplFileRows[i + 1]?.getD [] = importFileRows[i + 1]?.getD [] :=
      fun i hi => h (i + 1) (by omega)
    cases tplFileRows with
    | nil =>
      cases importFileRows with
      | nil =>
        simp only [compareHeader.loop, nextColumns, equalStringSlice_eq]
        simpa using ih [] [] (by simp)
      | cons r rs =>
        simp only [List.getElem?_nil, Option.getD_none, List.getElem?_cons_zero,
          Option.getD_some] at h0
        simp only [compareHeader.loop, nextColumns, equalStringSlice_eq, ← h0]
        simpa using ih [] rs (by simpa using hs)
    | cons t ts =>
      cases importFileRows with
      | nil =>
        simp only [List.getElem?_nil, Option.getD_none, List.getElem?_cons_zero,
          Option.getD_some] at h0
        simp only [compareHeader.loop, nextColumns, equalStringSlice_eq, h0]
        simpa using ih ts [] (by simpa using hs)
      | cons r rs =>
        simp only [List.getElem?_cons_zero, Option.getD_some] at h0
        simp only [compareHeader.loop, nextColumns, equalStringSlice_eq, h0]
        simpa using ih ts rs (by simpa using hs)

theorem getTotalRows_eq (importFileRows : List (List String)) :
    getTotalRows importFileRows = ((importFileRows.filter (fun r => !isEmpty r)).length : Int) := by
  induction importFileRows with
  | nil => rfl
  | cons r rs ih =>
    by_cases h : isEmpty r = true
    · simp [getTotalRows, h, List.filter, ih]
    · simp [getTotalRows, h, List.filter, ih]

/-- C19: without a header rule, with a positive row ceiling and with the
first `skipRowNum` rows of the import file equal to the template's (a row
past the end of a file reads as an empty row), the check's `Run` returns
`EmptyFile` when the import file holds no non-blank row after the header
rows, `LargestRowNumberError` when it holds more of them than the ceiling,
and their number with no error otherwise. -/
theorem checkService_Run_no_rule (p : checkService) (hrule : p.headerRuleValidate = none)
    (hmax : 0 < p.maxRowNum)
    (hheader : ∀ i, i < p.skipRowNum.toNat →
      p.tplFileRows[i]?.getD [] = p.importFileRows[i]?.getD []) :
    checkService.Run p =
      some (
        if ((p.importFileRows.drop p.skipRowNum.toNat).filter (fun r => !isEmpty r)).length = 0 then
          (0, some EmptyFile)
        else if (((p.importFileRows.drop p.skipRowNum.toNat).filter
            (fun r => !isEmpty r)).length : Int) > p.maxRowNum then
          (0, some LargestRowNumberError)
        else
          ((((p.importFileRows.drop p.skipRowNum.toNat).filter
            (fun r => !isEmpty r)).length : Int), none)) := by
  unfold checkService.Run
  rw [if_neg (by omega)]
  unfold compareHeader
  rw [hrule]
  simp only
  rw [compareHeader_loop_equal _ _ _ hheader]
  simp only [getTotalRows_eq]
  by_cases h0 : ((p.importFileRows.drop p.skipRowNum.toNat).filter (fun r => !isEmpty r)).length = 0
  · rw [if_pos (by omega), if_pos h0]
  · rw [if_neg (by omega), if_neg h0]
    by_cases h1 : (((p.importFileRows.drop p.skipRowNum.toNat).filter
        (fun r => !isEmpty r)).length : Int) > p.maxRowNum
    · rw [if_pos h1, if_pos h1]
    · rw [if_neg h1, if_neg h1]

/-- C19 at scenario E: a table of 10 rows with 2 header rows against a
ceiling of 5 rows exceeds the ceiling. -/
theorem checkService_Run_no_rule_witness :
    scenarioE.importFileRows.length = 10
      ∧ checkService.Run scenarioE = some (0, some LargestRowNumberError) :=
  ⟨by decide,
    (checkService_Run_no_rule scenarioE (by decide) (by decide) (by decide)).trans (by decide)⟩

/-- C20: with a header rule `compareHeader` passes one row of the import
file, whatever `skipRowNum` is, so the second header row of a table with two
header rows and no data row is counted as a data row and `Run` returns a
total of one row with no error; without a header rule the same table is an
empty file. -/
theorem checkService_Run_rule_counts_header :
    (headerOnly.withRule.skipRowNum = 2
        ∧ headerOnly.withRule.importFileRows.drop 2 = []
        ∧ compareHeader headerOnly.withRule = some (true, [["ID", "Name"]])
        ∧ checkService.Run headerOnly.withRule = some (1, none))
      ∧ (headerOnly.withoutRule.importFileRows = headerOnly.withRule.importFileRows
        ∧ compareHeader headerOnly.withoutRule = some (true, [])
        ∧ checkService.Run headerOnly.withoutRule = some (0, some EmptyFile)) := by
  decide

/-! ### The row decoder -/

theorem parseRowData_extra_spec (header rowData : List String) (k j : Nat) (pData : ExtraColumn)
    (hk : k = header.length - j) :
    parseRowData.extra header rowData k j pData
      = some {
          headerData := pData.headerData
            ++ (((header.drop j).enumFrom j).filter (fun jh => TrimSpace jh.2 ≠ "")).map
                (fun jh => jh.2),
          data := pData.data
            ++ (((header.drop j).enumFrom j).filter (fun jh => TrimSpace jh.2 ≠ "")).map
                (fun jh => TrimSpace ((rowData[jh.1]?).getD "")) } := by
  induction k generalizing j pData with
  | zero =>
    have hj : header.length ≤ j := by omega
    simp [parseRowData.extra, List.drop_eq_nil_of_le hj]
  | succ k ih =>
    have hj : j < header.length := by omega
    have hdrop : header.drop j = header[j] :: header.drop (j + 1) := List.drop_eq_getElem_cons hj
    rw [parseRowData.extra, List.getElem?_eq_getElem hj, hdrop]
    simp only [List.enumFrom_cons]
    by_cases hblank : TrimSpace header[j] = ""
    · rw [if_pos hblank, ih (j + 1) pData (by omega)]
      simp [List.filter, hblank]
    · rw [if_neg hblank]
      have hcell : (if (j : Int) ≤ (rowData.length : Int) - 1 then rowData[j]? else some "")
          = some ((rowData[j]?).getD "") := by
        split
        · rename_i h
          have hlt : j < rowData.length := by omega
          rw [List.getElem?_eq_getElem hlt]
          rfl
        · rename_i h
          have hge : rowData.length ≤ j := by omega
          rw [List.getElem?_eq_none hge]
          rfl
      simp only [hcell]
      rw [ih (j + 1) _ (by omega)]
      simp [List.filter, hblank]

theorem parseRowData_field_isSome (header : List String) (ParseFloat : String → Nat)
    (rowData : List String) (rowDataCount maxColumnNum i : Nat) (kind : Kind) (data : String) :
    ∃ v m, parseRowData.field header ParseFloat rowData rowDataCount maxColumnNum i kind data
        = some (v, m)
      ∧ (parseRowData.field header ParseFloat rowData rowDataCount 0 i kind data).map Prod.fst
        = some v := by
  cases kind with
  | Struct isExtraColumn =>
    cases isExtraColumn with
    | false => exact ⟨_, _, rfl, rfl⟩
    | true =>
      simp only [parseRowData.field, parseRowData_extra_spec header rowData _ i _ rfl,
        Option.map_some']
      exact ⟨_, _, rfl, rfl⟩
  | _ => exact ⟨_, _, rfl, rfl⟩

theorem parseRowData_loop_spec (ts : transferStruct) (header : List String)
    (ParseFloat : String → Nat) (rowData : List String) (rowDataCount : Nat)
    (hrow : ts.fieldNum ≤ rowData.length) (k i : Nat) (acc : List FieldValue × Nat)
    (hk : ts.fieldNum ≤ i + k) (hlen : acc.1.length = ts.fieldNum) :
    ∃ iRowData m,
      parseRowData.loop ts header ParseFloat rowData rowDataCount k i acc = some (iRowData, m)
        ∧ iRowData.length = ts.fieldNum
        ∧ (∀ t, t < i → iRowData[t]? = acc.1[t]?)
        ∧ ∀ t kind cell, i ≤ t → ts.fields[t]? = some kind → rowData[t]? = some cell →
            iRowData[t]?
              = (parseRowData.field header ParseFloat rowData rowDataCount 0 t kind
                  (TrimSpace cell)).map Prod.fst := by
  induction k generalizing i acc with
  | zero =>
    refine ⟨acc.1, acc.2, rfl, hlen, fun _ _ => rfl, ?_⟩
    intro t kind cell hit hkind _
    have : t < ts.fieldNum := (List.getElem?_eq_some.mp hkind).1
    omega
  | succ k ih =>
    rw [parseRowData.loop]
    by_cases hend : i + 1 > ts.fieldNum
    · rw [if_pos hend]
      refine ⟨acc.1, acc.2, rfl, hlen, fun _ _ => rfl, ?_⟩
      intro t kind cell hit hkind _
      have : t < ts.fieldNum := (List.getElem?_eq_some.mp hkind).1
      omega
    · rw [if_neg hend]
      have hi : i < ts.fieldNum := by omega
      have hi1 : i < rowData.length := by omega
      have hi2 : i < ts.fields.length := hi
      rw [List.getElem?_eq_getElem hi1, List.getElem?_eq_getElem hi2]
      simp only
      obtain ⟨v, m, hv, hv0⟩ := parseRowData_field_isSome header ParseFloat rowData rowDataCount
        acc.2 i ts.fields[i] (TrimSpace rowData[i])
      rw [hv]
      simp only
      obtain ⟨rec, m', hrec, hreclen, hbefore, hafter⟩ := ih (i + 1) (acc.1.set i v, m)
        (by omega) (by simp [hlen])
      refine ⟨rec, m', hrec, hreclen, ?_, ?_⟩
      · intro t ht
        rw [hbefore t (by omega)]
        simp only
        rw [List.getElem?_set_ne (by omega)]
      · intro t kind cell hit hkind hcell
        by_cases hti : t = i
        · subst hti
          rw [hbefore t (by omega)]
          simp only
          rw [List.getElem?_set_self (by omega)]
          rw [List.getElem?_eq_getElem hi2] at hkind
          rw [List.getElem?_eq_getElem hi1] at hcell
          injection hkind with hkind
          injection hcell with hcell
          rw [← hkind, ← hcell, hv0]
        · exact hafter t kind cell (by omega) hkind hcell

/-- The row decoder returns, and the field `t` of the record holds what the
`switch` gives for the trimmed cell `t` of the row, an empty cell when the
row is shorter. -/
theorem parseRowData_spec (ts : transferStruct) (header : List String)
    (ParseFloat : String → Nat) (maxColumnNum : Nat) (rowData : List String) :
    ∃ iRowData m, parseRowData ts header ParseFloat maxColumnNum rowData = some (iRowData, m)
      ∧ iRowData.length = ts.fieldNum
      ∧ ∀ t kind, ts.fields[t]? = some kind →
          iRowData[t]?
            = (parseRowData.field header ParseFloat
                (if rowData.length < ts.fieldNum then
                  rowData ++ List.replicate (ts.fieldNum - rowData.length) "" else rowData)
                (if rowData.length < ts.fieldNum then ts.fieldNum else rowData.length) 0 t kind
                (TrimSpace ((rowData[t]?).getD ""))).map Prod.fst := by
  unfold parseRowData
  simp only
  have hpad : ts.fieldNum ≤ (if rowData.length < ts.fieldNum then
      rowData ++ List.replicate (ts.fieldNum - rowData.length) "" else rowData).length := by
    split
    · simp
      omega
    · omega
  obtain ⟨rec, m, hrec, hlen, _, hafter⟩ := parseRowData_loop_spec ts header ParseFloat _
    (if rowData.length < ts.fieldNum then ts.fieldNum else rowData.length) hpad
    (if rowData.length < ts.fieldNum then ts.fieldNum else rowData.length) 0
    (List.replicate ts.fieldNum FieldValue.untouched, maxColumnNum)
    (by split <;> omega) (by simp)
  refine ⟨rec, m, hrec, hlen, ?_⟩
  intro t kind hkind
  have ht : t < ts.fieldNum := (List.getElem?_eq_some.mp hkind).1
  have hcell : (if rowData.length < ts.fieldNum then
      rowData ++ List.replicate (ts.fieldNum - rowData.length) "" else rowData)[t]?
      = some ((rowData[t]?).getD "") := by
    split
    · by_cases htl : t < rowData.length
      · rw [List.getElem?_append_left htl, List.getElem?_eq_getElem htl]
        rfl
      · rw [List.getElem?_append_right (by omega), List.getElem?_eq_none (by omega : rowData.length ≤ t)]
        rw [List.getElem?_replicate]
        rw [if_pos (by omega)]
        rfl
    · have htl : t < rowData.length := by omega
      rw [List.getElem?_eq_getElem htl]
      rfl
  exact hafter t kind _ (by omega) hkind hcell

theorem getD_padded (rowData : List String) (n j : Nat) :
    ((rowData ++ List.replicate n "")[j]?).getD "" = (rowData[j]?).getD "" := by
  by_cases hj : j < rowData.length
  · rw [List.getElem?_append_left hj]
  · rw [List.getElem?_append_right (by omega), List.getElem?_eq_none (by omega : rowData.length ≤ j),
      List.getElem?_replicate]
    split <;> rfl

/-- C22: for a record type whose field `b` is an `ExtraColumn`, every header
row and every data row, the decoder returns a record whose field `b` holds
two lists of equal length, the number of header cells at the positions from
`b` on that are not blank; the labels are these header cells in column
order, and the values are the trimmed cells of the data row at the same
columns, the empty string where the data row is shorter. -/
theorem parseRowData_extra_column (ts : transferStruct) (header : List String)
    (ParseFloat : String → Nat) (maxColumnNum : Nat) (rowData : List String) (b : Nat)
    (hb : ts.fields[b]? = some (Kind.Struct true)) :
    ∃ iRowData m pData,
      parseRowData ts header ParseFloat maxColumnNum rowData = some (iRowData, m)
        ∧ iRowData[b]? = some (FieldValue.extra pData)
        ∧ pData.headerData.length = pData.data.length
        ∧ pData.data.length = ((header.drop b).filter (fun h => TrimSpace h ≠ "")).length
        ∧ pData.headerData = (header.drop b).filter (fun h => TrimSpace h ≠ "")
        ∧ pData.data
            = (((header.drop b).enumFrom b).filter (fun jh => TrimSpace jh.2 ≠ "")).map
                (fun jh => TrimSpace ((rowData[jh.1]?).getD "")) := by
  obtain ⟨rec, m, hrec, _, hfield⟩ := parseRowData_spec ts header ParseFloat maxColumnNum rowData
  have hlabels : ∀ (l : List String) (j : Nat),
      ((l.enumFrom j).filter (fun jh => TrimSpace jh.2 ≠ "")).map (fun jh => jh.2)
        = l.filter (fun h => TrimSpace h ≠ "") := by
    intro l
    induction l with
    | nil => intro j; rfl
    | cons h hs ih =>
      intro j
      have ih1 := ih (j + 1)
      simp only [ne_eq, decide_not] at ih1
      by_cases hblank : TrimSpace h = ""
      · simp [List.enumFrom_cons, List.filter, hblank, ih1]
      · simp [List.enumFrom_cons, List.filter, hblank, ih1]
  have hval := hfield b (Kind.Struct true) hb
  simp only [parseRowData.field, parseRowData_extra_spec header _ _ b _ rfl, Option.map_some',
    List.nil_append] at hval
  refine ⟨rec, m, _, hrec, hval, ?_, ?_, ?_, ?_⟩
  · simp
  · simp only [List.length_map]
    rw [← hlabels (header.drop b) b, List.length_map]
  · exact hlabels (header.drop b) b
  · split
    · apply List.map_congr_left
      intro jh _
      rw [getD_padded]
    · rfl

/-- C22 at a record type of an integer field, a string field and the extra
columns, with the header `id, name, x, (blank), y` and the data row
`7, n, 1, 2`: the labels are `x, y`, the values `1` and the empty string. -/
theorem parseRowData_extra_column_witness :
    ∃ iRowData m,
      parseRowData ⟨[Kind.Int, Kind.String, Kind.Struct true]⟩ ["id", "name", "x", " ", "y"]
          (fun _ => 0) 3 ["7", " n ", " 1 ", "2"] = some (iRowData, m)
        ∧ iRowData[2]? = some (FieldValue.extra ⟨["x", "y"], ["1", ""]⟩) := by
  obtain ⟨rec, m, pData, hrec, hfield, _, _, hl, hd⟩ :=
    parseRowData_extra_column ⟨[Kind.Int, Kind.String, Kind.Struct true]⟩
      ["id", "name", "x", " ", "y"] (fun _ => 0) 3 ["7", " n ", " 1 ", "2"] 2 rfl
  refine ⟨rec, m, hrec, ?_⟩
  rw [hfield]
  have h1 : pData.headerData = ["x", "y"] := hl.trans (by decide)
  have h2 : pData.data = ["1", ""] := hd.trans (by decide)
  cases pData
  simp only at h1 h2
  rw [h1, h2]

/-! ### Integer fields -/

theorem decimalFrom_ge (cs : List Char) (n : Nat) : n ≤ decimalFrom n cs := by
  induction cs generalizing n with
  | nil => exact Nat.le_refl _
  | cons c cs ih =>
    have h := ih (n * 10 + (c.toNat - 48))
    simp only [decimalFrom, List.foldl_cons] at h ⊢
    omega

theorem isDigit_le (c : Char) (h : isDigit c = true) : c.toNat - 48 ≤ 9 := by
  simp only [isDigit, Bool.and_eq_true, decide_eq_true_eq] at h
  omega

theorem ParseUint_loop_spec (pre rest : List Char) (n : Nat) (hn : n ≤ maxUint64)
    (hpre : ∀ c ∈ pre, isDigit c = true) (hrest : ∀ c, rest.head? = some c → isDigit c = false) :
    ParseUint.loop (pre ++ rest) n =
      if decimalFrom n pre > maxUint64 then (maxUint64, some NumError.ErrRange)
      else if rest = [] then (decimalFrom n pre, none)
      else (0, some NumError.ErrSyntax) := by
  induction pre generalizing n with
  | nil =>
    have h0 : ¬ decimalFrom n [] > maxUint64 := by
      simp only [decimalFrom, List.foldl_nil]
      omega
    rw [if_neg h0]
    cases rest with
    | nil => rfl
    | cons c cs =>
      have hc := hrest c rfl
      simp [ParseUint.loop, hc]
  | cons c pre ih =>
    have hc : isDigit c = true := hpre c (List.mem_cons_self _ _)
    have hd := isDigit_le c hc
    have hstep : decimalFrom n (c :: pre) = decimalFrom (n * 10 + (c.toNat - 48)) pre := rfl
    have hge := decimalFrom_ge pre (n * 10 + (c.toNat - 48))
    have hmax : maxUint64 = 18446744073709551615 := by decide
    rw [List.cons_append, ParseUint.loop, if_pos hc, hstep]
    simp only
    by_cases hcut : n ≥ maxUint64 / 10 + 1
    · rw [if_pos hcut, if_pos (by rw [hmax] at hcut ⊢; omega)]
    · rw [if_neg hcut]
      have hmul : (n * 10) % 2 ^ 64 = n * 10 := by
        rw [hmax] at hcut
        omega
      rw [hmul]
      by_cases hover : n * 10 + (c.toNat - 48) ≥ 2 ^ 64
      · have hcond : (n * 10 + (c.toNat - 48)) % 2 ^ 64 < n * 10
            ∨ (n * 10 + (c.toNat - 48)) % 2 ^ 64 > maxUint64 := by
          left
          omega
        rw [if_pos hcond, if_pos (by rw [hmax]; omega)]
      · have hmod : (n * 10 + (c.toNat - 48)) % 2 ^ 64 = n * 10 + (c.toNat - 48) := by omega
        have hcond : ¬ ((n * 10 + (c.toNat - 48)) % 2 ^ 64 < n * 10
            ∨ (n * 10 + (c.toNat - 48)) % 2 ^ 64 > maxUint64) := by
          rw [hmod, hmax]
          omega
        rw [if_neg hcond, hmod]
        exact ih _ (by rw [hmax]; omega) (fun x hx => hpre x (List.mem_cons_of_mem _ hx))

theorem isNumber_iff (cs : List Char) :
    isNumber cs = true ↔ cs ≠ [] ∧ leadingDigits cs = cs := by
  unfold isNumber leadingDigits
  rw [List.takeWhile_eq_self_iff]
  cases cs with
  | nil => simp
  | cons c cs => simp

/-- The value and the error of `ParseUint` by the leading digits of the
text. -/
theorem ParseUint_eq (cs : List Char) :
    ParseUint (String.mk cs) =
      if decimal (leadingDigits cs) > maxUint64 then (maxUint64, some NumError.ErrRange)
      else if isNumber cs = true then (decimal cs, none)
      else (0, some NumError.ErrSyntax) := by
  unfold ParseUint
  by_cases hcs : cs = []
  · subst hcs
    have h0 : ¬ decimal (leadingDigits []) > maxUint64 := by decide
    rw [if_neg h0]
    rfl
  · have hne : ¬ String.mk cs = "" := by
      intro h
      apply hcs
      have := congrArg String.data h
      simpa using this
    rw [if_neg hne]
    have hsplit : cs = leadingDigits cs ++ cs.dropWhile isDigit :=
      (List.takeWhile_append_dropWhile isDigit cs).symm
    have hloop := ParseUint_loop_spec (leadingDigits cs) (cs.dropWhile isDigit) 0
      (by decide) (fun c hc => List.mem_takeWhile_imp hc) (by
        intro c hc
        have := List.head?_dropWhile_not isDigit cs
        rw [hc] at this
        exact this)
    rw [← hsplit] at hloop
    simp only
    rw [hloop]
    unfold decimal
    by_cases hover : decimalFrom 0 (leadingDigits cs) > maxUint64
    · rw [if_pos hover, if_pos hover]
    · rw [if_neg hover, if_neg hover]
      by_cases hnum : isNumber cs = true
      · have hl := ((isNumber_iff cs).mp hnum).2
        have hdrop : cs.dropWhile isDigit = [] := by
          have := hsplit
          rw [hl] at this
          simpa using this
        rw [if_pos hdrop, if_pos hnum, hl]
      · have hdrop : ¬ cs.dropWhile isDigit = [] := by
          intro h
          apply hnum
          rw [isNumber_iff]
          refine ⟨hcs, ?_⟩
          have := hsplit
          rw [h, List.append_nil] at this
          exact this.symm
        rw [if_neg hdrop, if_neg hnum]

/-- The value of `ParseInt` by the sign and the leading digits after it. -/
theorem ParseInt_value (cs : List Char) :
    (ParseInt (String.mk cs)).1 =
      if isNumber (afterSign cs) = true ∨ decimal (leadingDigits (afterSign cs)) > maxUint64 then
        if isNegative cs = true then
          max (-(decimal (leadingDigits (afterSign cs)) : Int)) (-(2 ^ 63))
        else min (decimal (leadingDigits (afterSign cs)) : Int) (2 ^ 63 - 1)
      else 0 := by
  unfold ParseInt
  cases cs with
  | nil => decide
  | cons c cs =>
    have hrest : (if c = '+' ∨ c = '-' then cs else c :: cs) = afterSign (c :: cs) := rfl
    have hneg : (decide (c = '-')) = isNegative (c :: cs) := rfl
    simp only [hrest, hneg, ParseUint_eq]
    generalize afterSign (c :: cs) = rest
    generalize isNegative (c :: cs) = neg
    have hmax : maxUint64 = 18446744073709551615 := by decide
    by_cases hover : decimal (leadingDigits rest) > maxUint64
    · simp only [if_pos hover, if_pos (Or.inr hover : isNumber rest = true ∨ _)]
      rw [if_neg (by simp)]
      rw [hmax] at hover
      cases neg with
      | true =>
        simp only [Bool.not_true, Bool.false_eq_true, false_and, if_false, true_and, hmax]
        rw [if_pos (by omega)]
        simp only [if_true]
        omega
      | false =>
        simp only [Bool.not_false, true_and, hmax]
        rw [if_pos (by omega)]
        simp only [Bool.false_eq_true, if_false]
        omega
    · simp only [if_neg hover]
      by_cases hnum : isNumber rest = true
      · have hl : leadingDigits rest = rest := ((isNumber_iff rest).mp hnum).2
        simp only [if_pos hnum, if_pos (Or.inl hnum : _ ∨ decimal (leadingDigits rest) > maxUint64)]
        rw [if_neg (by simp)]
        rw [hl] at hover ⊢
        rw [hmax] at hover
        cases neg with
        | true =>
          simp only [Bool.not_true, Bool.false_eq_true, false_and, if_false, true_and, if_true]
          by_cases hbig : decimal rest > 2 ^ 63
          · rw [if_pos hbig]
            simp only
            omega
          · rw [if_neg hbig]
            simp only [toInt64]
            omega
        | false =>
          simp only [Bool.not_false, true_and, Bool.false_eq_true, if_false]
          by_cases hbig : decimal rest ≥ 2 ^ 63
          · rw [if_pos hbig]
            simp only
            omega
          · rw [if_neg hbig]
            simp only [toInt64, false_and, if_false]
            omega
      · simp only [if_neg hnum, if_true]
        rw [if_neg (by
          intro h
          rcases h with h | h
          · exact hnum h
          · exact hover h)]

theorem SetInt_of_range (w : Nat) (hw : 0 < w) (v : Int) (h1 : -(2 ^ (w - 1)) ≤ v)
    (h2 : v < 2 ^ (w - 1)) : SetInt w v = v := by
  unfold SetInt
  have hpow : (2 : Int) ^ w = 2 ^ (w - 1) * 2 := by
    rw [← pow_succ]
    congr 1
    omega
  have hlt : v + 2 ^ (w - 1) < 2 ^ w := by
    rw [hpow]
    omega
  rw [Int.emod_eq_of_lt (by omega) hlt]
  omega

theorem SetUint_of_range (w v : Nat) (h : v < 2 ^ w) : SetUint w v = v :=
  Nat.mod_eq_of_lt h

theorem intBits_pos (kind : Kind) (w : Nat) (h : intBits kind = some w) : 0 < w := by
  cases kind <;> simp [intBits] at h <;> omega

theorem intBits_le (kind : Kind) (w : Nat) (h : intBits kind = some w) :
    (2 : Int) ^ (w - 1) ≤ 2 ^ 63 := by
  cases kind <;> simp [intBits] at h <;> subst h <;> norm_num

theorem parseRowData_field_int (header : List String) (ParseFloat : String → Nat)
    (rowData : List String) (rowDataCount maxColumnNum i : Nat) (kind : Kind) (data : String)
    (w : Nat) (h : intBits kind = some w) :
    parseRowData.field header ParseFloat rowData rowDataCount maxColumnNum i kind data
      = some (FieldValue.int (SetInt w (ParseInt data).1), maxColumnNum) := by
  cases kind <;> simp [intBits] at h <;> subst h <;> rfl

theorem parseRowData_field_uint (header : List String) (ParseFloat : String → Nat)
    (rowData : List String) (rowDataCount maxColumnNum i : Nat) (kind : Kind) (data : String)
    (w : Nat) (h : uintBits kind = some w) :
    parseRowData.field header ParseFloat rowData rowDataCount maxColumnNum i kind data
      = some (FieldValue.uint (SetUint w (ParseUint data).1), maxColumnNum) := by
  cases kind <;> simp [uintBits] at h <;> subst h <;> rfl

/-- C21, as stated, fails: a number beyond the 64 bits decodes to the
largest 64-bit number, also when a character that is no digit follows its
digits, and a number beyond a field of 8 bits decodes to its low 8 bits;
none decodes to 0. -/
theorem parseRowData_integer_counterexample :
    parseRowData ⟨[Kind.Int64]⟩ [] (fun _ => 0) 1 ["99999999999999999999"]
        = some ([FieldValue.int 9223372036854775807], 1)
      ∧ parseRowData ⟨[Kind.Uint64]⟩ [] (fun _ => 0) 1 ["99999999999999999999x"]
        = some ([FieldValue.uint 18446744073709551615], 1)
      ∧ parseRowData ⟨[Kind.Int8]⟩ [] (fun _ => 0) 1 ["300"] = some ([FieldValue.int 44], 1)
      ∧ parseRowData ⟨[Kind.Uint8]⟩ [] (fun _ => 0) 1 [" 300 "] = some ([FieldValue.uint 44], 1) := by
  decide

/-- C21, amended: the decoder returns for every record type and every row.
A signed integer field of `w` bits holds the low `w` bits of the value of
`ParseInt` on the trimmed cell; that value is 0 unless the text after an
optional sign is a well-formed number or its leading digits go beyond the 64
bits, and then it is the signed number of the leading digits, kept within the
64-bit range by its nearest bound. So a well-formed number that the type of
the field can hold decodes to itself, and a text that is not well-formed
decodes to 0 when its leading digits are within the 64 bits. The same holds
for an unsigned field, with `ParseUint`, no sign and the largest 64-bit
number as the bound. -/
theorem parseRowData_integer (ts : transferStruct) (header : List String)
    (ParseFloat : String → Nat) (maxColumnNum : Nat) (rowData : List String) (i : Nat)
    (kind : Kind) (hk : ts.fields[i]? = some kind) :
    ∃ iRowData m, parseRowData ts header ParseFloat maxColumnNum rowData = some (iRowData, m)
      ∧ (∀ w, intBits kind = some w →
          iRowData[i]? = some (FieldValue.int (SetInt w (ParseInt (trimmedCell rowData i)).1))
            ∧ (ParseInt (trimmedCell rowData i)).1 =
                (if isNumber (afterSign (trimmedCell rowData i).data) = true
                    ∨ decimal (leadingDigits (afterSign (trimmedCell rowData i).data))
                        > maxUint64 then
                  if isNegative (trimmedCell rowData i).data = true then
                    max (-(decimal (leadingDigits (afterSign (trimmedCell rowData i).data)) : Int))
                      (-(2 ^ 63))
                  else
                    min (decimal (leadingDigits (afterSign (trimmedCell rowData i).data)) : Int)
                      (2 ^ 63 - 1)
                else 0)
            ∧ (∀ v : Int, isNumber (afterSign (trimmedCell rowData i).data) = true →
                v = (if isNegative (trimmedCell rowData i).data = true then
                      -(decimal (afterSign (trimmedCell rowData i).data) : Int)
                    else (decimal (afterSign (trimmedCell rowData i).data) : Int)) →
                -(2 ^ (w - 1)) ≤ v → v < 2 ^ (w - 1) →
                iRowData[i]? = some (FieldValue.int v))
            ∧ (isNumber (afterSign (trimmedCell rowData i).data) = false →
                decimal (leadingDigits (afterSign (trimmedCell rowData i).data)) ≤ maxUint64 →
                iRowData[i]? = some (FieldValue.int 0)))
      ∧ (∀ w, uintBits kind = some w →
          iRowData[i]? = some (FieldValue.uint (SetUint w (ParseUint (trimmedCell rowData i)).1))
            ∧ (ParseUint (trimmedCell rowData i)).1 =
                (if decimal (leadingDigits (trimmedCell rowData i).data) > maxUint64 then
                  maxUint64
                else if isNumber (trimmedCell rowData i).data = true then
                  decimal (trimmedCell rowData i).data
                else 0)
            ∧ (isNumber (trimmedCell rowData i).data = true →
                decimal (trimmedCell rowData i).data < 2 ^ w →
                iRowData[i]? = some (FieldValue.uint (decimal (trimmedCell rowData i).data)))
            ∧ (isNumber (trimmedCell rowData i).data = false →
                decimal (leadingDigits (trimmedCell rowData i).data) ≤ maxUint64 →
                iRowData[i]? = some (FieldValue.uint 0))) := by
  obtain ⟨rec, m, hrec, _, hfield⟩ := parseRowData_spec ts header ParseFloat maxColumnNum rowData
  have hval := hfield i kind hk
  have hmk : String.mk (trimmedCell rowData i).data = trimmedCell rowData i := rfl
  refine ⟨rec, m, hrec, ?_, ?_⟩
  · intro w hw
    have hpos := intBits_pos kind w hw
    have hle := intBits_le kind w hw
    rw [parseRowData_field_int _ _ _ _ _ _ _ _ w hw] at hval
    have hpi := ParseInt_value (trimmedCell rowData i).data
    rw [hmk] at hpi
    have hrec' : rec[i]? = some (FieldValue.int (SetInt w (ParseInt (trimmedCell rowData i)).1)) :=
      hval
    refine ⟨hrec', hpi, ?_, ?_⟩
    · intro v hnum hv h1 h2
      rw [hrec', hpi, if_pos (Or.inl hnum), ((isNumber_iff _).mp hnum).2]
      have hclamp : (if isNegative (trimmedCell rowData i).data = true then
            max (-(decimal (afterSign (trimmedCell rowData i).data) : Int)) (-(2 ^ 63))
          else min (decimal (afterSign (trimmedCell rowData i).data) : Int) (2 ^ 63 - 1)) = v := by
        rw [hv]
        rw [hv] at h1 h2
        split
        · rename_i hn
          rw [if_pos hn] at h1 h2
          omega
        · rename_i hn
          rw [if_neg hn] at h1 h2
          omega
      rw [hclamp, SetInt_of_range w hpos v h1 h2]
    · intro hnum hwithin
      rw [hrec', hpi, if_neg (by
        intro h
        rcases h with h | h
        · rw [hnum] at h
          exact absurd h (by decide)
        · omega)]
      have hp : (0 : Int) < 2 ^ (w - 1) := by positivity
      have : SetInt w 0 = 0 := SetInt_of_range w hpos 0 (by linarith) hp
      rw [this]
  · intro w hw
    rw [parseRowData_field_uint _ _ _ _ _ _ _ _ w hw] at hval
    have hpu := ParseUint_eq (trimmedCell rowData i).data
    rw [hmk] at hpu
    have hrec' : rec[i]?
        = some (FieldValue.uint (SetUint w (ParseUint (trimmedCell rowData i)).1)) := hval
    have hvalue : (ParseUint (trimmedCell rowData i)).1 =
        (if decimal (leadingDigits (trimmedCell rowData i).data) > maxUint64 then maxUint64
        else if isNumber (trimmedCell rowData i).data = true then
          decimal (trimmedCell rowData i).data
        else 0) := by
      rw [hpu]
      split
      · rfl
      · split <;> rfl
    refine ⟨hrec', hvalue, ?_, ?_⟩
    · intro hnum hlt
      have hw64 : w ≤ 64 := by
        cases kind <;> simp [uintBits] at hw <;> omega
      have hpow : 2 ^ w ≤ 2 ^ 64 := Nat.pow_le_pow_right (by decide) hw64
      have hmax : maxUint64 = 2 ^ 64 - 1 := rfl
      rw [hrec', hvalue, ((isNumber_iff _).mp hnum).2, if_neg (by omega), if_pos hnum,
        SetUint_of_range w _ hlt]
    · intro hnum hwithin
      rw [hrec', hvalue, if_neg (by omega), if_neg (by rw [hnum]; decide)]
      rfl

/-- C21, amended, at a record type of a field of kind `int8` and a field of
kind `uint16`: the cell ` -12 ` decodes to -12 and the cell `x1` to 0. -/
theorem parseRowData_integer_witness :
    ∃ iRowData m,
      parseRowData ⟨[Kind.Int8, Kind.Uint16]⟩ [] (fun _ => 0) 2 [" -12 ", "x1"]
          = some (iRowData, m)
        ∧ iRowData[0]? = some (FieldValue.int (-12)) := by
  obtain ⟨rec, m, hrec, hint, _⟩ :=
    parseRowData_integer ⟨[Kind.Int8, Kind.Uint16]⟩ [] (fun _ => 0) 2 [" -12 ", "x1"] 0
      Kind.Int8 rfl
  exact ⟨rec, m, hrec, (hint 8 rfl).2.2.1 (-12) (by decide) (by decide) (by decide) (by decide)⟩

/-! ### `SetUniqueColumn` -/

theorem SetUniqueColumn_loop_spec (fieldNum : Int) (xs : List Int) (prev : Option Int)
    (acc : List Nat) (hsorted : xs.Sorted (fun a b => a ≤ b))
    (hprev : ∀ y, prev = some y → 0 ≤ y ∧ y < fieldNum ∧ (∀ x ∈ xs, y ≤ x)
      ∧ y ∈ acc.map Int.ofNat ∧ ∀ a ∈ acc, (a : Int) ≤ y)
    (hnone : prev = none → acc = [])
    (hacc : acc.Sorted (fun a b => a < b)) :
    ((SetUniqueColumn.loop fieldNum xs prev acc).1 ≠ none ↔ ∃ x ∈ xs, x < 0 ∨ fieldNum ≤ x)
      ∧ ((SetUniqueColumn.loop fieldNum xs prev acc).1 = none →
          (SetUniqueColumn.loop fieldNum xs prev acc).2.Sorted (fun a b => a < b)
            ∧ ∀ z : Int, z ∈ (SetUniqueColumn.loop fieldNum xs prev acc).2.map Int.ofNat ↔
                z ∈ acc.map Int.ofNat ∨ z ∈ xs) := by
  induction xs generalizing prev acc with
  | nil => simp [SetUniqueColumn.loop, hacc]
  | cons x xs ih =>
    have hxs : xs.Sorted (fun a b => a ≤ b) := hsorted.of_cons
    have hle : ∀ z ∈ xs, x ≤ z := fun z hz => List.rel_of_sorted_cons hsorted z hz
    unfold SetUniqueColumn.loop
    by_cases hp : prev = some x
    · rw [if_pos hp]
      obtain ⟨h0, hf, _, hmem, hmax⟩ := hprev x hp
      obtain ⟨ih1, ih2⟩ := ih (some x) acc hxs
        (fun y hy => by
          injection hy with hy
          subst hy
          exact ⟨h0, hf, hle, hmem, hmax⟩)
        (by simp) hacc
      refine ⟨?_, ?_⟩
      · rw [ih1]
        constructor
        · rintro ⟨z, hz, hbad⟩
          exact ⟨z, List.mem_cons_of_mem _ hz, hbad⟩
        · rintro ⟨z, hz, hbad⟩
          rcases List.mem_cons.mp hz with rfl | hz
          · omega
          · exact ⟨z, hz, hbad⟩
      · intro herr
        obtain ⟨hs, hm⟩ := ih2 herr
        refine ⟨hs, ?_⟩
        intro z
        rw [hm z]
        constructor
        · rintro (h | h)
          · exact Or.inl h
          · exact Or.inr (List.mem_cons_of_mem _ h)
        · rintro (h | h)
          · exact Or.inl h
          · rcases List.mem_cons.mp h with rfl | h
            · exact Or.inl hmem
            · exact Or.inr h
    · rw [if_neg hp]
      by_cases hneg : x < 0
      · rw [if_pos hneg]
        exact ⟨⟨fun _ => ⟨x, List.mem_cons_self _ _, Or.inl hneg⟩, fun _ => by simp⟩,
          fun h => absurd h (by simp)⟩
      · rw [if_neg hneg]
        by_cases hbig : x ≥ fieldNum
        · rw [if_pos hbig]
          exact ⟨⟨fun _ => ⟨x, List.mem_cons_self _ _, Or.inr hbig⟩, fun _ => by simp⟩,
            fun h => absurd h (by simp)⟩
        · rw [if_neg hbig]
          have hxnat : ((x.toNat : Nat) : Int) = x := Int.toNat_of_nonneg (by omega)
          have hlt : ∀ a ∈ acc, a < x.toNat := by
            intro a ha
            cases hprev' : prev with
            | none =>
              rw [hnone hprev'] at ha
              simp at ha
            | some y =>
              obtain ⟨_, _, hyx, _, hmax⟩ := hprev y hprev'
              have h1 := hmax a ha
              have h2 := hyx x (List.mem_cons_self _ _)
              have h3 : y ≠ x := fun e => hp (by rw [hprev', e])
              omega
          obtain ⟨ih1, ih2⟩ := ih (some x) (acc ++ [x.toNat]) hxs
            (fun y hy => by
              injection hy with hy
              subst hy
              refine ⟨by omega, by omega, hle, ?_, ?_⟩
              · exact List.mem_map.mpr ⟨x.toNat, by simp, hxnat⟩
              · intro a ha
                rcases List.mem_append.mp ha with ha | ha
                · have := hlt a ha
                  omega
                · simp only [List.mem_singleton] at ha
                  omega)
            (by simp)
            (by
              unfold List.Sorted
              rw [List.pairwise_append]
              exact ⟨hacc, List.pairwise_singleton _ _, fun a ha b hb => by
                simp only [List.mem_singleton] at hb
                rw [hb]
                exact hlt a ha⟩)
          refine ⟨?_, ?_⟩
          · rw [ih1]
            constructor
            · rintro ⟨z, hz, hbad⟩
              exact ⟨z, List.mem_cons_of_mem _ hz, hbad⟩
            · rintro ⟨z, hz, hbad⟩
              rcases List.mem_cons.mp hz with rfl | hz
              · omega
              · exact ⟨z, hz, hbad⟩
          · intro herr
            obtain ⟨hs, hm⟩ := ih2 herr
            refine ⟨hs, ?_⟩
            intro z
            rw [hm z]
            have hsplit : z ∈ (acc ++ [x.toNat]).map Int.ofNat ↔
                z ∈ acc.map Int.ofNat ∨ z = x := by
              rw [List.map_append, List.mem_append]
              constructor
              · rintro (h | h)
                · exact Or.inl h
                · obtain ⟨a, ha, haz⟩ := List.mem_map.mp h
                  simp only [List.mem_singleton] at ha
                  rw [← haz, ha]
                  exact Or.inr hxnat
              · rintro (h | h)
                · exact Or.inl h
                · exact Or.inr (List.mem_map.mpr ⟨x.toNat, by simp, by rw [h]; exact hxnat⟩)
            rw [hsplit, List.mem_cons]
            tauto

/-- C23: `SetUniqueColumn` on an empty list returns no error and leaves the
scheduler as it is; on a list that is not empty it returns an error exactly
when some index is negative or at least the number of fields; when it returns
no error the indexes stored are strictly increasing and are the values of the
list; when it returns an error the group table, the stored indexes with it,
is left as it was. -/
theorem SetUniqueColumn_spec {δ : Type} (fieldNum : Nat) (p : taskScheduler δ)
    (idxes : List Int) :
    (idxes = [] → SetUniqueColumn fieldNum p idxes = (none, p))
      ∧ (idxes ≠ [] →
          ((SetUniqueColumn fieldNum p idxes).1 ≠ none ↔
            ∃ x ∈ idxes, x < 0 ∨ (fieldNum : Int) ≤ x))
      ∧ (idxes ≠ [] → (SetUniqueColumn fieldNum p idxes).1 = none →
          (SetUniqueColumn fieldNum p idxes).2.groupRows.indexes.Sorted (fun a b => a < b)
            ∧ ∀ z : Int,
                z ∈ (SetUniqueColumn fieldNum p idxes).2.groupRows.indexes.map Int.ofNat ↔
                  z ∈ idxes)
      ∧ ((SetUniqueColumn fieldNum p idxes).1 ≠ none →
          (SetUniqueColumn fieldNum p idxes).2.groupRows = p.groupRows) := by
  have hmemsort : ∀ z : Int, z ∈ idxes.insertionSort (fun a b => a ≤ b) ↔ z ∈ idxes :=
    fun z => (List.perm_insertionSort (fun a b => a ≤ b) idxes).mem_iff
  obtain ⟨l1, l2⟩ := SetUniqueColumn_loop_spec (fieldNum : Int)
    (idxes.insertionSort (fun a b => a ≤ b)) none []
    (List.sorted_insertionSort (fun a b => a ≤ b) idxes) (by simp) (by simp)
    List.sorted_nil
  refine ⟨?_, ?_, ?_, ?_⟩
  · intro h
    simp [SetUniqueColumn, h]
  · intro h
    have hlen : ¬ idxes.length = 0 := fun e => h (List.length_eq_zero.mp e)
    unfold SetUniqueColumn
    rw [if_neg hlen]
    simp only
    have key : (SetUniqueColumn.loop (fieldNum : Int)
        (idxes.insertionSort (fun a b => a ≤ b)) none []).1 ≠ none ↔
        ∃ x ∈ idxes, x < 0 ∨ (fieldNum : Int) ≤ x := by
      rw [l1]
      constructor
      · rintro ⟨x, hx, hb⟩
        exact ⟨x, (hmemsort x).mp hx, hb⟩
      · rintro ⟨x, hx, hb⟩
        exact ⟨x, (hmemsort x).mpr hx, hb⟩
    rw [← key]
    split <;> rename_i heq <;> simp [heq]
  · intro h
    have hlen : ¬ idxes.length = 0 := fun e => h (List.length_eq_zero.mp e)
    unfold SetUniqueColumn
    rw [if_neg hlen]
    simp only
    split
    · intro herr
      simp at herr
    · rename_i indexes heq
      intro _
      have h1 : (SetUniqueColumn.loop (fieldNum : Int)
          (idxes.insertionSort (fun a b => a ≤ b)) none []).1 = none := by rw [heq]
      obtain ⟨hs, hm⟩ := l2 h1
      rw [heq] at hs hm
      simp only at hs hm
      refine ⟨hs, ?_⟩
      intro z
      rw [hm z]
      simp [hmemsort]
  · unfold SetUniqueColumn
    split
    · intro herr
      simp at herr
    · simp only
      split
      · intro _
        rfl
      · intro herr
        simp at herr

/-- C23 at a record type of three fields: the indexes 2, 0, 2 are stored as
0, 2; the index 3 is refused and the index 7 stored before stays. -/
theorem SetUniqueColumn_spec_witness :
    (SetUniqueColumn 3 (rawScheduler [] 1 [] "") [2, 0, 2]).1 = none
      ∧ (SetUniqueColumn 3 (rawScheduler [] 1 [] "") [2, 0, 2]).2.groupRows.indexes = [0, 2]
      ∧ (SetUniqueColumn 3 (rawScheduler [] 1 [7] "") [2, 3]).1 ≠ none
      ∧ (SetUniqueColumn 3 (rawScheduler [] 1 [7] "") [2, 3]).2.groupRows.indexes = [7] :=
  ⟨by decide, by decide, by decide,
    by rw [(SetUniqueColumn_spec 3 (rawScheduler [] 1 [7] "") [2, 3]).2.2.2 (by decide)]; rfl⟩

/-! ### The combined message of a row -/

theorem Errors_ToErrMessages_loop_spec (p pre es : List String) (seen acc : List String)
    (hp : p = pre ++ es) (hseen : ∀ m, m ∈ seen ↔ m ∈ acc) (hacc : ∀ m, m ∈ acc ↔ m ∈ pre)
    (hord : acc.Pairwise (fun m n => p.indexOf m < p.indexOf n)) :
    (∀ m, m ∈ Errors.ToErrMessages.loop es seen acc ↔ m ∈ p)
      ∧ (Errors.ToErrMessages.loop es seen acc).Pairwise
          (fun m n => p.indexOf m < p.indexOf n) := by
  induction es generalizing pre seen acc with
  | nil =>
    simp only [Errors.ToErrMessages.loop]
    rw [hp, List.append_nil]
    exact ⟨hacc, by rw [hp, List.append_nil] at hord; exact hord⟩
  | cons e es ih =>
    have hp' : p = (pre ++ [e]) ++ es := by rw [hp]; simp
    unfold Errors.ToErrMessages.loop
    by_cases he : e ∈ seen
    · rw [if_pos he]
      refine ih (pre ++ [e]) seen acc hp' hseen ?_ hord
      intro m
      rw [hacc m, List.mem_append, List.mem_singleton]
      constructor
      · exact Or.inl
      · rintro (h | h)
        · exact h
        · rw [h]
          exact (hacc e).mp ((hseen e).mp he)
    · rw [if_neg he]
      have hnot : e ∉ pre := fun h => he ((hseen e).mpr ((hacc e).mpr h))
      have hidx : p.indexOf e = pre.length := by
        rw [hp, List.indexOf_append_of_not_mem hnot, List.indexOf_cons_self]
        rfl
      refine ih (pre ++ [e]) (e :: seen) (acc ++ [e]) hp' ?_ ?_ ?_
      · intro m
        rw [List.mem_cons, List.mem_append, List.mem_singleton, hseen m]
        tauto
      · intro m
        rw [List.mem_append, List.mem_append, List.mem_singleton, hacc m]
      · rw [List.pairwise_append]
        refine ⟨hord, List.pairwise_singleton _ _, ?_⟩
        intro a ha b hb
        rw [List.mem_singleton] at hb
        rw [hb, hidx]
        have hapre : a ∈ pre := (hacc a).mp ha
        rw [hp, List.indexOf_append_of_mem hapre]
        exact List.indexOf_lt_length.mpr hapre

theorem Run_report_any_row {δ : Type} (errorWriteBackMode : String) (rs : rows δ)
    (herr : rows.IsErr rs = true) (hany : errorWriteBackModeIsAny errorWriteBackMode = true) :
    Run.report errorWriteBackMode rs
      = rs.map (fun x => { rowIndex := row.GetFormIndex x,
                           err := Errors.PrintError (row.GetErrs x) }) := by
  unfold Run.report
  rw [if_pos herr]
  induction rs with
  | nil => rfl
  | cons x xs ih =>
    have hx : (if (row.GetErrs x).length > 0 then Errors.PrintError (row.GetErrs x) else none)
        = Errors.PrintError (row.GetErrs x) := by
      split
      · rfl
      · rename_i h
        unfold Errors.PrintError
        rw [if_pos (by omega)]
    simp only [List.filterMap_cons, List.map_cons, hany, Bool.true_or, if_true, hx]
    congr 1
    clear ih herr
    induction xs with
    | nil => rfl
    | cons y ys ihy =>
      have hy : (if (row.GetErrs y).length > 0 then Errors.PrintError (row.GetErrs y) else none)
          = Errors.PrintError (row.GetErrs y) := by
        split
        · rfl
        · rename_i h
          unfold Errors.PrintError
          rw [if_pos (by omega)]
      simp only [List.filterMap_cons, List.map_cons, hany, Bool.true_or, if_true, hy]
      congr 1

/-- C24, as stated, fails: the combined message is the joined messages
trimmed of the white space around them, so the message text `a. ` of the last
failure loses its final blank, and a failure whose text is ` a` gives the
message `a`. -/
theorem Errors_PrintError_counterexample :
    (Errors.ToErrMessages ["a. ", "b. "] = ["a. ", "b. "]
        ∧ Join ["a. ", "b. "] "; " = "a. ; b. "
        ∧ Errors.PrintError ["a. ", "b. "] = some "a. ; b.")
      ∧ Errors.PrintError [" a"] = some "a" := by
  decide

/-- C24, amended: for every list of failures of a row, `ToErrMessages` holds
each message text of the list, ordered by first occurrence in the list (so
each once); `PrintError` is nil for the empty list and otherwise these texts
joined by `; `, the whole trimmed of the white space around it. A unit is
reported row by row, each row with the message of its own failures: the text
`bad` attached to two rows is in the message of both. -/
theorem Errors_PrintError_spec (p : Errors) :
    (∀ m, m ∈ Errors.ToErrMessages p ↔ m ∈ p)
      ∧ (Errors.ToErrMessages p).Pairwise (fun m n => p.indexOf m < p.indexOf n)
      ∧ (Errors.ToErrMessages p).Nodup
      ∧ Errors.PrintError p
          = (if p = [] then none else some (TrimSpace (Join (Errors.ToErrMessages p) "; ")))
      ∧ (∀ (δ : Type) (errorWriteBackMode : String) (rs : rows δ), rows.IsErr rs = true →
          errorWriteBackModeIsAny errorWriteBackMode = true →
          Run.report errorWriteBackMode rs
            = rs.map (fun x => { rowIndex := row.GetFormIndex x,
                                 err := Errors.PrintError (row.GetErrs x) }))
      ∧ Run.report ErrorWriteBackModeAssignRow
          (rows.SetRowsErrs (rows.Append (rows.Append (newRows String) "x" 1) "y" 2)
            [some "bad", some "bad"])
          = [{ rowIndex := 1, err := some "bad" }, { rowIndex := 2, err := some "bad" }] := by
  obtain ⟨h1, h2⟩ := Errors_ToErrMessages_loop_spec p [] p [] [] rfl (by simp) (by simp)
    List.Pairwise.nil
  refine ⟨h1, h2, ?_, ?_, ?_, by decide⟩
  · exact h2.imp (fun {a b} hab heq => by rw [heq] at hab; exact Nat.lt_irrefl _ hab)
  · unfold Errors.PrintError
    by_cases hp : p = []
    · simp [hp]
    · have : ¬ p.length = 0 := fun h => hp (List.length_eq_zero.mp h)
      rw [if_neg this, if_neg hp]
  · intro δ mode rs herr hany
    exact Run_report_any_row mode rs herr hany

/-! ### The example in the comment above `nodes()` -/

/-- C25: for the groups `a, b` (not repeating) and `c, d` (repeating), no
value marked repeating, the comment above `nodes()` gives `d` the next
indexes `[0, 3]`; `nodes()` yields the nodes `a, b, c, d` at the indexes 0 to
3 with the next indexes `[1]`, `[2]`, `[3]` and, for `d`, `[2, 0]`: first the
edge back to `c`, the first value of the repeating group, then the edge to
`a`, the first value of the next group, and no edge from `d` to itself. So
after `d` the rule walk accepts `c` and `a` and rejects a second `d`. -/
theorem nodes_comment_example :
    nodes twoGroups ≠ some [⟨"a", [1]⟩, ⟨"b", [2]⟩, ⟨"c", [3]⟩, ⟨"d", [0, 3]⟩]
      ∧ nodes twoGroups = some [⟨"a", [1]⟩, ⟨"b", [2]⟩, ⟨"c", [3]⟩, ⟨"d", [2, 0]⟩]
      ∧ validateRule twoGroups ["a", "b", "c", "d", "c", "d"] = some true
      ∧ validateRule twoGroups ["a", "b", "c", "d", "a", "b"] = some true
      ∧ validateRule twoGroups ["a", "b", "c", "d", "d"] = some false := by
  decide

/-! ### The scan on short rows and on a released slot -/

/-- C26: `SetUniqueColumn` accepts the unique columns 0 and 1 for a record
type of two fields, and the pre-scan then reads cell 1 of a data row of one
cell, an access outside the row; it accepts the unique column 1, and the scan
of two rows that hold `b` in column 1 then looks the second row up in the
slot the first row has released. In both cases `Run` does not return. -/
theorem Run_scan_not_safe :
    ((SetUniqueColumn 2 (rawScheduler [["h0", "h1"], ["a"]] 1 [] ErrorWriteBackModeAnyRow)
          [0, 1]).1 = none
        ∧ shortRow.groupRows.indexes = [0, 1]
        ∧ setUniqueColumnMapRowNum.key 2 ["a"] = none
        ∧ setUniqueColumnMapRowNum shortRow = none
        ∧ Run shortRow quietConsumer Library.ok = none)
      ∧ ((SetUniqueColumn 2
            (rawScheduler [["h0", "h1"], ["a", "b"], ["b", "b"]] 1 [] ErrorWriteBackModeAnyRow)
            [1]).1 = none
        ∧ releasedSlot.groupRows.indexes = [1]
        ∧ (setUniqueColumnMapRowNum releasedSlot).map (fun g => (g.keyMapIndex, g.rows))
            = some ([("a", 0), ("b", 1)],
                [some { rowsData := [], mergeNum := 1 }, some { rowsData := [], mergeNum := 1 }])
        ∧ (∀ g, setUniqueColumnMapRowNum releasedSlot = some g →
            getUniqueColumnIndex g ["a", "b"] = (1, true)
              ∧ getUniqueColumnIndex g ["b", "b"] = (1, true)
              ∧ (Run.loop releasedSlot.parseRowData g quietConsumer 1 [["a", "b"]]
                  { slots := g.rows, maxColumnNum := 2, emptyRowNum := 0,
                    errMessages := newErrorMessages, submitted := [] }).map (fun s => s.slots)
                = some [some { rowsData := [], mergeNum := 1 }, none])
        ∧ Run releasedSlot quietConsumer Library.ok = none) := by
  refine ⟨by decide, by decide, by decide, by decide, ?_, by decide⟩
  intro g hg
  have hg' : setUniqueColumnMapRowNum releasedSlot
      = some { rows := [some { rowsData := [], mergeNum := 1 }, some { rowsData := [], mergeNum := 1 }],
               keyMapIndex := [("a", 0), ("b", 1)], indexes := [1],
               errorWriteBackMode := ErrorWriteBackModeAnyRow } := by decide
  rw [hg'] at hg
  injection hg with hg
  subst hg
  decide

/-! ### `Validate` returns -/

theorem validateFixed_loop_isSome (tpl up : List String) (k i : Nat)
    (h1 : i + k ≤ up.length) (h2 : i + k ≤ tpl.length) :
    ∃ b, validateFixed.loop tpl up i k = some b := by
  induction k generalizing i with
  | zero => exact ⟨true, rfl⟩
  | succ k ih =>
    have hu : i < up.length := by omega
    have ht : i < tpl.length := by omega
    simp only [validateFixed.loop, List.getElem?_eq_getElem hu, List.getElem?_eq_getElem ht]
    split
    · exact ⟨false, rfl⟩
    · exact ih (i + 1) (by omega) (by omega)

theorem validateFixed_isSome (p : HeaderRuleValidate) (tpl up : List String)
    (hfix : 0 ≤ p.FixedColumnCount) (h1 : p.FixedColumnCount ≤ (up.length : Int))
    (h2 : p.FixedColumnCount ≤ (tpl.length : Int)) (hpos : 0 < up.length) :
    ∃ b, validateFixed p tpl up = some b := by
  unfold validateFixed
  split
  · split
    · exact ⟨false, rfl⟩
    · rw [List.getElem?_eq_getElem hpos]
      simp only
      split
      · exact ⟨false, rfl⟩
      · exact ⟨true, rfl⟩
  · exact validateFixed_loop_isSome tpl up _ 0 (by omega) (by omega)

theorem validateAllowedEndValue_isSome (p : HeaderRuleValidate) (up : List String)
    (hpos : 0 < up.length) : ∃ b, validateAllowedEndValue p up = some b := by
  have hcast : ((up.length : Int) - 1) = ((up.length - 1 : Nat) : Int) := by omega
  have hlt : up.length - 1 < up.length := by omega
  unfold validateAllowedEndValue
  rw [hcast, index_natCast, List.getElem?_eq_getElem hlt]
  exact ⟨_, rfl⟩

theorem validateRule_walk_isSome (ns : List headerRuleNode)
    (hrange : ∀ nd ∈ ns, ∀ k ∈ nd.nextIndex, k < ns.length)
    (cs : List String) (cur : Nat) (hcur : cur < ns.length) :
    ∃ b, validateRule.walk ns cur cs = some b := by
  induction cs generalizing cur with
  | nil => exact ⟨true, rfl⟩
  | cons c cs ih =>
    have hget : ns[cur]? = some ns[cur] := List.getElem?_eq_getElem hcur
    have hmem : ns[cur] ∈ ns := List.getElem_mem _
    rcases validateRule_next_spec ns c ns[cur].nextIndex (hrange _ hmem) with
      ⟨k, nk, h1, h2, _, _⟩ | ⟨h1, _⟩
    · obtain ⟨b, hb⟩ := ih k (hrange _ hmem k h2)
      exact ⟨b, by simp [validateRule.walk, hget, h1, hb]⟩
    · exact ⟨false, by simp [validateRule.walk, hget, h1]⟩

theorem nodes_isSome (p : HeaderRuleValidate) (hne : ∀ g ∈ p.RuleGroups, g.Values ≠ []) :
    ∃ ns, nodes p = some ns := by
  obtain ⟨s, hs⟩ := nodes_groups_isSome p hne p.RuleGroups 0
    { mapNodeIndex := [], mapNextNodes := [], res := [] }
  unfold nodes
  rw [hs]
  exact ⟨_, rfl⟩

theorem validateRule_isSome (p : HeaderRuleValidate) (hne : ∀ g ∈ p.RuleGroups, g.Values ≠ [])
    (up : List String) (hfix : 0 ≤ p.FixedColumnCount)
    (hlt : p.FixedColumnCount < (up.length : Int)) : ∃ b, validateRule p up = some b := by
  obtain ⟨ns, hns⟩ := nodes_isSome p hne
  obtain ⟨n, hn⟩ : ∃ n : Nat, p.FixedColumnCount = (n : Int) :=
    ⟨p.FixedColumnCount.toNat, (Int.toNat_of_nonneg hfix).symm⟩
  have hnlt : n < up.length := by omega
  unfold validateRule
  rw [hns]
  simp only
  cases ns with
  | nil => exact ⟨false, rfl⟩
  | cons x xs =>
    simp only
    rw [hn, index_natCast, List.getElem?_eq_getElem hnlt]
    simp only
    rcases validateRule_start_spec up[n] (x :: xs) 0 with ⟨j, nd, h1, h2, _⟩ | ⟨h1, _⟩
    · rw [h1]
      simp only
      have hj : 0 + j < (x :: xs).length := by
        have := (List.getElem?_eq_some.mp h2).1
        omega
      exact validateRule_walk_isSome (x :: xs)
        (fun nd hnd k hk => nodes_inRange p (x :: xs) hns nd hnd k hk) _ _ hj
    · rw [h1]
      exact ⟨false, rfl⟩

/-- C27: for a configuration whose rule groups each hold a value and whose
`FixedColumnCount` is not negative, `Validate` returns a boolean for every
template row and every uploaded row; and where `Validate` goes on to the
three checks (the compacted header is longer than a template of at least
`FixedColumnCount` cells), `nodes`, `validateFixed`,
`validateAllowedEndValue` and `validateRule` each return, none with an
access outside a slice. -/
theorem Validate_returns (p : HeaderRuleValidate) (hne : ∀ g ∈ p.RuleGroups, g.Values ≠ [])
    (hfix : 0 ≤ p.FixedColumnCount) (tpl up : List String) :
    (∃ b, Validate p tpl up = some b)
      ∧ (p.FixedColumnCount ≤ (tpl.length : Int) → tpl.length < (Validate.compact up).length →
          (∃ ns, nodes p = some ns)
            ∧ (∃ b, validateFixed p tpl (Validate.compact up) = some b)
            ∧ (∃ b, validateAllowedEndValue p (Validate.compact up) = some b)
            ∧ ∃ b, validateRule p (Validate.compact up) = some b) := by
  have hparts : p.FixedColumnCount ≤ (tpl.length : Int) →
      tpl.length < (Validate.compact up).length →
      (∃ ns, nodes p = some ns)
        ∧ (∃ b, validateFixed p tpl (Validate.compact up) = some b)
        ∧ (∃ b, validateAllowedEndValue p (Validate.compact up) = some b)
        ∧ ∃ b, validateRule p (Validate.compact up) = some b := by
    intro h1 h2
    exact ⟨nodes_isSome p hne,
      validateFixed_isSome p tpl _ hfix (by omega) h1 (by omega),
      validateAllowedEndValue_isSome p _ (by omega),
      validateRule_isSome p hne _ hfix (by omega)⟩
  refine ⟨?_, hparts⟩
  unfold Validate
  simp only
  split
  · exact ⟨false, rfl⟩
  · rename_i hguard
    split
    · exact ⟨_, rfl⟩
    · rename_i hneq
      obtain ⟨_, ⟨b1, hb1⟩, ⟨b2, hb2⟩, ⟨b3, hb3⟩⟩ := hparts (by omega) (by omega)
      unfold validate andThen
      rw [hb1]
      cases b1 with
      | false => exact ⟨false, rfl⟩
      | true =>
        simp only
        rw [hb2]
        cases b2 with
        | false => exact ⟨false, rfl⟩
        | true =>
          simp only [andThen]
          exact ⟨b3, hb3⟩

/-- C27 at the groups `a, b` and `c, d`: `Validate` returns on the header
`a, b, x` against the empty template. -/
theorem Validate_returns_witness : ∃ b, Validate twoGroups [] ["a", "b", "x"] = some b :=
  (Validate_returns twoGroups (by decide) (by decide) [] ["a", "b", "x"]).1

/-! ### The failure flag of a row -/

theorem Errors_Append_eq (p : Errors) (errs : List (Option String)) :
    Errors.Append p errs = p ++ errs.filterMap id := by
  induction errs generalizing p with
  | nil => simp [Errors.Append]
  | cons e es ih =>
    cases e with
    | none => simp [Errors.Append, ih]
    | some m => simp [Errors.Append, ih]

theorem rows_IsErr_iff {δ : Type} (rs : rows δ) :
    rows.IsErr rs = true ↔ ∃ r ∈ rs, row.IsErr r = true := by
  induction rs with
  | nil => simp [rows.IsErr]
  | cons r rs ih =>
    by_cases h : row.IsErr r = true
    · simp [rows.IsErr, h]
    · simp [rows.IsErr, h, ih]

/-- A property of rows that holds for a fresh row and is kept by every call
of `SetErrs` that a call on the collection may make holds for every row of
the collection after the call. -/
theorem rows_Call_apply_forall {δ : Type} (Q : row δ → Prop) (ok : List (Option String) → Prop)
    (hfresh : ∀ data index, Q { Data := data, index := index, errs := [], isErr := false })
    (hset : ∀ r errs, ok errs → Q r → Q (row.SetErrs r errs))
    (rs : rows δ) (c : rows.Call δ)
    (hc : match c with
      | rows.Call.Append _ _ => True
      | rows.Call.SetErrs _ errs => ok errs
      | rows.Call.SetRowsErrs errs => ok errs)
    (hrs : ∀ r ∈ rs, Q r) : ∀ r ∈ rows.Call.apply rs c, Q r := by
  cases c with
  | Append data index =>
    intro r hr
    simp only [rows.Call.apply, rows.Append, List.mem_append, List.mem_singleton] at hr
    rcases hr with hr | hr
    · exact hrs r hr
    · rw [hr]
      exact hfresh data index
  | SetErrs j errs =>
    simp only [rows.Call.apply]
    simp only at hc
    clear hfresh
    induction rs generalizing j with
    | nil => simp [rows.SetErrsAt]
    | cons x xs ih =>
      cases j with
      | zero =>
        intro r hr
        simp only [rows.SetErrsAt, List.mem_cons] at hr
        rcases hr with hr | hr
        · rw [hr]
          exact hset x errs hc (hrs x (List.mem_cons_self _ _))
        · exact hrs r (List.mem_cons_of_mem _ hr)
      | succ j =>
        intro r hr
        simp only [rows.SetErrsAt, List.mem_cons] at hr
        rcases hr with hr | hr
        · rw [hr]
          exact hrs x (List.mem_cons_self _ _)
        · exact ih (fun r hr => hrs r (List.mem_cons_of_mem _ hr)) j r hr
  | SetRowsErrs errs =>
    intro r hr
    simp only [rows.Call.apply, rows.SetRowsErrs] at hr
    simp only at hc
    split at hr
    · exact hrs r hr
    · obtain ⟨x, hx, hxr⟩ := List.mem_map.mp hr
      rw [← hxr]
      exact hset x errs hc (hrs x hx)

theorem rows_calls_forall {δ : Type} (Q : row δ → Prop) (ok : List (Option String) → Prop)
    (hfresh : ∀ data index, Q { Data := data, index := index, errs := [], isErr := false })
    (hset : ∀ r errs, ok errs → Q r → Q (row.SetErrs r errs))
    (calls : List (rows.Call δ)) (rs : rows δ)
    (hc : ∀ c ∈ calls, match c with
      | rows.Call.Append _ _ => True
      | rows.Call.SetErrs _ errs => ok errs
      | rows.Call.SetRowsErrs errs => ok errs)
    (hrs : ∀ r ∈ rs, Q r) : ∀ r ∈ calls.foldl rows.Call.apply rs, Q r := by
  induction calls generalizing rs with
  | nil => exact hrs
  | cons c cs ih =>
    rw [List.foldl_cons]
    exact ih _ (fun c' hc' => hc c' (List.mem_cons_of_mem _ hc'))
      (rows_Call_apply_forall Q ok hfresh hset rs c (hc c (List.mem_cons_self _ _)) hrs)

/-- C28: after `Append` and `GetRow(0).SetErrs(nil)` the row is flagged
(`IsErr()` is true, for the row and for the collection) although its failure
list is empty. After any calls a row with a failure is flagged; and when no
call passes a nil error, a row is flagged exactly when its failure list is
not empty, and the collection exactly when some row has a failure. -/
theorem rows_IsErr_nil_error :
    (rows.IsErr ([rows.Call.Append "x" 1, rows.Call.SetErrs 0 [none]].foldl
          rows.Call.apply (newRows String)) = true
        ∧ ∀ r ∈ [rows.Call.Append "x" 1, rows.Call.SetErrs 0 [none]].foldl
            rows.Call.apply (newRows String), row.IsErr r = true ∧ row.GetErrs r = [])
      ∧ (∀ (δ : Type) (calls : List (rows.Call δ)),
          ∀ r ∈ calls.foldl rows.Call.apply (newRows δ), row.GetErrs r ≠ [] → row.IsErr r = true)
      ∧ ∀ (δ : Type) (calls : List (rows.Call δ)), (∀ c ∈ calls, rows.Call.NoNil c) →
          (∀ r ∈ calls.foldl rows.Call.apply (newRows δ),
              (row.IsErr r = true ↔ row.GetErrs r ≠ []))
            ∧ (rows.IsErr (calls.foldl rows.Call.apply (newRows δ)) = true ↔
                ∃ r ∈ calls.foldl rows.Call.apply (newRows δ), row.GetErrs r ≠ []) := by
  refine ⟨by decide, ?_, ?_⟩
  · intro δ calls
    refine rows_calls_forall (fun r => row.GetErrs r ≠ [] → row.IsErr r = true) (fun _ => True)
      ?_ ?_ calls (newRows δ) ?_ (by simp [newRows])
    · intro data index
      simp [row.GetErrs]
    · intro r errs _ hr
      unfold row.SetErrs
      split
      · exact hr
      · intro _
        rfl
    · intro c _
      cases c <;> trivial
  · intro δ calls hnil
    have hrow : ∀ r ∈ calls.foldl rows.Call.apply (newRows δ),
        (row.IsErr r = true ↔ row.GetErrs r ≠ []) := by
      refine rows_calls_forall (fun r => row.IsErr r = true ↔ row.GetErrs r ≠ [])
        (fun errs => none ∉ errs) ?_ ?_ calls (newRows δ) ?_ (by simp [newRows])
      · intro data index
        simp [row.GetErrs, row.IsErr]
      · intro r errs hok hr
        unfold row.SetErrs
        split
        · exact hr
        · rename_i hlen
          simp only [row.IsErr, row.GetErrs, Errors_Append_eq, true_iff]
          cases errs with
          | nil => simp at hlen
          | cons e es =>
            cases e with
            | none => simp at hok
            | some m => simp
      · intro c hc
        have := hnil c hc
        cases c with
        | Append _ _ => trivial
        | SetErrs j errs => exact this
        | SetRowsErrs errs => exact this
    refine ⟨hrow, ?_⟩
    rw [rows_IsErr_iff]
    constructor
    · rintro ⟨r, hr, h⟩
      exact ⟨r, hr, (hrow r hr).mp h⟩
    · rintro ⟨r, hr, h⟩
      exact ⟨r, hr, (hrow r hr).mpr h⟩

end ImportKit
